import Mathlib

/-!
# go-bitcask: a shallow embedding of the record codec, the segment storage and the engine

The development follows the five source files of the repository:

* `entry.go`   : `Meta`, `Entry`, `NewEntry`, `NewEntryWithData`, `Entry.Encode`,
  `Entry.DecodeMeta`, `Entry.DecodePayload`, `Entry.Size`, `Entry.getCrc`;
* `index.go`   : `Index`, `keyDir`;
* `stroage.go` : `Storage`, `ActiveFile`, `readEntry`, `readFullEntry`, `readAt`, `writeAt`,
  `rotate`, `NewStorage`;
* `util.go`    : `getSegmentSize`, `getFids` (`getFidsNames` is its loop over the names that
  `os.ReadDir` lists);
* `db.go`      : `NewDB`, `Set`, `Get`, `Delete`, `Merge`, `recovery`.

Modelling conventions.

* A byte is a `Fin 256`; a byte string or a file content is a `List Byte`.
* Machine integers are natural numbers; `uint32` and `uint64` arithmetic is reduced
  modulo `2^32` and `2^64` where the source computes in those types.  Segment ids (Go `int`)
  are integers: `strconv.Atoi` accepts a sign.
* A Go run-time panic (slice bounds out of range, nil dereference) is the outcome `Res.panic`;
  a returned `error` is `Res.error`.
* The file system is explicit state: the ids `n` of the entries of `Dir` that carry the name
  `fmt.Sprintf("%d.dat", n)`, under which the engine addresses segment `n`, the names of the
  other entries of `Dir`, and the content reachable under each id.  A file that was unlinked
  stays readable through a handle that is still cached in `Storage.fds` (POSIX semantics of
  `os.Remove` on an open file).
  Positional reads and writes on an open handle do not fail for reasons outside the model.
* The wall clock read by `NewEntryWithData` is an argument `now`.
* The two scan loops (`Merge`, `recovery`) take a fuel argument that bounds the number
  of iterations.
-/

namespace Bitcask

/-! ## Bytes, little-endian integers, CRC-32 -/

abbrev Byte := Fin 256

/-- Go `binary.LittleEndian.PutUintN`: the `n` low-order bytes of `v`, least significant first. -/
def leBytes : Nat → Nat → List Byte
  | 0, _ => []
  | n + 1, v => ⟨v % 256, Nat.mod_lt _ (by decide)⟩ :: leBytes n (v / 256)

/-- Go `binary.LittleEndian.UintN`: the number whose little-endian bytes are `bs`. -/
def leNat : List Byte → Nat
  | [] => 0
  | b :: bs => b.val + 256 * leNat bs

/-- One bit step of the table generator of `hash/crc32` (reflected polynomial `0xedb88320`). -/
def crcBit (c : Nat) : Nat :=
  if c % 2 = 1 then (c >>> 1) ^^^ 0xedb88320 else c >>> 1

/-- Entry `i` of `crc32.IEEETable`. -/
def crcTable (i : Nat) : Nat :=
  crcBit (crcBit (crcBit (crcBit (crcBit (crcBit (crcBit (crcBit i)))))))

/-- Loop body of `crc32.simpleUpdate`: `crc = tab[byte(crc) ^ v] ^ (crc >> 8)`. -/
def crcStep (crc : Nat) (v : Byte) : Nat :=
  crcTable ((crc % 256) ^^^ v.val) ^^^ (crc >>> 8)

/-- Go `crc32.Update(crc, crc32.IEEETable, p)`. -/
def crcUpdate (crc : Nat) (p : List Byte) : Nat :=
  (p.foldl crcStep (crc ^^^ 0xffffffff)) ^^^ 0xffffffff

/-- Go `crc32.ChecksumIEEE(data)`. -/
def ChecksumIEEE (data : List Byte) : Nat :=
  crcUpdate 0 data

/-! ## Outcomes -/

/-- The errors of `db.go` and `stroage.go`, `io.EOF`, and any other error (of the OS or of a
library call). -/
inductive Err where
  | ErrKeyNotFound
  | ErrNoNeedToMerge
  | readMissDataErr
  | writeMissDataErr
  | crcErr
  | deleteEntryErr
  | EOF
  | osErr
  deriving DecidableEq, Repr

/-- Outcome of a call: a value, a returned error, or a run-time panic. -/
inductive Res (α : Type) where
  | ok (a : α)
  | error (e : Err)
  | panic
  deriving DecidableEq, Repr

/-! ## entry.go -/

def MetaSize : Nat := 29

def DeleteFlag : Nat := 1

structure Meta where
  crc : Nat
  position : Nat
  timestamp : Nat
  keySize : Nat
  valueSize : Nat
  flag : Nat
  deriving DecidableEq, Repr

structure Entry where
  key : List Byte
  value : List Byte
  meta : Meta
  deriving DecidableEq, Repr

def NewEntry : Entry :=
  { key := [], value := [], meta := ⟨0, 0, 0, 0, 0, 0⟩ }

/-- `NewEntryWithData`; `now` is `time.Now().Unix()`. -/
def NewEntryWithData (now : Nat) (key value : List Byte) : Entry :=
  { key := key
    value := value
    meta :=
      { crc := 0
        position := 0
        timestamp := now % 2 ^ 64
        keySize := key.length % 2 ^ 32
        valueSize := value.length % 2 ^ 32
        flag := 0 } }

/-- The entry that `DB.Delete` builds: `NewEntry()` with `meta.flag = DeleteFlag`. -/
def tombstone : Entry :=
  { NewEntry with meta := { NewEntry.meta with flag := DeleteFlag } }

/-- `Entry.Size`: the sum is computed in `uint32`. -/
def Entry.Size (e : Entry) : Nat :=
  (e.meta.keySize + e.meta.valueSize + MetaSize) % 2 ^ 32

/-- Go `copy(buf[lo:hi], src)` on a buffer whose capacity is its length: `none` when the slice
expression is out of range, otherwise `min (hi - lo) (len src)` bytes are overwritten. -/
def sliceCopy (buf : List Byte) (lo hi : Nat) (src : List Byte) : Option (List Byte) :=
  if lo ≤ hi ∧ hi ≤ buf.length then
    some (buf.take lo ++ src.take (hi - lo) ++ buf.drop (lo + min (hi - lo) src.length))
  else none

/-- Go `buf[lo:hi]` on a slice whose capacity is `buf.length`. -/
def slice (buf : List Byte) (lo hi : Nat) : Option (List Byte) :=
  if lo ≤ hi ∧ hi ≤ buf.length then some ((buf.drop lo).take (hi - lo)) else none

/-- The statements of `Entry.Encode` up to the checksum; `none` is a panic. -/
def Entry.encodeBody (e : Entry) : Option (List Byte) := do
  let buf := List.replicate e.Size (0 : Byte)
  let buf ← sliceCopy buf 4 12 (leBytes 8 e.meta.position)
  let buf ← sliceCopy buf 12 20 (leBytes 8 e.meta.timestamp)
  let buf ← sliceCopy buf 20 24 (leBytes 4 e.meta.keySize)
  let buf ← sliceCopy buf 24 28 (leBytes 4 e.meta.valueSize)
  let buf ← sliceCopy buf 28 29 (leBytes 1 e.meta.flag)
  let buf ←
    if e.meta.flag ≠ DeleteFlag then do
      let klo := (MetaSize + e.meta.keySize) % 2 ^ 32
      let vhi := (klo + e.meta.valueSize) % 2 ^ 32
      let buf ← sliceCopy buf MetaSize klo e.key
      sliceCopy buf klo vhi e.value
    else some buf
  pure buf

/-- `Entry.Encode`. -/
def Entry.Encode (e : Entry) : Res (List Byte) :=
  match e.encodeBody with
  | none => .panic
  | some buf =>
    match slice buf 4 buf.length with
    | none => .panic
    | some tail =>
      match sliceCopy buf 0 4 (leBytes 4 (ChecksumIEEE tail)) with
      | none => .panic
      | some buf => .ok buf

/-- `Entry.DecodeMeta`. -/
def Entry.DecodeMeta (e : Entry) (meta : List Byte) : Res Entry :=
  match (do
    let crc ← slice meta 0 4
    let position ← slice meta 4 12
    let timestamp ← slice meta 12 20
    let keySize ← slice meta 20 24
    let valueSize ← slice meta 24 28
    let flag ← meta.get? 28
    pure ({ crc := leNat crc, position := leNat position, timestamp := leNat timestamp,
            keySize := leNat keySize, valueSize := leNat valueSize, flag := flag.val } : Meta))
  with
  | none => .panic
  | some m => .ok { e with meta := m }

/-- `Entry.DecodePayload`.  A reslice in Go is bounded by the capacity of the slice, not by its
length, and the function only reslices: `preload` is the content of the argument up to its
capacity. -/
def Entry.DecodePayload (e : Entry) (preload : List Byte) : Res Entry :=
  let keyHightBound := e.meta.keySize
  let valueHightBound := (e.meta.keySize + e.meta.valueSize) % 2 ^ 32
  match slice preload 0 keyHightBound with
  | none => .panic
  | some key =>
    match slice preload keyHightBound valueHightBound with
    | none => .panic
    | some value => .ok { e with key := key, value := value }

/-- `Entry.getCrc`; `buf` is the 29 metadata bytes. -/
def Entry.getCrc (e : Entry) (buf : List Byte) : Res Nat :=
  match slice buf 4 buf.length with
  | none => .panic
  | some tail => .ok (crcUpdate (crcUpdate (ChecksumIEEE tail) e.key) e.value)

/-! ## index.go -/

structure Index where
  fid : Int
  off : Nat
  timestamp : Nat
  keySize : Nat
  valueSize : Nat
  deriving DecidableEq, Repr

/-- The Go map `map[string]*Index`: a key is present when it is mapped to `some` index. -/
structure keyDir where
  index : List Byte → Option Index

def keyDir.find (kd : keyDir) (key : List Byte) : Option Index :=
  kd.index key

def keyDir.update (kd : keyDir) (key : List Byte) (i : Index) : keyDir :=
  { index := fun k => if k = key then some i else kd.index k }

/-- Go `delete(kd.index, key)`. -/
def keyDir.delete (kd : keyDir) (key : List Byte) : keyDir :=
  { index := fun k => if k = key then none else kd.index k }

/-! ## The file system under `Dir` -/

/-- The constant `fileSuffix` of stroage.go. -/
def fileSuffix : List Char := ['.', 'd', 'a', 't']

/-- Go `fmt.Sprintf("%d", n)`: the decimal digits of `n`, after a minus sign when `n` is
negative. -/
def formatInt (n : Int) : List Char :=
  if n < 0 then '-' :: Nat.toDigits 10 n.natAbs else Nat.toDigits 10 n.natAbs

/-- The name `fmt.Sprintf("%d%s", fid, fileSuffix)` under which `NewStorage`, `rotate`, `readAt`,
`recovery` and `Merge` address segment `fid`. -/
def segmentName (fid : Int) : String :=
  String.mk (formatInt fid ++ fileSuffix)

/-- State of the directory `Dir`: `dir = none` when it does not exist, otherwise the ids `n` of
the entries named `segmentName n`; `others` holds the names of the remaining entries of `Dir`,
none of which is a `segmentName`: the engine lists them and never opens, creates or removes
them.  `data n` is the content of the file opened or created last under id `n` (it outlives an
unlink for the handles that are still open). -/
structure FS where
  dir : Option (List Int)
  data : Int → List Byte
  others : List String

/-- Go `os.ReadDir(Dir)`: the names of the entries of `Dir`, sorted by file name; `none` when
`Dir` does not exist. -/
def FS.readDir (fs : FS) : Option (List String) :=
  match fs.dir with
  | none => none
  | some ids => some ((ids.map segmentName ++ fs.others).insertionSort (fun a b => a ≤ b))

def FS.hasFile (fs : FS) (fid : Int) : Bool :=
  match fs.dir with
  | none => false
  | some ids => decide (fid ∈ ids)

/-- Go `os.OpenFile(path, os.O_RDWR|os.O_CREATE, os.ModePerm)`: an existing file keeps its
content, a missing one is created empty; `none` when `Dir` does not exist. -/
def FS.openCreate (fs : FS) (fid : Int) : Option FS :=
  match fs.dir with
  | none => none
  | some ids =>
    if fid ∈ ids then some fs
    else some { fs with dir := some (ids ++ [fid]), data := Function.update fs.data fid [] }

/-- Go `os.Remove(path)`: `none` when the file does not exist. -/
def FS.remove (fs : FS) (fid : Int) : Option FS :=
  match fs.dir with
  | none => none
  | some ids =>
    if fid ∈ ids then some { fs with dir := some (ids.filter (fun i => i ≠ fid)) }
    else none

/-- Go `os.File.ReadAt` of `n` bytes at `off`: an empty read succeeds, a read that ends
beyond the end of the file returns `io.EOF`. -/
def fileReadAt (data : List Byte) (off n : Nat) : Res (List Byte) :=
  if n = 0 then .ok []
  else if off + n ≤ data.length then .ok ((data.drop off).take n)
  else .error .EOF

/-- Go `os.File.WriteAt(b, off)`: an empty write changes nothing, a write beyond the end of the
file fills the gap with zero bytes. -/
def fileWriteAt (data : List Byte) (off : Nat) (b : List Byte) : List Byte :=
  if b = [] then data
  else data.take off ++ List.replicate (off - data.length) 0 ++ b ++ data.drop (off + b.length)

/-! ## stroage.go -/

structure ActiveFile where
  fid : Int
  off : Nat
  deriving DecidableEq, Repr

/-- `Storage`; `fds` holds the ids with a cached handle, `af = none` is the nil pointer. -/
structure Storage where
  fileSize : Nat
  fds : List Int
  af : Option ActiveFile
  deriving DecidableEq, Repr

/-- `NewStorage`: `os.Mkdir` fails when `Dir` exists; the new directory holds `0.dat` only. -/
def NewStorage (fs : FS) (fileSize : Nat) : Res Storage × FS :=
  match fs.dir with
  | some _ => (.error .osErr, fs)
  | none =>
    (.ok { fileSize := fileSize, fds := [0], af := some ⟨0, 0⟩ },
     { dir := some [0], data := Function.update fs.data 0 [], others := [] })

/-- `Storage.readAt` into a buffer of `n` bytes. -/
def Storage.readAt (s : Storage) (fs : FS) (fid : Int) (off n : Nat) :
    Res (List Byte) × Storage :=
  if fid ∈ s.fds then (fileReadAt (fs.data fid) off n, s)
  else if fs.hasFile fid then (fileReadAt (fs.data fid) off n, { s with fds := fid :: s.fds })
  else (.error .osErr, s)

/-- The pair `(*Entry, error)` returned by `readEntry`. -/
inductive ReadEntry where
  | entry (e : Entry)
  | deleted (e : Entry)
  | error (err : Err)
  | panic
  deriving DecidableEq, Repr

/-- `Storage.readEntry`. -/
def Storage.readEntry (s : Storage) (fs : FS) (fid : Int) (off : Nat) : ReadEntry × Storage :=
  match s.readAt fs fid off MetaSize with
  | (.error err, s) => (.error err, s)
  | (.panic, s) => (.panic, s)
  | (.ok buf, s) =>
    match NewEntry.DecodeMeta buf with
    | .error err => (.error err, s)
    | .panic => (.panic, s)
    | .ok entry =>
      if entry.meta.flag = DeleteFlag then (.deleted entry, s)
      else
        let off := off + MetaSize
        let payloadSize := (entry.meta.keySize + entry.meta.valueSize) % 2 ^ 32
        match s.readAt fs fid off payloadSize with
        | (.error err, s) => (.error err, s)
        | (.panic, s) => (.panic, s)
        | (.ok payload, s) =>
          match entry.DecodePayload payload with
          | .error err => (.error err, s)
          | .panic => (.panic, s)
          | .ok entry =>
            match entry.getCrc buf with
            | .error err => (.error err, s)
            | .panic => (.panic, s)
            | .ok crc =>
              if entry.meta.crc ≠ crc then (.error .crcErr, s)
              else (.entry entry, s)

/-- `Storage.readFullEntry`; `n` is the length of the buffer `buf` made by the caller. -/
def Storage.readFullEntry (s : Storage) (fs : FS) (fid : Int) (off n : Nat) :
    Res Entry × Storage :=
  match s.readAt fs fid off n with
  | (.error err, s) => (.error err, s)
  | (.panic, s) => (.panic, s)
  | (.ok buf, s) =>
    match slice buf 0 MetaSize with
    | none => (.panic, s)
    | some meta =>
      match NewEntry.DecodeMeta meta with
      | .error err => (.error err, s)
      | .panic => (.panic, s)
      | .ok e =>
        let payloadSize := (e.meta.keySize + e.meta.keySize) % 2 ^ 32
        match slice buf MetaSize ((MetaSize + payloadSize) % 2 ^ 32) with
        | none => (.panic, s)
        | some _ =>
          match e.DecodePayload (buf.drop MetaSize) with
          | .error err => (.error err, s)
          | .panic => (.panic, s)
          | .ok e =>
            match e.getCrc meta with
            | .error err => (.error err, s)
            | .panic => (.panic, s)
            | .ok crc =>
              if e.meta.crc ≠ crc then (.error .crcErr, s)
              else (.ok e, s)

/-- `ActiveFile.writeAt`: the bytes are written at the cursor of the active file. -/
def ActiveFile.writeAt (af : ActiveFile) (fs : FS) (bytes : List Byte) : FS :=
  { fs with data := Function.update fs.data af.fid (fileWriteAt (fs.data af.fid) af.off bytes) }

/-- `Storage.rotate`. -/
def Storage.rotate (s : Storage) (fs : FS) : Res Unit × Storage × FS :=
  match s.af with
  | none => (.panic, s, fs)
  | some af =>
    match fs.openCreate (af.fid + 1) with
    | none => (.error .osErr, s, fs)
    | some fs => (.ok (), { s with fds := (af.fid + 1) :: s.fds, af := some ⟨af.fid + 1, 0⟩ }, fs)

/-- `Storage.writeAt`. -/
def Storage.writeAt (s : Storage) (fs : FS) (bytes : List Byte) : Res Index × Storage × FS :=
  match s.af with
  | none => (.panic, s, fs)
  | some af =>
    let fs := af.writeAt fs bytes
    let i : Index := { fid := af.fid, off := af.off, timestamp := 0, keySize := 0, valueSize := 0 }
    let s := { s with af := some { af with off := af.off + bytes.length } }
    if s.fileSize ≤ af.off + bytes.length then
      match s.rotate fs with
      | (.ok (), s, fs) => (.ok i, s, fs)
      | (.error err, s, fs) => (.error err, s, fs)
      | (.panic, s, fs) => (.panic, s, fs)
    else (.ok i, s, fs)

/-! ## util.go -/

/-- `getSegmentSize`; the constant `DefaultSegmentSize` is declared outside the source files at
hand and is an argument. -/
def getSegmentSize (DefaultSegmentSize : Nat) (size : Int) : Nat :=
  if size ≤ 0 then DefaultSegmentSize else size.toNat

/-- Go `path.Base`: trailing slashes are removed, then everything up to the last slash; the
empty path gives `.`, a path of slashes gives `/`. -/
def pathBase (p : List Char) : List Char :=
  if p = [] then ['.']
  else
    let q := ((p.reverse.dropWhile (fun c => c == '/')).takeWhile (fun c => c != '/')).reverse
    if q = [] then ['/'] else q

/-- The loop of Go `path.Ext` over the path read backwards. -/
def pathExtLoop : List Char → List Char → List Char
  | [], _ => []
  | c :: rest, acc =>
    if c = '/' then [] else if c = '.' then '.' :: acc else pathExtLoop rest (c :: acc)

/-- Go `path.Ext`: the suffix from the last dot of the last element of the path, or nothing. -/
def pathExt (p : List Char) : List Char :=
  pathExtLoop p.reverse []

/-- Go `strings.TrimSuffix`. -/
def trimSuffix (s suffix : List Char) : List Char :=
  if suffix.isSuffixOf s then s.take (s.length - suffix.length) else s

/-- Value of a string of decimal digits. -/
def decimal (ds : List Char) : Nat :=
  ds.foldl (fun n c => 10 * n + (c.toNat - 48)) 0

/-- Go `strconv.Atoi` with a 64-bit `int`: an optional sign, then one or more decimal digits;
`none` is the syntax or range error. -/
def Atoi (s : List Char) : Option Int :=
  let neg := s.head? = some '-'
  let ds := if s.head? = some '-' ∨ s.head? = some '+' then s.tail else s
  if ds = [] then none
  else if ds.all Char.isDigit then
    if neg then (if decimal ds ≤ 2 ^ 63 then some (-(decimal ds : Int)) else none)
    else (if decimal ds < 2 ^ 63 then some (decimal ds : Int) else none)
  else none

/-- The loop of `getFids` over the names that `os.ReadDir` returns; the error of
`strconv.Atoi` is returned as `Err.osErr`. -/
def getFidsLoop : List String → List Int → Res (List Int)
  | [], fids => .ok fids
  | f :: files, fids =>
    let filePath := pathBase f.data
    if pathExt filePath = fileSuffix then
      match Atoi (trimSuffix filePath fileSuffix) with
      | none => .error .osErr
      | some fid => getFidsLoop files (fids ++ [fid])
    else getFidsLoop files fids

/-- `getFids` of util.go as a function of the directory listing. -/
def getFidsNames (files : List String) : Res (List Int) :=
  getFidsLoop files []

/-- `getFids`: the loop of util.go over the names that `os.ReadDir(Dir)` returns; an error when
the directory cannot be read. -/
def getFids (fs : FS) : Res (List Int) :=
  match fs.readDir with
  | none => .error .osErr
  | some files => getFidsNames files

/-! ## db.go -/

structure DB where
  kd : keyDir
  s : Storage

/-- `DB.Set`; `now` is the wall clock read by `NewEntryWithData`. -/
def DB.Set (db : DB) (fs : FS) (now : Nat) (key value : List Byte) : Res Unit × DB × FS :=
  let entry := NewEntryWithData now key value
  match entry.Encode with
  | .error err => (.error err, db, fs)
  | .panic => (.panic, db, fs)
  | .ok buf =>
    match db.s.writeAt fs buf with
    | (.error err, s, fs) => (.error err, { db with s := s }, fs)
    | (.panic, s, fs) => (.panic, { db with s := s }, fs)
    | (.ok index, s, fs) =>
      let index := { index with keySize := key.length, valueSize := value.length }
      (.ok (), { kd := db.kd.update key index, s := s }, fs)

/-- `DB.Get`. -/
def DB.Get (db : DB) (fs : FS) (key : List Byte) : Res (List Byte) × DB :=
  match db.kd.find key with
  | none => (.error .ErrKeyNotFound, db)
  | some index =>
    let dataSize := MetaSize + index.keySize + index.valueSize
    match db.s.readFullEntry fs index.fid index.off dataSize with
    | (.error err, s) => (.error err, { db with s := s })
    | (.panic, s) => (.panic, { db with s := s })
    | (.ok entry, s) => (.ok entry.value, { db with s := s })

/-- `DB.Delete`. -/
def DB.Delete (db : DB) (fs : FS) (key : List Byte) : Res Unit × DB × FS :=
  match db.kd.find key with
  | none => (.error .ErrKeyNotFound, db, fs)
  | some _ =>
    let entry := tombstone
    match entry.Encode with
    | .error err => (.error err, db, fs)
    | .panic => (.panic, db, fs)
    | .ok buf =>
      match db.s.writeAt fs buf with
      | (.error err, s, fs) => (.error err, { db with s := s }, fs)
      | (.panic, s, fs) => (.panic, { db with s := s }, fs)
      | (.ok _, s, fs) => (.ok (), { kd := db.kd.delete key, s := s }, fs)

/-- The inner `for` loop of `DB.Merge` over the records of segment `fid`, from offset `off`;
`none` when the fuel runs out. -/
def DB.mergeScan (fid : Int) : Nat → Nat → DB → FS → Option (Res Unit × DB × FS)
  | 0, _, _, _ => none
  | fuel + 1, off, db, fs =>
    match db.s.readEntry fs fid off with
    | (.deleted entry, s) => DB.mergeScan fid fuel (off + entry.Size) { db with s := s } fs
    | (.error .EOF, s) => some (.ok (), { db with s := s }, fs)
    | (.error err, s) => some (.error err, { db with s := s }, fs)
    | (.panic, s) => some (.panic, { db with s := s }, fs)
    | (.entry entry, s) =>
      let db := { db with s := s }
      let off := off + entry.Size
      match db.kd.find entry.key with
      | none => DB.mergeScan fid fuel off db fs
      | some oldIndex =>
        if oldIndex.fid = fid ∧ off = oldIndex.off then
          match entry.Encode with
          | .error err => some (.error err, db, fs)
          | .panic => some (.panic, db, fs)
          | .ok buf =>
            match db.s.writeAt fs buf with
            | (.error err, s, fs) => some (.error err, { db with s := s }, fs)
            | (.panic, s, fs) => some (.panic, { db with s := s }, fs)
            | (.ok newIndex, s, fs) =>
              DB.mergeScan fid fuel off { kd := db.kd.update entry.key newIndex, s := s } fs
        else DB.mergeScan fid fuel off db fs

/-- The outer `for` loop of `DB.Merge` over the sealed segments. -/
def DB.mergeSegments (fuel : Nat) : List Int → DB → FS → Option (Res Unit × DB × FS)
  | [], db, fs => some (.ok (), db, fs)
  | fid :: rest, db, fs =>
    match DB.mergeScan fid fuel 0 db fs with
    | none => none
    | some (.error err, db, fs) => some (.error err, db, fs)
    | some (.panic, db, fs) => some (.panic, db, fs)
    | some (.ok (), db, fs) =>
      match fs.remove fid with
      | none => some (.error .osErr, db, fs)
      | some fs => DB.mergeSegments fuel rest db fs

/-- `DB.Merge`; each segment scan runs for at most `fuel` iterations. -/
def DB.Merge (fuel : Nat) (db : DB) (fs : FS) : Option (Res Unit × DB × FS) :=
  match getFids fs with
  | .error err => some (.error err, db, fs)
  | .panic => some (.panic, db, fs)
  | .ok fids =>
    if fids.length < 2 then some (.error .ErrNoNeedToMerge, db, fs)
    else DB.mergeSegments fuel (fids.insertionSort (fun a b => a ≤ b)).dropLast db fs

/-- The inner `for` loop of `DB.recovery` over the records of segment `fid`; the result carries
the offset at which the scan stopped. -/
def DB.recoveryScan (fid : Int) (fs : FS) : Nat → Nat → DB → Option (Res Nat × DB)
  | 0, _, _ => none
  | fuel + 1, off, db =>
    match db.s.readEntry fs fid off with
    | (.deleted entry, s) => DB.recoveryScan fid fs fuel (off + entry.Size) { db with s := s }
    | (.error .EOF, s) => some (.ok off, { db with s := s })
    | (.error err, s) => some (.error err, { db with s := s })
    | (.panic, s) => some (.panic, { db with s := s })
    | (.entry entry, s) =>
      let i : Index :=
        { fid := fid, off := off, timestamp := entry.meta.timestamp, keySize := 0, valueSize := 0 }
      DB.recoveryScan fid fs fuel (off + entry.Size)
        { kd := { index := fun k => if k = entry.key then some i else db.kd.index k }, s := s }

/-- The outer `for` loop of `DB.recovery`; `last` is `fids[len(fids)-1]`. -/
def DB.recoverySegments (fuel : Nat) (last : Int) :
    List Int → DB → FS → Option (Res Unit × DB × FS)
  | [], db, fs => some (.ok (), db, fs)
  | fid :: rest, db, fs =>
    match fs.openCreate fid with
    | none => some (.error .osErr, db, fs)
    | some fs =>
      let db := { db with s := { db.s with fds := fid :: db.s.fds } }
      match DB.recoveryScan fid fs fuel 0 db with
      | none => none
      | some (.error err, db) => some (.error err, db, fs)
      | some (.panic, db) => some (.panic, db, fs)
      | some (.ok off, db) =>
        let db := if fid = last then { db with s := { db.s with af := some ⟨fid, off⟩ } } else db
        DB.recoverySegments fuel last rest db fs

/-- `Options`; the field `Dir` names the one directory that `FS` models. -/
structure Options where
  SegmentSize : Int

/-- `DB.recovery`. -/
def DB.recovery (DefaultSegmentSize fuel : Nat) (db : DB) (opt : Options) (fs : FS) :
    Option (Res Unit × DB × FS) :=
  let fileSize := getSegmentSize DefaultSegmentSize opt.SegmentSize
  let db := { db with s := { fileSize := fileSize, fds := [], af := none } }
  match getFids fs with
  | .error err => some (.error err, db, fs)
  | .panic => some (.panic, db, fs)
  | .ok fids =>
    let fids := fids.insertionSort (fun a b => a ≤ b)
    DB.recoverySegments fuel (fids.getLastD 0) fids db fs

/-- `NewDB`. -/
def NewDB (DefaultSegmentSize fuel : Nat) (opt : Options) (fs : FS) : Option (Res DB × FS) :=
  let db : DB := { kd := { index := fun _ => none }, s := { fileSize := 0, fds := [], af := none } }
  if fs.dir.isSome then
    match DB.recovery DefaultSegmentSize fuel db opt fs with
    | none => none
    | some (.error err, _, fs) => some (.error err, fs)
    | some (.panic, _, fs) => some (.panic, fs)
    | some (.ok (), db, fs) => some (.ok db, fs)
  else
    let fileSize := getSegmentSize DefaultSegmentSize opt.SegmentSize
    match NewStorage fs fileSize with
    | (.error err, fs) => some (.error err, fs)
    | (.panic, fs) => some (.panic, fs)
    | (.ok s, fs) => some (.ok { db with s := s }, fs)

/-! ## Sequences of operations -/

/-- A call on the engine; `reopen` abandons the instance and calls `NewDB` on the same `Dir`. -/
inductive Op where
  | set (now : Nat) (key value : List Byte)
  | get (key : List Byte)
  | delete (key : List Byte)
  | merge (fuel : Nat)
  | reopen (DefaultSegmentSize fuel : Nat) (opt : Options)

/-- What the caller observes of one call. -/
inductive Outcome where
  | done
  | value (v : List Byte)
  | error (e : Err)
  | panic
  deriving DecidableEq, Repr

def Outcome.ofUnit : Res Unit → Outcome
  | .ok _ => .done
  | .error e => .error e
  | .panic => .panic

def Outcome.ofBytes : Res (List Byte) → Outcome
  | .ok v => .value v
  | .error e => .error e
  | .panic => .panic

/-- One call and the state it leaves; `none` when a scan loop runs out of fuel.  After a failed
`reopen` the caller keeps the instance it had. -/
def DB.step (db : DB) (fs : FS) : Op → Option (Outcome × DB × FS)
  | .set now key value =>
    match db.Set fs now key value with
    | (r, db, fs) => some (Outcome.ofUnit r, db, fs)
  | .get key =>
    match db.Get fs key with
    | (r, db) => some (Outcome.ofBytes r, db, fs)
  | .delete key =>
    match db.Delete fs key with
    | (r, db, fs) => some (Outcome.ofUnit r, db, fs)
  | .merge fuel =>
    match db.Merge fuel fs with
    | none => none
    | some (r, db, fs) => some (Outcome.ofUnit r, db, fs)
  | .reopen d fuel opt =>
    match NewDB d fuel opt fs with
    | none => none
    | some (.ok db, fs) => some (.done, db, fs)
    | some (.error e, fs) => some (.error e, db, fs)
    | some (.panic, fs) => some (.panic, db, fs)

/-- A sequence of calls, with the outcomes in order. -/
def DB.run (db : DB) (fs : FS) : List Op → Option (List Outcome × DB × FS)
  | [] => some ([], db, fs)
  | op :: ops =>
    match db.step fs op with
    | none => none
    | some (o, db, fs) =>
      match DB.run db fs ops with
      | none => none
      | some (os, db, fs) => some (o :: os, db, fs)

/-- `NewDB` followed by a sequence of calls on the engine it returns. -/
def runStore (DefaultSegmentSize fuel : Nat) (opt : Options) (fs : FS) (ops : List Op) :
    Option (List Outcome × DB × FS) :=
  match NewDB DefaultSegmentSize fuel opt fs with
  | some (.ok db, fs) => DB.run db fs ops
  | _ => none

/-- A file system in which `Dir` does not exist. -/
def FS.absent : FS :=
  { dir := none, data := fun _ => [], others := [] }

/-- Flip bit `bit` of a byte. -/
def flipBit (b : Byte) (bit : Nat) : Byte :=
  ⟨(b.val ^^^ 2 ^ bit) % 256, Nat.mod_lt _ (by decide)⟩

/-- Flip bit `bit` of the byte at offset `pos` of segment `fid`. -/
def FS.flip (fs : FS) (fid : Int) (pos bit : Nat) : FS :=
  { fs with
    data := Function.update fs.data fid
      (List.set (fs.data fid) pos (flipBit ((fs.data fid).getD pos 0) bit)) }

/-- `true` for the calls of one engine instance other than a `Set` of key `k`. -/
def Op.avoids (k : List Byte) : Op → Bool
  | .set _ key _ => decide (key ≠ k)
  | .get _ => true
  | .delete _ => true
  | .merge _ => true
  | .reopen _ _ _ => false

/-! ## Invariants -/

/-- The segment files are the only entries of `Dir` with the extension `.dat`. -/
def NoForeignDat (fs : FS) : Prop :=
  ∀ f ∈ fs.others, pathExt (pathBase f.data) ≠ fileSuffix

/-- The active segment is the highest id in `Dir`, no id is listed twice, and the segment files
are the only entries of `Dir` with the extension `.dat`.  When `Dir` has no segment file there
is no active file. -/
def ActiveIsLast (s : Storage) (fs : FS) : Prop :=
  NoForeignDat fs ∧ ∃ ids, fs.dir = some ids ∧ ids.Nodup ∧
    match s.af with
    | some a => a.fid ∈ ids ∧ ∀ i ∈ ids, i ≤ a.fid
    | none => ids = []

/-- Loop invariant of `Merge`: `Dir` holds the sealed segments `rest` that are still to be
scanned, all below `a0`, and the segments from `a0` up to the active one. -/
def MergeInv (a0 : Int) (rest : List Int) (s : Storage) (fs : FS) : Prop :=
  NoForeignDat fs ∧ ∃ ids a, fs.dir = some ids ∧ ids.Nodup ∧ s.af = some a ∧ a0 ≤ a.fid ∧
    rest.Nodup ∧ (∀ f ∈ rest, f < a0) ∧ ∀ i, i ∈ ids ↔ (i ∈ rest ∨ (a0 ≤ i ∧ i ≤ a.fid))

/-- Bytes 4..28 of a record as laid out in the spec: position, timestamp, keySize, valueSize
and flag, little-endian. -/
def metaTail (m : Meta) : List Byte :=
  leBytes 8 m.position ++ leBytes 8 m.timestamp ++ leBytes 4 m.keySize ++
    leBytes 4 m.valueSize ++ leBytes 1 m.flag

/-- A record as laid out in the spec: the little-endian CRC-32 of `body` followed by `body`. -/
def frame (body : List Byte) : List Byte :=
  leBytes 4 (ChecksumIEEE body) ++ body


/-- The metadata that `DecodeMeta` reads back from the bytes written for `m`. -/
def Meta.stored (c : Nat) (m : Meta) : Meta :=
  { crc := c % 2 ^ 32, position := m.position % 2 ^ 64, timestamp := m.timestamp % 2 ^ 64,
    keySize := m.keySize % 2 ^ 32, valueSize := m.valueSize % 2 ^ 32, flag := m.flag % 256 }

/-! ## The spec's reading of a directory listing -/

/-- The spec's reading of a file name: the id `n` of a file named `<n>.dat` with `<n>` a
non-empty string of decimal digits, nothing for every other name. -/
def segmentIdSpec (name : String) : Option Nat :=
  if fileSuffix.isSuffixOf name.data then
    if name.data.take (name.data.length - 4) ≠ [] ∧
        (name.data.take (name.data.length - 4)).all Char.isDigit = true then
      some (decimal (name.data.take (name.data.length - 4)))
    else none
  else none

/-! ## The append cursor -/

/-- The append cursor of the active file is the length of the active segment file. -/
def CursorAtEnd (s : Storage) (fs : FS) : Prop :=
  ∃ a, s.af = some a ∧ a.off = (fs.data a.fid).length

/-- `true` for the calls on one engine instance (no reopen). -/
def Op.sameInstance : Op → Bool
  | .reopen _ _ _ => false
  | _ => true

/-- The states reached from a freshly created store (`NewDB` on an absent `Dir`) by a sequence
of `Set`, `Get`, `Delete` and `Merge` calls. -/
def ReachableFresh (db : DB) (fs : FS) : Prop :=
  ∃ (d fuel : Nat) (opt : Options) (data : Int → List Byte) (ops : List Op) (os : List Outcome),
    (∀ op ∈ ops, op.sameInstance = true) ∧
    runStore d fuel opt ⟨none, data, []⟩ ops = some (os, db, fs)

/-! ## Well-formed logs and the put records of the spec -/

/-- A record as `Encode` returns it: for a put entry built by `NewEntryWithData`, or for the
tombstone that `Delete` builds. -/
def IsRecord (b : List Byte) : Prop :=
  (∃ now key value, (NewEntryWithData now key value).Encode = .ok b) ∨ tombstone.Encode = .ok b

/-- The timestamp field of a record as laid out in the spec: bytes 12..19, little-endian. -/
def recordTimestampSpec (b : List Byte) : Nat :=
  leNat ((b.drop 12).take 8)

/-- The keySize field of a record as laid out in the spec: bytes 20..23, little-endian. -/
def recordKeySizeSpec (b : List Byte) : Nat :=
  leNat ((b.drop 20).take 4)

/-- The flag of a record as laid out in the spec: byte 28. -/
def recordFlagSpec (b : List Byte) : Nat :=
  leNat ((b.drop 28).take 1)

/-- The key of a record as laid out in the spec: `keySize` bytes from byte 29 on. -/
def recordKeySpec (b : List Byte) : List Byte :=
  (b.drop 29).take (recordKeySizeSpec b)

/-- A put record of a log: the segment it is in, the offset at which it starts, its key and its
timestamp. -/
structure Put where
  fid : Int
  off : Nat
  key : List Byte
  timestamp : Nat
  deriving DecidableEq, Repr

/-- The put records (flag 0 in the layout of the spec) of a segment that is the concatenation
of the records `recs`, the first of which starts at offset `off`. -/
def segmentPutsSpec (fid : Int) : Nat → List (List Byte) → List Put
  | _, [] => []
  | off, b :: recs =>
    if recordFlagSpec b = 0 then
      ⟨fid, off, recordKeySpec b, recordTimestampSpec b⟩ ::
        segmentPutsSpec fid (off + b.length) recs
    else segmentPutsSpec fid (off + b.length) recs

/-- The put records of the segments `ids`, where segment `fid` is the concatenation of the
records `recs fid`. -/
def putRecordsSpec (ids : List Int) (recs : Int → List (List Byte)) : List Put :=
  ids.flatMap (fun fid => segmentPutsSpec fid 0 (recs fid))

/-- A sample log: segment 0 holds the put record of key `k`, value `v` written at time 7 and a
tombstone; segment 1 is empty. -/
def sampleRecords (fid : Int) : List (List Byte) :=
  if fid = 0 then
    [[233, 107, 210, 8, 0, 0, 0, 0, 0, 0, 0, 0, 7, 0, 0, 0, 0, 0, 0, 0, 1, 0, 0, 0, 1, 0, 0, 0, 0,
        107, 118],
      [25, 62, 200, 158, 0, 0, 0, 0, 0, 0, 0, 0, 0, 0, 0, 0, 0, 0, 0, 0, 0, 0, 0, 0, 0, 0, 0, 0, 1]]
  else []

/-- The file system of the sample log; `Dir` also holds the entries `LOCK` and `7.txt`. -/
def sampleLog : FS :=
  { dir := some [0, 1], data := fun fid => (sampleRecords fid).flatten,
    others := ["LOCK", "7.txt"] }

/-- The sample log in a `Dir` that also holds an entry `notes.dat`. -/
def sampleLogNotes : FS :=
  { dir := some [0, 1], data := fun fid => (sampleRecords fid).flatten,
    others := ["notes.dat"] }

/-- The directory after the put records `puts` were entered in order, each as `recovery` enters
the record it has read (db.go:169-173). -/
def applyPuts (puts : List Put) (index : List Byte → Option Index) : List Byte → Option Index :=
  puts.foldl (fun idx p k =>
    if k = p.key then
      some { fid := p.fid, off := p.off, timestamp := p.timestamp, keySize := 0, valueSize := 0 }
    else idx k) index

/-- The id that the loop of `getFids` appends for the name `f`: nothing for a name with
another extension than `.dat`, and nothing where `strconv.Atoi` returns an error. -/
def nameFid (f : String) : Option Int :=
  if pathExt (pathBase f.data) = fileSuffix then Atoi (trimSuffix (pathBase f.data) fileSuffix)
  else none

/-! ## Lemmas: integers and checksum -/

theorem leBytes_length (n v : Nat) : (leBytes n v).length = n := by
  induction n generalizing v with
  | zero => rfl
  | succ n ih => simp [leBytes, ih]

theorem leNat_leBytes (n v : Nat) : leNat (leBytes n v) = v % 256 ^ n := by
  induction n generalizing v with
  | zero => simp [leBytes, leNat, Nat.mod_one]
  | succ n ih =>
    simp only [leBytes, leNat, ih]
    rw [pow_succ, Nat.mul_comm (256 ^ n) 256, Nat.mod_mul]

theorem leBytes_leNat (bs : List Byte) : leBytes bs.length (leNat bs) = bs := by
  induction bs with
  | nil => rfl
  | cons b bs ih =>
    simp only [List.length_cons, leBytes, leNat]
    have h1 : (b.val + 256 * leNat bs) % 256 = b.val := by omega
    have h2 : (b.val + 256 * leNat bs) / 256 = leNat bs := by omega
    simp [h1, h2, ih]

theorem leNat_lt (bs : List Byte) : leNat bs < 256 ^ bs.length := by
  induction bs with
  | nil => simp [leNat]
  | cons b bs ih =>
    simp only [List.length_cons, leNat, pow_succ]
    have := b.isLt
    omega

theorem crcUpdate_append (c : Nat) (a b : List Byte) :
    crcUpdate (crcUpdate c a) b = crcUpdate c (a ++ b) := by
  simp [crcUpdate, List.foldl_append, Nat.xor_assoc]

/-! ## Lemmas: the codec -/

theorem sliceCopy_mid (acc mid post src : List Byte) (lo hi : Nat)
    (hlo : acc.length = lo) (hhi : hi = lo + mid.length) (hs : mid.length ≤ src.length) :
    sliceCopy (acc ++ (mid ++ post)) lo hi src = some ((acc ++ src.take mid.length) ++ post) := by
  subst hlo hhi
  have h1 : min mid.length src.length = mid.length := Nat.min_eq_left hs
  simp [sliceCopy, h1, List.take_append_eq_append_take, List.drop_append_eq_append_drop]

theorem sliceCopy_zeros (acc src : List Byte) (n m lo hi : Nat)
    (hlo : acc.length = lo) (hhi : hi = lo + n) (hs : src.length = n) :
    sliceCopy (acc ++ List.replicate (n + m) 0) lo hi src = some ((acc ++ src) ++ List.replicate m 0) := by
  have := sliceCopy_mid acc (List.replicate n 0) (List.replicate m 0) src lo hi hlo
    (by simpa using hhi) (by simp [hs])
  have ht : List.take n src = src := by rw [← hs]; exact List.take_length src
  rw [List.replicate_add]
  simpa [ht] using this

theorem slice_mid (acc mid post : List Byte) (lo hi : Nat)
    (hlo : acc.length = lo) (hhi : hi = lo + mid.length) :
    slice (acc ++ (mid ++ post)) lo hi = some mid := by
  subst hlo hhi
  simp [slice, List.take_append_eq_append_take, List.drop_append_eq_append_drop]

theorem metaTail_length (m : Meta) : (metaTail m).length = 25 := by
  simp [metaTail, leBytes_length]


theorem encodeBody_put (e : Entry) (hf : e.meta.flag ≠ DeleteFlag)
    (hk : e.meta.keySize ≤ e.key.length) (hv : e.meta.valueSize ≤ e.value.length)
    (hsz : e.meta.keySize + e.meta.valueSize + 29 < 2 ^ 32) :
    e.encodeBody = some (List.replicate 4 0 ++
      (metaTail e.meta ++ e.key.take e.meta.keySize ++ e.value.take e.meta.valueSize)) := by
  have hsize : e.Size = 29 + (e.meta.keySize + e.meta.valueSize) := by
    simp only [Entry.Size, MetaSize]; omega
  have hklo : (MetaSize + e.meta.keySize) % 2 ^ 32 = 29 + e.meta.keySize := by
    simp only [MetaSize]; omega
  have hvhi : (29 + e.meta.keySize + e.meta.valueSize) % 2 ^ 32
      = 29 + e.meta.keySize + e.meta.valueSize := by omega
  have h0 : List.replicate e.Size (0 : Byte)
      = List.replicate 4 0 ++ List.replicate (8 + (17 + (e.meta.keySize + e.meta.valueSize))) 0 := by
    rw [hsize, ← List.replicate_add]; congr 1; omega
  unfold Entry.encodeBody
  simp only [h0, hklo, hvhi, if_pos hf]
  rw [sliceCopy_zeros _ _ 8 _ 4 12 (by simp) (by rfl) (leBytes_length _ _)]
  simp only [Option.bind_eq_bind, Option.some_bind]
  rw [show 17 + (e.meta.keySize + e.meta.valueSize) = 8 + (9 + (e.meta.keySize + e.meta.valueSize))
        by omega,
    sliceCopy_zeros _ _ 8 _ 12 20 (by simp [leBytes_length]) (by rfl) (leBytes_length _ _)]
  simp only [Option.some_bind]
  rw [show 9 + (e.meta.keySize + e.meta.valueSize) = 4 + (5 + (e.meta.keySize + e.meta.valueSize))
        by omega,
    sliceCopy_zeros _ _ 4 _ 20 24 (by simp [leBytes_length]) (by rfl) (leBytes_length _ _)]
  simp only [Option.some_bind]
  rw [show 5 + (e.meta.keySize + e.meta.valueSize) = 4 + (1 + (e.meta.keySize + e.meta.valueSize))
        by omega,
    sliceCopy_zeros _ _ 4 _ 24 28 (by simp [leBytes_length]) (by rfl) (leBytes_length _ _)]
  simp only [Option.some_bind]
  rw [sliceCopy_zeros _ _ 1 _ 28 29 (by simp [leBytes_length]) (by rfl) (leBytes_length _ _)]
  simp only [Option.some_bind]
  rw [List.replicate_add,
    sliceCopy_mid _ (List.replicate e.meta.keySize 0) _ e.key MetaSize (29 + e.meta.keySize)
      (by simp [leBytes_length, MetaSize]) (by simp [MetaSize]) (by simpa using hk)]
  simp only [Option.some_bind, List.length_replicate]
  have hnil : List.replicate e.meta.valueSize (0 : Byte)
      = List.replicate e.meta.valueSize 0 ++ [] := by simp
  rw [hnil, sliceCopy_mid _ (List.replicate e.meta.valueSize 0) [] e.value (29 + e.meta.keySize)
      (29 + e.meta.keySize + e.meta.valueSize)
      (by simp [leBytes_length, List.length_take, Nat.min_eq_left hk]; omega) (by simp)
      (by simpa using hv)]
  simp [metaTail, List.append_assoc]

theorem encodeBody_tombstone (e : Entry) (hf : e.meta.flag = DeleteFlag)
    (hsz : e.meta.keySize + e.meta.valueSize + 29 < 2 ^ 32) :
    e.encodeBody = some (List.replicate 4 0 ++
      (metaTail e.meta ++ List.replicate (e.meta.keySize + e.meta.valueSize) 0)) := by
  have hsize : e.Size = 29 + (e.meta.keySize + e.meta.valueSize) := by
    simp only [Entry.Size, MetaSize]; omega
  have h0 : List.replicate e.Size (0 : Byte)
      = List.replicate 4 0 ++ List.replicate (8 + (17 + (e.meta.keySize + e.meta.valueSize))) 0 := by
    rw [hsize, ← List.replicate_add]; congr 1; omega
  have hf' : ¬ (e.meta.flag ≠ DeleteFlag) := by simp [hf]
  unfold Entry.encodeBody
  simp only [h0, if_neg hf']
  rw [sliceCopy_zeros _ _ 8 _ 4 12 (by simp) (by rfl) (leBytes_length _ _)]
  simp only [Option.bind_eq_bind, Option.some_bind]
  rw [show 17 + (e.meta.keySize + e.meta.valueSize) = 8 + (9 + (e.meta.keySize + e.meta.valueSize))
        by omega,
    sliceCopy_zeros _ _ 8 _ 12 20 (by simp [leBytes_length]) (by rfl) (leBytes_length _ _)]
  simp only [Option.some_bind]
  rw [show 9 + (e.meta.keySize + e.meta.valueSize) = 4 + (5 + (e.meta.keySize + e.meta.valueSize))
        by omega,
    sliceCopy_zeros _ _ 4 _ 20 24 (by simp [leBytes_length]) (by rfl) (leBytes_length _ _)]
  simp only [Option.some_bind]
  rw [show 5 + (e.meta.keySize + e.meta.valueSize) = 4 + (1 + (e.meta.keySize + e.meta.valueSize))
        by omega,
    sliceCopy_zeros _ _ 4 _ 24 28 (by simp [leBytes_length]) (by rfl) (leBytes_length _ _)]
  simp only [Option.some_bind]
  rw [sliceCopy_zeros _ _ 1 _ 28 29 (by simp [leBytes_length]) (by rfl) (leBytes_length _ _)]
  simp [metaTail, List.append_assoc]

theorem Encode_of_body (e : Entry) (body : List Byte)
    (h : e.encodeBody = some (List.replicate 4 0 ++ body)) : e.Encode = .ok (frame body) := by
  unfold Entry.Encode
  rw [h]
  have h1 : slice (List.replicate 4 (0 : Byte) ++ body) 4 (List.replicate 4 (0 : Byte) ++ body).length
      = some body := by
    have := slice_mid (List.replicate 4 (0 : Byte)) body [] 4 (4 + body.length) (by simp) rfl
    rw [List.append_nil] at this
    have hl : (List.replicate 4 (0 : Byte) ++ body).length = 4 + body.length := by
      simp only [List.length_append, List.length_replicate]
    rw [hl]
    exact this
  simp only [h1]
  have h2 := sliceCopy_mid [] (List.replicate 4 (0 : Byte)) body (leBytes 4 (ChecksumIEEE body)) 0 4
    rfl (by simp) (by simp [leBytes_length])
  have ht : List.take 4 (leBytes 4 (ChecksumIEEE body)) = leBytes 4 (ChecksumIEEE body) := by
    have := List.take_length (leBytes 4 (ChecksumIEEE body))
    rwa [leBytes_length] at this
  simp only [List.nil_append, List.length_replicate, ht] at h2
  rw [h2]
  rfl



theorem leBytes_mod (n v : Nat) : leBytes n (v % 256 ^ n) = leBytes n v := by
  have h := leBytes_leNat (leBytes n v)
  rw [leBytes_length, leNat_leBytes] at h
  exact h

theorem sliceCopy_some {buf : List Byte} {lo hi : Nat} {src out : List Byte}
    (h : sliceCopy buf lo hi src = some out) :
    lo ≤ hi ∧ hi ≤ buf.length ∧ out.length = buf.length := by
  unfold sliceCopy at h
  split at h
  · rename_i hc
    injection h with h
    subst h
    refine ⟨hc.1, hc.2, ?_⟩
    simp only [List.length_append, List.length_take, List.length_drop]
    omega
  · exact absurd h (by simp)


theorem encodeBody_some_bounds (e : Entry) (b : List Byte) (hf : e.meta.flag ≠ DeleteFlag)
    (hk : e.meta.keySize < 2 ^ 32) (hv : e.meta.valueSize < 2 ^ 32)
    (h : e.encodeBody = some b) : e.meta.keySize + e.meta.valueSize + 29 < 2 ^ 32 := by
  unfold Entry.encodeBody at h
  simp only [Option.bind_eq_bind, Option.bind_eq_some, if_pos hf, Option.pure_def,
    Option.some.injEq] at h
  obtain ⟨b1, h1, b2, h2, b3, h3, b4, h4, b5, h5, b7, h7, b8, h8, _⟩ := h
  have l1 := sliceCopy_some h1
  have l2 := sliceCopy_some h2
  have l3 := sliceCopy_some h3
  have l4 := sliceCopy_some h4
  have l5 := sliceCopy_some h5
  have l7 := sliceCopy_some h7
  have l8 := sliceCopy_some h8
  simp only [List.length_replicate, Entry.Size, MetaSize] at l1 l2 l3 l4 l5 l7 l8
  omega

theorem DecodeMeta_bytes (e : Entry) (c : Nat) (m : Meta) :
    e.DecodeMeta (leBytes 4 c ++ metaTail m) = .ok { e with meta := Meta.stored c m } := by
  have s1 : slice (leBytes 4 c ++ metaTail m) 0 4 = some (leBytes 4 c) := by
    have := slice_mid [] (leBytes 4 c) (metaTail m) 0 4 rfl (by simp [leBytes_length])
    simpa using this
  have s2 : slice (leBytes 4 c ++ metaTail m) 4 12 = some (leBytes 8 m.position) := by
    have := slice_mid (leBytes 4 c) (leBytes 8 m.position) (leBytes 8 m.timestamp ++
      leBytes 4 m.keySize ++ leBytes 4 m.valueSize ++ leBytes 1 m.flag) 4 12
      (leBytes_length _ _) (by simp [leBytes_length])
    simpa [metaTail, List.append_assoc] using this
  have s3 : slice (leBytes 4 c ++ metaTail m) 12 20 = some (leBytes 8 m.timestamp) := by
    have := slice_mid (leBytes 4 c ++ leBytes 8 m.position) (leBytes 8 m.timestamp)
      (leBytes 4 m.keySize ++ leBytes 4 m.valueSize ++ leBytes 1 m.flag) 12 20
      (by simp [leBytes_length]) (by simp [leBytes_length])
    simpa [metaTail, List.append_assoc] using this
  have s4 : slice (leBytes 4 c ++ metaTail m) 20 24 = some (leBytes 4 m.keySize) := by
    have := slice_mid (leBytes 4 c ++ leBytes 8 m.position ++ leBytes 8 m.timestamp)
      (leBytes 4 m.keySize) (leBytes 4 m.valueSize ++ leBytes 1 m.flag) 20 24
      (by simp [leBytes_length]) (by simp [leBytes_length])
    simpa [metaTail, List.append_assoc] using this
  have s5 : slice (leBytes 4 c ++ metaTail m) 24 28 = some (leBytes 4 m.valueSize) := by
    have := slice_mid (leBytes 4 c ++ leBytes 8 m.position ++ leBytes 8 m.timestamp ++
      leBytes 4 m.keySize) (leBytes 4 m.valueSize) (leBytes 1 m.flag) 24 28
      (by simp [leBytes_length]) (by simp [leBytes_length])
    simpa [metaTail, List.append_assoc] using this
  have s6 : (leBytes 4 c ++ metaTail m).get? 28
      = some ⟨m.flag % 256, Nat.mod_lt _ (by decide)⟩ := by
    have hl : (leBytes 4 c ++ leBytes 8 m.position ++ leBytes 8 m.timestamp ++
      leBytes 4 m.keySize ++ leBytes 4 m.valueSize).length = 28 := by simp [leBytes_length]
    have : leBytes 4 c ++ metaTail m = (leBytes 4 c ++ leBytes 8 m.position ++
      leBytes 8 m.timestamp ++ leBytes 4 m.keySize ++ leBytes 4 m.valueSize) ++
      leBytes 1 m.flag := by simp [metaTail, List.append_assoc]
    rw [this, List.get?_eq_getElem?, List.getElem?_append_right (by omega), hl]
    simp [leBytes]
  unfold Entry.DecodeMeta
  simp only [s1, s2, s3, s4, s5, s6, Option.bind_eq_bind, Option.some_bind, Option.pure_def,
    leNat_leBytes, Meta.stored]
  rfl

theorem metaTail_stored (c : Nat) (m : Meta) : metaTail (Meta.stored c m) = metaTail m := by
  have h8 : ∀ v, leBytes 8 (v % 2 ^ 64) = leBytes 8 v := fun v => leBytes_mod 8 v
  have h4 : ∀ v, leBytes 4 (v % 2 ^ 32) = leBytes 4 v := fun v => leBytes_mod 4 v
  have h1 : ∀ v, leBytes 1 (v % 256) = leBytes 1 v := fun v => leBytes_mod 1 v
  simp only [metaTail, Meta.stored, h8, h4, h1]

theorem frame_slice_meta (m : Meta) (payload : List Byte) :
    slice (frame (metaTail m ++ payload)) 0 MetaSize
      = some (leBytes 4 (ChecksumIEEE (metaTail m ++ payload)) ++ metaTail m) := by
  have := slice_mid [] (leBytes 4 (ChecksumIEEE (metaTail m ++ payload)) ++ metaTail m) payload
    0 MetaSize rfl (by simp [leBytes_length, metaTail_length, MetaSize])
  simpa [frame, List.append_assoc] using this

theorem frame_drop_meta (m : Meta) (payload : List Byte) :
    (frame (metaTail m ++ payload)).drop MetaSize = payload := by
  have h : frame (metaTail m ++ payload)
      = (leBytes 4 (ChecksumIEEE (metaTail m ++ payload)) ++ metaTail m) ++ payload := by
    simp [frame, List.append_assoc]
  rw [h]
  exact List.drop_left' (by simp [leBytes_length, metaTail_length, MetaSize])

theorem frame_length (body : List Byte) : (frame body).length = 4 + body.length := by
  simp [frame, leBytes_length]

theorem DecodePayload_append (e : Entry) (k v rest : List Byte)
    (hk : e.meta.keySize = k.length) (hv : e.meta.valueSize = v.length)
    (hsz : k.length + v.length < 2 ^ 32) :
    e.DecodePayload (k ++ v ++ rest) = .ok { e with key := k, value := v } := by
  have s1 : slice (k ++ v ++ rest) 0 k.length = some k := by
    have := slice_mid [] k (v ++ rest) 0 k.length rfl (by simp)
    simpa [List.append_assoc] using this
  have s2 : slice (k ++ v ++ rest) k.length (k.length + v.length) = some v := by
    have := slice_mid k v rest k.length (k.length + v.length) rfl rfl
    simpa [List.append_assoc] using this
  unfold Entry.DecodePayload
  simp only [hk, hv, Nat.mod_eq_of_lt hsz, s1, s2]

theorem Encode_ok_body {e : Entry} {b : List Byte} (h : e.Encode = .ok b) :
    ∃ body, e.encodeBody = some body := by
  unfold Entry.Encode at h
  cases hb : e.encodeBody with
  | none => simp [hb] at h
  | some body => exact ⟨body, rfl⟩

/-- Closed form of the record that `Encode` returns for the entry of `NewEntryWithData`. -/
theorem Encode_NewEntryWithData (now : Nat) (key value : List Byte)
    (hsz : key.length % 2 ^ 32 + value.length % 2 ^ 32 + 29 < 2 ^ 32) :
    (NewEntryWithData now key value).Encode
      = .ok (frame (metaTail (NewEntryWithData now key value).meta
          ++ key.take (key.length % 2 ^ 32) ++ value.take (value.length % 2 ^ 32))) := by
  apply Encode_of_body
  exact encodeBody_put (NewEntryWithData now key value) (by simp [NewEntryWithData, DeleteFlag])
    (Nat.mod_le _ _) (Nat.mod_le _ _) hsz

theorem Encode_tombstone :
    tombstone.Encode = .ok (frame (metaTail tombstone.meta)) := by
  have h := encodeBody_tombstone tombstone rfl (by decide)
  have := Encode_of_body tombstone _ h
  simpa [tombstone, NewEntry] using this

/-- Decoding a record that holds `m`, `k` and `v` and encoding the result gives the record back. -/
theorem roundtrip_frame_put (m : Meta) (k v : List Byte)
    (hk : m.keySize = k.length) (hv : m.valueSize = v.length)
    (hsz : k.length + v.length + 29 < 2 ^ 32) (hf : m.flag % 256 ≠ DeleteFlag) :
    ∃ meta e1 e2,
      slice (frame (metaTail m ++ k ++ v)) 0 MetaSize = some meta ∧
      NewEntry.DecodeMeta meta = .ok e1 ∧
      e1.DecodePayload ((frame (metaTail m ++ k ++ v)).drop MetaSize) = .ok e2 ∧
      e2.Encode = .ok (frame (metaTail m ++ k ++ v)) := by
  have hkm : m.keySize % 2 ^ 32 = k.length := by rw [hk]; exact Nat.mod_eq_of_lt (by omega)
  have hvm : m.valueSize % 2 ^ 32 = v.length := by rw [hv]; exact Nat.mod_eq_of_lt (by omega)
  have hst : ∀ c, (Meta.stored c m).keySize = k.length ∧ (Meta.stored c m).valueSize = v.length ∧
      (Meta.stored c m).flag ≠ DeleteFlag := fun c => ⟨hkm, hvm, hf⟩
  rw [List.append_assoc]
  refine ⟨_, _, ⟨k, v, Meta.stored (ChecksumIEEE (metaTail m ++ (k ++ v))) m⟩,
    frame_slice_meta m (k ++ v), DecodeMeta_bytes _ _ m, ?_, ?_⟩
  · rw [frame_drop_meta]
    have := DecodePayload_append ⟨[], [], Meta.stored (ChecksumIEEE (metaTail m ++ (k ++ v))) m⟩
      k v [] hkm hvm (by omega)
    rw [List.append_nil] at this
    exact this
  · apply Encode_of_body
    obtain ⟨h1, h2, h3⟩ := hst (ChecksumIEEE (metaTail m ++ (k ++ v)))
    have := encodeBody_put ⟨k, v, Meta.stored (ChecksumIEEE (metaTail m ++ (k ++ v))) m⟩ h3
      (by rw [h1]) (by rw [h2]) (by rw [h1, h2]; omega)
    rw [this, metaTail_stored, h1, h2, List.take_length, List.take_length, List.append_assoc]


theorem roundtrip_frame_tombstone (m : Meta) (hk : m.keySize = 0) (hv : m.valueSize = 0)
    (hf : m.flag = DeleteFlag) :
    ∃ meta e1 e2,
      slice (frame (metaTail m)) 0 MetaSize = some meta ∧
      NewEntry.DecodeMeta meta = .ok e1 ∧
      e1.DecodePayload ((frame (metaTail m)).drop MetaSize) = .ok e2 ∧
      e2.Encode = .ok (frame (metaTail m)) := by
  have hst : ∀ c, (Meta.stored c m).keySize = 0 ∧ (Meta.stored c m).valueSize = 0 ∧
      (Meta.stored c m).flag = DeleteFlag := fun c => by
    simp [Meta.stored, hk, hv, hf, DeleteFlag]
  have h0 := frame_slice_meta m []
  have h1 := frame_drop_meta m []
  rw [List.append_nil] at h0 h1
  refine ⟨_, _, ⟨[], [], Meta.stored (ChecksumIEEE (metaTail m)) m⟩, h0,
    DecodeMeta_bytes _ _ m, ?_, ?_⟩
  · rw [h1]
    obtain ⟨a1, a2, _⟩ := hst (ChecksumIEEE (metaTail m))
    have := DecodePayload_append ⟨[], [], Meta.stored (ChecksumIEEE (metaTail m)) m⟩
      [] [] [] a1 a2 (by decide)
    simpa [NewEntry] using this
  · apply Encode_of_body
    obtain ⟨a1, a2, a3⟩ := hst (ChecksumIEEE (metaTail m))
    have := encodeBody_tombstone ⟨[], [], Meta.stored (ChecksumIEEE (metaTail m)) m⟩ a3
      (by rw [a1, a2]; decide)
    rw [this, metaTail_stored, a1, a2]
    simp

theorem record_slices (c : Nat) (m : Meta) (k v : List Byte) :
    let b := leBytes 4 c ++ (metaTail m ++ k ++ v)
    b.length = 29 + k.length + v.length ∧
    slice b 0 4 = some (leBytes 4 c) ∧
    slice b 4 12 = some (leBytes 8 m.position) ∧
    slice b 12 20 = some (leBytes 8 m.timestamp) ∧
    slice b 20 24 = some (leBytes 4 m.keySize) ∧
    slice b 24 28 = some (leBytes 4 m.valueSize) ∧
    b.get? 28 = some ⟨m.flag % 256, Nat.mod_lt _ (by decide)⟩ ∧
    slice b 29 (29 + k.length) = some k ∧
    slice b (29 + k.length) (29 + k.length + v.length) = some v ∧
    b.drop 4 = metaTail m ++ k ++ v := by
  intro b
  refine ⟨?_, ?_, ?_, ?_, ?_, ?_, ?_, ?_, ?_, ?_⟩
  · simp only [b, List.length_append, leBytes_length, metaTail_length]; omega
  · have := slice_mid [] (leBytes 4 c) (metaTail m ++ k ++ v) 0 4 rfl (by simp [leBytes_length])
    simpa using this
  · have := slice_mid (leBytes 4 c) (leBytes 8 m.position) (leBytes 8 m.timestamp ++
      leBytes 4 m.keySize ++ leBytes 4 m.valueSize ++ leBytes 1 m.flag ++ k ++ v) 4 12
      (leBytes_length _ _) (by simp [leBytes_length])
    simpa [b, metaTail, List.append_assoc] using this
  · have := slice_mid (leBytes 4 c ++ leBytes 8 m.position) (leBytes 8 m.timestamp)
      (leBytes 4 m.keySize ++ leBytes 4 m.valueSize ++ leBytes 1 m.flag ++ k ++ v) 12 20
      (by simp [leBytes_length]) (by simp [leBytes_length])
    simpa [b, metaTail, List.append_assoc] using this
  · have := slice_mid (leBytes 4 c ++ leBytes 8 m.position ++ leBytes 8 m.timestamp)
      (leBytes 4 m.keySize) (leBytes 4 m.valueSize ++ leBytes 1 m.flag ++ k ++ v) 20 24
      (by simp [leBytes_length]) (by simp [leBytes_length])
    simpa [b, metaTail, List.append_assoc] using this
  · have := slice_mid (leBytes 4 c ++ leBytes 8 m.position ++ leBytes 8 m.timestamp ++
      leBytes 4 m.keySize) (leBytes 4 m.valueSize) (leBytes 1 m.flag ++ k ++ v) 24 28
      (by simp [leBytes_length]) (by simp [leBytes_length])
    simpa [b, metaTail, List.append_assoc] using this
  · have hl : (leBytes 4 c ++ leBytes 8 m.position ++ leBytes 8 m.timestamp ++
      leBytes 4 m.keySize ++ leBytes 4 m.valueSize).length = 28 := by simp [leBytes_length]
    have : b = (leBytes 4 c ++ leBytes 8 m.position ++
      leBytes 8 m.timestamp ++ leBytes 4 m.keySize ++ leBytes 4 m.valueSize) ++
      (leBytes 1 m.flag ++ k ++ v) := by simp [b, metaTail, List.append_assoc]
    rw [this, List.get?_eq_getElem?, List.getElem?_append_right (by omega), hl]
    simp [leBytes]
  · have := slice_mid (leBytes 4 c ++ metaTail m) k v 29 (29 + k.length)
      (by simp [leBytes_length, metaTail_length]) rfl
    simpa [b, List.append_assoc] using this
  · have := slice_mid (leBytes 4 c ++ metaTail m ++ k) v [] (29 + k.length)
      (29 + k.length + v.length) (by simp [leBytes_length, metaTail_length]; omega) rfl
    simpa [b, List.append_assoc] using this
  · exact List.drop_left' (leBytes_length _ _)

/-! ## Lemmas: storage -/

theorem fileWriteAt_read (data : List Byte) (off : Nat) (b : List Byte) :
    ((fileWriteAt data off b).drop off).take b.length = b := by
  unfold fileWriteAt
  split
  · rename_i h; subst h; simp
  · have hl : (List.take off data ++ List.replicate (off - data.length) 0).length = off := by
      simp only [List.length_append, List.length_take, List.length_replicate]; omega
    rw [List.append_assoc (List.take off data ++ List.replicate (off - data.length) 0),
      List.drop_left' hl, List.take_left' rfl]

/-- The three outcomes of `Storage.writeAt` with an active file `a`. -/
theorem writeAt_cases (s : Storage) (fs : FS) (b : List Byte) (a : ActiveFile)
    (ha : s.af = some a) :
    let i : Index := { fid := a.fid, off := a.off, timestamp := 0, keySize := 0, valueSize := 0 }
    let fs1 := a.writeAt fs b
    (a.off + b.length < s.fileSize ∧
      s.writeAt fs b = (.ok i, { s with af := some ⟨a.fid, a.off + b.length⟩ }, fs1)) ∨
    (s.fileSize ≤ a.off + b.length ∧ fs1.openCreate (a.fid + 1) = none ∧
      s.writeAt fs b = (.error .osErr, { s with af := some ⟨a.fid, a.off + b.length⟩ }, fs1)) ∨
    (s.fileSize ≤ a.off + b.length ∧ ∃ fs2, fs1.openCreate (a.fid + 1) = some fs2 ∧
      s.writeAt fs b
        = (.ok i, { s with fds := (a.fid + 1) :: s.fds, af := some ⟨a.fid + 1, 0⟩ }, fs2)) := by
  intro i fs1
  by_cases hc : s.fileSize ≤ a.off + b.length
  · cases ho : fs1.openCreate (a.fid + 1) with
    | none =>
      refine Or.inr (Or.inl ⟨hc, rfl, ?_⟩)
      simp only [Storage.writeAt, ha, Storage.rotate, if_pos hc]
      simp only [fs1] at ho
      simp only [ho]
    | some fs2 =>
      refine Or.inr (Or.inr ⟨hc, fs2, rfl, ?_⟩)
      simp only [Storage.writeAt, ha, Storage.rotate, if_pos hc]
      simp only [fs1] at ho
      simp only [ho]
  · refine Or.inl ⟨by omega, ?_⟩
    simp only [Storage.writeAt, ha, if_neg hc]

theorem openCreate_data {fs fs2 : FS} {fid : Int} (h : fs.openCreate fid = some fs2)
    (g : Int) (hg : g ≠ fid) : fs2.data g = fs.data g := by
  unfold FS.openCreate at h
  cases hd : fs.dir with
  | none => simp [hd] at h
  | some ids =>
    simp only [hd] at h
    split at h
    · injection h with h; subst h; rfl
    · injection h with h; subst h
      simp [Function.update, hg]

theorem openCreate_others {fs fs2 : FS} {fid : Int} (h : fs.openCreate fid = some fs2) :
    fs2.others = fs.others := by
  unfold FS.openCreate at h
  cases hd : fs.dir with
  | none => simp [hd] at h
  | some ids =>
    simp only [hd] at h
    split at h
    · injection h with h; subst h; rfl
    · injection h with h; subst h; rfl

theorem remove_others {fs fs2 : FS} {fid : Int} (h : fs.remove fid = some fs2) :
    fs2.others = fs.others := by
  unfold FS.remove at h
  cases hd : fs.dir with
  | none => simp [hd] at h
  | some ids =>
    simp only [hd] at h
    split at h
    · injection h with h; subst h; rfl
    · cases h

theorem NoForeignDat_of_others {fs fs2 : FS} (h : fs2.others = fs.others)
    (hI : NoForeignDat fs) : NoForeignDat fs2 := by
  unfold NoForeignDat
  rw [h]
  exact hI

theorem writeAt_data (s : Storage) (fs : FS) (b : List Byte) (a : ActiveFile)
    (ha : s.af = some a) :
    (s.writeAt fs b).2.2.data a.fid = fileWriteAt (fs.data a.fid) a.off b := by
  rcases writeAt_cases s fs b a ha with ⟨_, h⟩ | ⟨_, _, h⟩ | ⟨_, fs2, ho, h⟩
  · rw [h]; simp [ActiveFile.writeAt]
  · rw [h]; simp [ActiveFile.writeAt]
  · rw [h]
    simp only
    rw [openCreate_data ho a.fid (by omega)]
    simp [ActiveFile.writeAt]

theorem Delete_data (db : DB) (fs : FS) (k : List Byte) (i : Index) (a : ActiveFile)
    (hi : db.kd.find k = some i) (ha : db.s.af = some a) :
    (db.Delete fs k).2.2.data a.fid
      = fileWriteAt (fs.data a.fid) a.off (frame (metaTail tombstone.meta)) := by
  have hw := writeAt_data db.s fs (frame (metaTail tombstone.meta)) a ha
  unfold DB.Delete
  simp only [hi, Encode_tombstone]
  cases hr : db.s.writeAt fs (frame (metaTail tombstone.meta)) with
  | mk r rest =>
    obtain ⟨s', fs'⟩ := rest
    rw [hr] at hw
    cases r <;> exact hw

/-! ## Lemmas: the directory listing -/

theorem isDigit_ne {c : Char} (h : c.isDigit = true) :
    c ≠ '/' ∧ c ≠ '.' ∧ c ≠ '-' ∧ c ≠ '+' := by
  refine ⟨?_, ?_, ?_, ?_⟩ <;> (intro hc; subst hc; revert h; decide)

theorem pathBase_digits (ds : List Char) (hd : ds.all Char.isDigit = true) :
    pathBase (ds ++ fileSuffix) = ds ++ fileSuffix := by
  have hall : ∀ c ∈ 't' :: 'a' :: 'd' :: '.' :: ds.reverse, (c != '/') = true := by
    intro c hc
    simp only [List.mem_cons, List.mem_reverse] at hc
    rcases hc with rfl | rfl | rfl | rfl | hc
    · decide
    · decide
    · decide
    · decide
    · have := (isDigit_ne (List.all_eq_true.mp hd c hc)).1
      simpa using this
  have hrev : (ds ++ fileSuffix).reverse = 't' :: 'a' :: 'd' :: '.' :: ds.reverse := by
    simp [fileSuffix]
  have hne : ds ++ fileSuffix ≠ [] := by simp [fileSuffix]
  unfold pathBase
  rw [if_neg hne, hrev]
  have hdw : List.dropWhile (fun c => c == '/') ('t' :: 'a' :: 'd' :: '.' :: ds.reverse)
      = 't' :: 'a' :: 'd' :: '.' :: ds.reverse := by
    rw [List.dropWhile_cons_of_neg (by decide)]
  rw [hdw, List.takeWhile_eq_self_iff.mpr hall, ← hrev, List.reverse_reverse]
  simp only [hne, if_false]

theorem pathExt_digits (ds : List Char) : pathExt (ds ++ fileSuffix) = fileSuffix := by
  have hrev : (ds ++ fileSuffix).reverse = 't' :: 'a' :: 'd' :: '.' :: ds.reverse := by
    simp [fileSuffix]
  unfold pathExt
  rw [hrev]
  simp [pathExtLoop, fileSuffix]

theorem trimSuffix_digits (ds : List Char) : trimSuffix (ds ++ fileSuffix) fileSuffix = ds := by
  unfold trimSuffix
  have h : fileSuffix.isSuffixOf (ds ++ fileSuffix) = true := by
    rw [List.isSuffixOf_iff_suffix]
    exact List.suffix_append _ _
  rw [if_pos h]
  exact List.take_left' (by simp)

theorem Atoi_digits (ds : List Char) (hne : ds ≠ []) (hd : ds.all Char.isDigit = true)
    (hr : decimal ds < 2 ^ 63) : Atoi ds = some (decimal ds : Int) := by
  cases ds with
  | nil => exact absurd rfl hne
  | cons c cs =>
    have hc := isDigit_ne (List.all_eq_true.mp hd c (List.mem_cons_self _ _))
    have h1 : ¬ ((c :: cs).head? = some '-') := by simp [hc.2.2.1]
    have h2 : ¬ ((c :: cs).head? = some '-' ∨ (c :: cs).head? = some '+') := by
      simp [hc.2.2.1, hc.2.2.2]
    have hds : (if (c :: cs).head? = some '-' ∨ (c :: cs).head? = some '+' then (c :: cs).tail
        else c :: cs) = c :: cs := if_neg h2
    have hr' : decimal (c :: cs) < 2 ^ 63 := hr
    unfold Atoi
    simp only [hds]
    simp only [hne, if_false, hd, if_true, h1, decide_False, Bool.false_eq_true, hr']

theorem segmentIdSpec_some {f : String} {n : Nat} (h : segmentIdSpec f = some n) :
    ∃ ds, f.data = ds ++ fileSuffix ∧ ds ≠ [] ∧ ds.all Char.isDigit = true ∧ decimal ds = n := by
  unfold segmentIdSpec at h
  split at h
  · rename_i hs
    split at h
    · rename_i hd
      rw [List.isSuffixOf_iff_suffix] at hs
      obtain ⟨t, ht⟩ := hs
      have htake : f.data.take (f.data.length - 4) = t := by
        rw [← ht]
        exact List.take_left' (by simp [fileSuffix])
      rw [htake] at hd h
      injection h with h
      exact ⟨t, ht.symm, hd.1, hd.2, h⟩
    · cases h
  · cases h

theorem getFidsLoop_segment_names (files : List String)
    (h : ∀ f ∈ files, pathExt (pathBase f.data) ≠ fileSuffix ∨
      ∃ n, segmentIdSpec f = some n ∧ n < 2 ^ 63) :
    ∀ acc, getFidsLoop files acc
      = .ok (acc ++ (files.filterMap segmentIdSpec).map Int.ofNat) := by
  induction files with
  | nil => intro acc; simp [getFidsLoop]
  | cons f rest ih =>
    intro acc
    have ih' := ih (fun g hg => h g (List.mem_cons_of_mem _ hg))
    unfold getFidsLoop
    rcases h f (List.mem_cons_self _ _) with hext | ⟨n, hn, hr⟩
    · have hnone : segmentIdSpec f = none := by
        cases hs : segmentIdSpec f with
        | none => rfl
        | some m =>
          obtain ⟨ds, hds, _, hd, _⟩ := segmentIdSpec_some hs
          rw [hds, pathBase_digits ds hd, pathExt_digits] at hext
          exact absurd rfl hext
      simp only [if_neg hext, ih' acc, List.filterMap_cons, hnone]
    · obtain ⟨ds, hds, hne, hd, hval⟩ := segmentIdSpec_some hn
      have hext : pathExt (pathBase f.data) = fileSuffix := by
        rw [hds, pathBase_digits ds hd, pathExt_digits]
      have hat : Atoi (trimSuffix (pathBase f.data) fileSuffix) = some (n : Int) := by
        rw [hds, pathBase_digits ds hd, trimSuffix_digits, Atoi_digits ds hne hd (by omega), hval]
      simp only [if_pos hext, hat, ih' (acc ++ [(n : Int)]), List.filterMap_cons, hn,
        List.map_cons, List.append_assoc, List.singleton_append]
      rfl

theorem getFidsLoop_bad_name (files : List String) (f : String) (hf : f ∈ files)
    (hext : pathExt (pathBase f.data) = fileSuffix)
    (hat : Atoi (trimSuffix (pathBase f.data) fileSuffix) = none) :
    ∀ acc, getFidsLoop files acc = .error .osErr := by
  induction files with
  | nil => exact absurd hf (List.not_mem_nil _)
  | cons g rest ih =>
    intro acc
    unfold getFidsLoop
    rcases List.mem_cons.mp hf with rfl | hmem
    · simp only [hext, if_true, hat]
    · simp only
      split
      · cases Atoi (trimSuffix (pathBase g.data) fileSuffix) with
        | none => rfl
        | some fid => exact ih hmem _
      · exact ih hmem _

theorem decimal_append (a b : List Char) (n : Nat) :
    List.foldl (fun n c => 10 * n + (c.toNat - 48)) n (a ++ b)
      = List.foldl (fun n c => 10 * n + (c.toNat - 48))
          (List.foldl (fun n c => 10 * n + (c.toNat - 48)) n a) b :=
  List.foldl_append _ _ _ _

theorem digitChar_digit {m : Nat} (h : m < 10) :
    (Nat.digitChar m).isDigit = true ∧ (Nat.digitChar m).toNat - 48 = m := by
  interval_cases m <;> exact ⟨by decide, by decide⟩

theorem toDigitsCore_decimal :
    ∀ (fuel n : Nat) (ds : List Char), n < fuel →
      ∃ l, Nat.toDigitsCore 10 fuel n ds = l ++ ds ∧ l ≠ [] ∧ l.all Char.isDigit = true ∧
        decimal l = n := by
  intro fuel
  induction fuel with
  | zero => intro n ds h; omega
  | succ fuel ih =>
    intro n ds h
    obtain ⟨hd1, hd2⟩ := digitChar_digit (Nat.mod_lt n (by decide : 0 < 10))
    unfold Nat.toDigitsCore
    simp only
    split
    · rename_i h0
      refine ⟨[Nat.digitChar (n % 10)], rfl, by simp, by simp [hd1], ?_⟩
      simp only [decimal, List.foldl_cons, List.foldl_nil, hd2]
      omega
    · rename_i h0
      obtain ⟨l, h1, h2, h3, h4⟩ := ih (n / 10) (Nat.digitChar (n % 10) :: ds) (by omega)
      refine ⟨l ++ [Nat.digitChar (n % 10)], by rw [h1]; simp, by simp, ?_, ?_⟩
      · simp only [List.all_append, h3, List.all_cons, hd1, List.all_nil, Bool.and_self]
      · simp only [decimal] at h4 ⊢
        rw [decimal_append, h4]
        simp only [List.foldl_cons, List.foldl_nil, hd2]
        omega


theorem pathBase_noslash (cs : List Char) (hd : ∀ c ∈ cs, c ≠ '/') :
    pathBase (cs ++ fileSuffix) = cs ++ fileSuffix := by
  have hall : ∀ c ∈ 't' :: 'a' :: 'd' :: '.' :: cs.reverse, (c != '/') = true := by
    intro c hc
    simp only [List.mem_cons, List.mem_reverse] at hc
    rcases hc with rfl | rfl | rfl | rfl | hc
    · decide
    · decide
    · decide
    · decide
    · simpa using hd c hc
  have hrev : (cs ++ fileSuffix).reverse = 't' :: 'a' :: 'd' :: '.' :: cs.reverse := by
    simp [fileSuffix]
  have hne : cs ++ fileSuffix ≠ [] := by simp [fileSuffix]
  unfold pathBase
  rw [if_neg hne, hrev]
  have hdw : List.dropWhile (fun c => c == '/') ('t' :: 'a' :: 'd' :: '.' :: cs.reverse)
      = 't' :: 'a' :: 'd' :: '.' :: cs.reverse := by
    rw [List.dropWhile_cons_of_neg (by decide)]
  rw [hdw, List.takeWhile_eq_self_iff.mpr hall, ← hrev, List.reverse_reverse]
  simp only [hne, if_false]

/-- `fmt.Sprintf("%d", i)` is a non-empty string of decimal digits of value `|i|`, after a minus
sign when `i` is negative. -/
theorem formatInt_digits (i : Int) :
    ∃ ds, ds ≠ [] ∧ ds.all Char.isDigit = true ∧ decimal ds = i.natAbs ∧
      formatInt i = if i < 0 then '-' :: ds else ds := by
  obtain ⟨l, h1, h2, h3, h4⟩ :=
    toDigitsCore_decimal (i.natAbs + 1) i.natAbs [] (Nat.lt_succ_self _)
  rw [List.append_nil] at h1
  refine ⟨l, h2, h3, h4, ?_⟩
  simp only [formatInt, Nat.toDigits, h1]

theorem formatInt_noslash (i : Int) : ∀ c ∈ formatInt i, c ≠ '/' := by
  obtain ⟨ds, _, hd, _, hf⟩ := formatInt_digits i
  intro c hc
  rw [hf] at hc
  split at hc
  · rcases List.mem_cons.mp hc with rfl | hc
    · decide
    · exact (isDigit_ne (List.all_eq_true.mp hd c hc)).1
  · exact (isDigit_ne (List.all_eq_true.mp hd c hc)).1

theorem segmentName_ext (i : Int) : pathExt (pathBase (segmentName i).data) = fileSuffix := by
  simp only [segmentName]
  rw [pathBase_noslash _ (formatInt_noslash i), pathExt_digits]

theorem segmentName_trim (i : Int) :
    trimSuffix (pathBase (segmentName i).data) fileSuffix = formatInt i := by
  simp only [segmentName]
  rw [pathBase_noslash _ (formatInt_noslash i), trimSuffix_digits]

theorem Atoi_digits_iff (ds : List Char) (hne : ds ≠ []) (hd : ds.all Char.isDigit = true) :
    Atoi ds = if decimal ds < 2 ^ 63 then some (decimal ds : Int) else none := by
  cases ds with
  | nil => exact absurd rfl hne
  | cons c cs =>
    have hc := isDigit_ne (List.all_eq_true.mp hd c (List.mem_cons_self _ _))
    have h1 : ¬ ((c :: cs).head? = some '-') := by simp [hc.2.2.1]
    have h2 : ¬ ((c :: cs).head? = some '-' ∨ (c :: cs).head? = some '+') := by
      simp [hc.2.2.1, hc.2.2.2]
    have hds : (if (c :: cs).head? = some '-' ∨ (c :: cs).head? = some '+' then (c :: cs).tail
        else c :: cs) = c :: cs := if_neg h2
    unfold Atoi
    simp only [hds]
    simp only [hne, if_false, hd, if_true, h1, decide_False, Bool.false_eq_true]

theorem Atoi_minus_digits (ds : List Char) (hne : ds ≠ []) (hd : ds.all Char.isDigit = true) :
    Atoi ('-' :: ds) = if decimal ds ≤ 2 ^ 63 then some (-(decimal ds : Int)) else none := by
  have h1 : ('-' :: ds).head? = some '-' := rfl
  have hds : (if ('-' :: ds).head? = some '-' ∨ ('-' :: ds).head? = some '+' then ('-' :: ds).tail
      else '-' :: ds) = ds := if_pos (Or.inl rfl)
  unfold Atoi
  simp only [hds]
  simp only [hne, if_false, hd, if_true, h1, decide_True]

/-- `strconv.Atoi` reads back the id that `fmt.Sprintf("%d", i)` printed, or returns the range
error. -/
theorem Atoi_formatInt (i j : Int) (h : Atoi (formatInt i) = some j) : j = i := by
  obtain ⟨ds, hne, hd, hv, hf⟩ := formatInt_digits i
  rw [hf] at h
  split at h
  · rw [Atoi_minus_digits ds hne hd] at h
    split at h
    · injection h with h
      omega
    · cases h
  · rw [Atoi_digits_iff ds hne hd] at h
    split at h
    · injection h with h
      omega
    · cases h

theorem Atoi_formatInt_range (i : Int) (h1 : -2 ^ 63 ≤ i) (h2 : i < 2 ^ 63) :
    Atoi (formatInt i) = some i := by
  obtain ⟨ds, hne, hd, hv, hf⟩ := formatInt_digits i
  rw [hf]
  split
  · rw [Atoi_minus_digits ds hne hd, if_pos (by omega)]
    congr 1
    omega
  · rw [Atoi_digits_iff ds hne hd, if_pos (by omega)]
    congr 1
    omega

theorem nameFid_segmentName (i j : Int) (h : nameFid (segmentName i) = some j) : j = i := by
  unfold nameFid at h
  rw [if_pos (segmentName_ext i), segmentName_trim] at h
  exact Atoi_formatInt i j h

theorem nameFid_segmentName_range (i : Int) (h1 : -2 ^ 63 ≤ i) (h2 : i < 2 ^ 63) :
    nameFid (segmentName i) = some i := by
  unfold nameFid
  rw [if_pos (segmentName_ext i), segmentName_trim]
  exact Atoi_formatInt_range i h1 h2

/-- The loop of `getFids` on a listing in which `strconv.Atoi` accepts the prefix of every name
with the extension `.dat`. -/
theorem getFidsLoop_accepted (files : List String)
    (h : ∀ f ∈ files, pathExt (pathBase f.data) = fileSuffix →
      Atoi (trimSuffix (pathBase f.data) fileSuffix) ≠ none) :
    ∀ acc, getFidsLoop files acc = .ok (acc ++ files.filterMap nameFid) := by
  induction files with
  | nil => intro acc; simp [getFidsLoop]
  | cons f rest ih =>
    intro acc
    have ih' := ih (fun g hg => h g (List.mem_cons_of_mem _ hg))
    unfold getFidsLoop
    by_cases hext : pathExt (pathBase f.data) = fileSuffix
    · have ha := h f (List.mem_cons_self _ _) hext
      cases hat : Atoi (trimSuffix (pathBase f.data) fileSuffix) with
      | none => exact absurd hat ha
      | some fid =>
        have hn : nameFid f = some fid := by simp only [nameFid, if_pos hext, hat]
        simp only [if_pos hext, hat, ih' (acc ++ [fid]), List.filterMap_cons, hn,
          List.append_assoc, List.singleton_append]
    · have hn : nameFid f = none := by simp only [nameFid, if_neg hext]
      simp only [if_neg hext, ih' acc, List.filterMap_cons, hn]

theorem getFidsLoop_cases (files : List String) (acc : List Int) :
    (getFidsLoop files acc = .error .osErr ∧
      ∃ f ∈ files, pathExt (pathBase f.data) = fileSuffix ∧
        Atoi (trimSuffix (pathBase f.data) fileSuffix) = none) ∨
    (getFidsLoop files acc = .ok (acc ++ files.filterMap nameFid) ∧
      ∀ f ∈ files, pathExt (pathBase f.data) = fileSuffix →
        Atoi (trimSuffix (pathBase f.data) fileSuffix) ≠ none) := by
  by_cases h : ∀ f ∈ files, pathExt (pathBase f.data) = fileSuffix →
      Atoi (trimSuffix (pathBase f.data) fileSuffix) ≠ none
  · exact Or.inr ⟨getFidsLoop_accepted files h acc, h⟩
  · left
    push_neg at h
    obtain ⟨f, hf, hext, hat⟩ := h
    exact ⟨getFidsLoop_bad_name files f hf hext hat acc, f, hf, hext, hat⟩

theorem filterMap_nameFid_segmentName (ids : List Int)
    (h : ∀ f ∈ ids.map segmentName, pathExt (pathBase f.data) = fileSuffix →
      Atoi (trimSuffix (pathBase f.data) fileSuffix) ≠ none) :
    (ids.map segmentName).filterMap nameFid = ids := by
  induction ids with
  | nil => rfl
  | cons i rest ih =>
    have hi := h (segmentName i) (by simp) (segmentName_ext i)
    have hs : nameFid (segmentName i) = some i := by
      cases hn : nameFid (segmentName i) with
      | none =>
        simp only [nameFid, if_pos (segmentName_ext i)] at hn
        exact absurd hn hi
      | some j => rw [nameFid_segmentName i j hn]
    simp only [List.map_cons, List.filterMap_cons, hs]
    rw [ih (fun f hf => h f (by simp only [List.map_cons]; exact List.mem_cons_of_mem _ hf))]

theorem insertionSort_perm {l l' : List Int} (h : l.Perm l') :
    l.insertionSort (fun a b => a ≤ b) = l'.insertionSort (fun a b => a ≤ b) :=
  List.eq_of_perm_of_sorted
    ((List.perm_insertionSort _ l).trans (h.trans (List.perm_insertionSort _ l').symm))
    (List.sorted_insertionSort _ l) (List.sorted_insertionSort _ l')

/-- The two outcomes of `getFids`: the error of `strconv.Atoi` on some name with the extension
`.dat`, or the ids of the segment files and the ids that the other names contribute, in the
order of the listing. -/
theorem getFids_cases {fs : FS} {ids : List Int} (hd : fs.dir = some ids) :
    (getFids fs = .error .osErr ∧
      ∃ f ∈ ids.map segmentName ++ fs.others, pathExt (pathBase f.data) = fileSuffix ∧
        Atoi (trimSuffix (pathBase f.data) fileSuffix) = none) ∨
    (∃ fids, getFids fs = .ok fids ∧ fids.Perm (ids ++ fs.others.filterMap nameFid) ∧
      ∀ f ∈ ids.map segmentName ++ fs.others, pathExt (pathBase f.data) = fileSuffix →
        Atoi (trimSuffix (pathBase f.data) fileSuffix) ≠ none) := by
  have hperm := List.perm_insertionSort (fun a b : String => a ≤ b)
    (ids.map segmentName ++ fs.others)
  have hg : getFids fs = getFidsLoop
      ((ids.map segmentName ++ fs.others).insertionSort (fun a b => a ≤ b)) [] := by
    simp only [getFids, FS.readDir, hd, getFidsNames]
  rw [hg]
  rcases getFidsLoop_cases
      ((ids.map segmentName ++ fs.others).insertionSort (fun a b => a ≤ b)) []
    with ⟨h, f, hf, hbad⟩ | ⟨h1, h2⟩
  · exact Or.inl ⟨h, f, hperm.mem_iff.mp hf, hbad⟩
  · have h3 : ∀ f ∈ ids.map segmentName ++ fs.others, pathExt (pathBase f.data) = fileSuffix →
        Atoi (trimSuffix (pathBase f.data) fileSuffix) ≠ none :=
      fun f hf => h2 f (hperm.mem_iff.mpr hf)
    refine Or.inr ⟨_, h1, ?_, h3⟩
    rw [List.nil_append]
    have := hperm.filterMap nameFid
    rw [List.filterMap_append,
      filterMap_nameFid_segmentName ids (fun f hf => h3 f (List.mem_append_left _ hf))] at this
    exact this

theorem filterMap_nameFid_others {fs : FS} (h : NoForeignDat fs) :
    fs.others.filterMap nameFid = [] := by
  rw [List.filterMap_eq_nil_iff]
  intro f hf
  simp only [nameFid, if_neg (h f hf)]

/-- In a `Dir` whose only entries with the extension `.dat` are the segment files, `getFids`
returns their ids or an error. -/
theorem getFids_inert {fs : FS} {ids : List Int} (hd : fs.dir = some ids) (hI : NoForeignDat fs) :
    getFids fs = .error .osErr ∨ ∃ fids, getFids fs = .ok fids ∧ fids.Perm ids := by
  rcases getFids_cases hd with ⟨h, _⟩ | ⟨fids, h, hp, _⟩
  · exact Or.inl h
  · rw [filterMap_nameFid_others hI, List.append_nil] at hp
    exact Or.inr ⟨fids, h, hp⟩

theorem getFids_absent {fs : FS} (hd : fs.dir = none) : getFids fs = .error .osErr := by
  simp only [getFids, FS.readDir, hd]

theorem segmentIdSpec_segmentName (n : Nat) : segmentIdSpec (segmentName n) = some n := by
  obtain ⟨l, h1, h2, h3, h4⟩ := toDigitsCore_decimal (n + 1) n [] (Nat.lt_succ_self _)
  rw [List.append_nil] at h1
  have hdata : (segmentName n).data = l ++ fileSuffix := by
    have hneg : ¬ ((n : Int) < 0) := by omega
    simp only [segmentName, formatInt, if_neg hneg, Int.natAbs_ofNat, Nat.toDigits, h1]
  have htake : List.take ((l ++ fileSuffix).length - 4) (l ++ fileSuffix) = l :=
    List.take_left' (by simp [fileSuffix])
  have hsuf : fileSuffix.isSuffixOf (l ++ fileSuffix) = true := by
    rw [List.isSuffixOf_iff_suffix]
    exact List.suffix_append _ _
  unfold segmentIdSpec
  rw [hdata, if_pos hsuf, htake, if_pos ⟨h2, h3⟩, h4]

/-! ## Lemmas: the engine -/

/-- Induction principle for the scan loop of `Merge`: a property of the engine state that
survives the handle caching of `readEntry` and every re-append survives the loop. -/
theorem mergeScan_induct (P : DB → FS → Prop) (fid : Int)
    (hread : ∀ (db : DB) (fs : FS) (off : Nat), P db fs →
      P { db with s := (db.s.readEntry fs fid off).2 } fs)
    (hwrite : ∀ (db : DB) (fs : FS) (buf key : List Byte), P db fs →
      (db.kd.find key).isSome = true →
      (∀ i s fs', db.s.writeAt fs buf = (.ok i, s, fs') → P { kd := db.kd.update key i, s := s } fs') ∧
      (∀ s fs', (db.s.writeAt fs buf).2 = (s, fs') → P { db with s := s } fs')) :
    ∀ (fuel off : Nat) (db : DB) (fs : FS) (r : Res Unit) (db' : DB) (fs' : FS),
      DB.mergeScan fid fuel off db fs = some (r, db', fs') → P db fs → P db' fs' := by
  intro fuel
  induction fuel with
  | zero => intro off db fs r db' fs' h; simp [DB.mergeScan] at h
  | succ fuel ih =>
    intro off db fs r db' fs' h hP
    have hr := hread db fs off hP
    unfold DB.mergeScan at h
    rcases hre : db.s.readEntry fs fid off with ⟨x, s⟩
    rw [hre] at h hr
    cases x with
    | deleted e => exact ih _ _ _ _ _ _ h hr
    | panic =>
      simp only [Option.some.injEq, Prod.mk.injEq] at h
      obtain ⟨_, rfl, rfl⟩ := h
      exact hr
    | error err =>
      cases err <;>
      · simp only [Option.some.injEq, Prod.mk.injEq] at h
        obtain ⟨_, rfl, rfl⟩ := h
        exact hr
    | entry e =>
      simp only at h
      cases hf : ({ kd := db.kd, s := s } : DB).kd.find e.key with
      | none =>
        rw [hf] at h
        exact ih _ _ _ _ _ _ h hr
      | some oldIndex =>
        rw [hf] at h
        simp only at h
        split at h
        · cases hen : e.Encode with
          | error err =>
            rw [hen] at h
            simp only [Option.some.injEq, Prod.mk.injEq] at h
            obtain ⟨_, rfl, rfl⟩ := h
            exact hr
          | panic =>
            rw [hen] at h
            simp only [Option.some.injEq, Prod.mk.injEq] at h
            obtain ⟨_, rfl, rfl⟩ := h
            exact hr
          | ok buf =>
            rw [hen] at h
            simp only at h
            have hw := hwrite { kd := db.kd, s := s } fs buf e.key hr (by rw [hf]; rfl)
            rcases hwr : ({ kd := db.kd, s := s } : DB).s.writeAt fs buf with ⟨ri, s2, fs2⟩
            rw [hwr] at h hw
            cases ri with
            | ok i => exact ih _ _ _ _ _ _ h (hw.1 i s2 fs2 rfl)
            | error err =>
              simp only [Option.some.injEq, Prod.mk.injEq] at h
              obtain ⟨_, rfl, rfl⟩ := h
              exact hw.2 s2 fs2 rfl
            | panic =>
              simp only [Option.some.injEq, Prod.mk.injEq] at h
              obtain ⟨_, rfl, rfl⟩ := h
              exact hw.2 s2 fs2 rfl
        · exact ih _ _ _ _ _ _ h hr

/-- Induction principle for the loop of `Merge` over the sealed segments; the property may
depend on the segments that are still to be scanned. -/
theorem mergeSegments_induct (P : List Int → DB → FS → Prop) (fuel : Nat)
    (hscan : ∀ (fid : Int) (rest : List Int) (db : DB) (fs : FS) (r : Res Unit) (db' : DB)
      (fs' : FS), DB.mergeScan fid fuel 0 db fs = some (r, db', fs') →
      P (fid :: rest) db fs → P (fid :: rest) db' fs')
    (hrem : ∀ (fid : Int) (rest : List Int) (db : DB) (fs fs' : FS),
      P (fid :: rest) db fs → fs.remove fid = some fs' → P rest db fs') :
    ∀ (fids : List Int) (db : DB) (fs : FS) (r : Res Unit) (db' : DB) (fs' : FS),
      DB.mergeSegments fuel fids db fs = some (r, db', fs') → P fids db fs →
      (r = .ok () → P [] db' fs') ∧ ∃ l, P l db' fs' := by
  intro fids
  induction fids with
  | nil =>
    intro db fs r db' fs' h hP
    simp only [DB.mergeSegments, Option.some.injEq, Prod.mk.injEq] at h
    obtain ⟨_, rfl, rfl⟩ := h
    exact ⟨fun _ => hP, [], hP⟩
  | cons fid rest ih =>
    intro db fs r db' fs' h hP
    unfold DB.mergeSegments at h
    cases hs : DB.mergeScan fid fuel 0 db fs with
    | none => rw [hs] at h; simp at h
    | some res =>
      obtain ⟨r1, db1, fs1⟩ := res
      have hP1 := hscan fid rest db fs r1 db1 fs1 hs hP
      rw [hs] at h
      cases r1 with
      | error err =>
        simp only [Option.some.injEq, Prod.mk.injEq] at h
        obtain ⟨rfl, rfl, rfl⟩ := h
        exact ⟨fun hc => (by cases hc), _, hP1⟩
      | panic =>
        simp only [Option.some.injEq, Prod.mk.injEq] at h
        obtain ⟨rfl, rfl, rfl⟩ := h
        exact ⟨fun hc => (by cases hc), _, hP1⟩
      | ok u =>
        simp only at h
        cases hrm : fs1.remove fid with
        | none =>
          rw [hrm] at h
          simp only [Option.some.injEq, Prod.mk.injEq] at h
          obtain ⟨rfl, rfl, rfl⟩ := h
          exact ⟨fun hc => (by cases hc), _, hP1⟩
        | some fs2 =>
          rw [hrm] at h
          exact ih _ _ _ _ _ h (hrem fid rest db1 fs1 fs2 hP1 hrm)

theorem Merge_absent (k : List Byte) (fuel : Nat) (db : DB) (fs : FS) (r : Res Unit) (db' : DB)
    (fs' : FS) (h : db.Merge fuel fs = some (r, db', fs')) (hk : db.kd.index k = none) :
    db'.kd.index k = none := by
  unfold DB.Merge at h
  cases hg : getFids fs with
  | error err => rw [hg] at h; simp at h; obtain ⟨_, rfl, _⟩ := h; exact hk
  | panic => rw [hg] at h; simp at h; obtain ⟨_, rfl, _⟩ := h; exact hk
  | ok fids =>
    rw [hg] at h
    simp only at h
    split at h
    · simp at h; obtain ⟨_, rfl, _⟩ := h; exact hk
    · have := mergeSegments_induct (fun _ db _ => db.kd.index k = none) fuel
        (fun fid rest db fs r db' fs' hs hP =>
          mergeScan_induct (fun db _ => db.kd.index k = none) fid
            (fun db fs off hP => hP)
            (fun db fs buf key hP hkey => by
              have hne : k ≠ key := by
                intro hc; subst hc
                simp [keyDir.find, hP] at hkey
              exact ⟨fun i s fs' _ => by simp [keyDir.update, hne, hP], fun s fs' _ => hP⟩)
            fuel 0 db fs r db' fs' hs hP)
        (fun fid rest db fs fs' hP _ => hP) _ db fs r db' fs' h hk
      obtain ⟨_, _, hl⟩ := this
      exact hl

theorem step_absent (k : List Byte) (op : Op) (hop : op.avoids k = true) (db : DB) (fs : FS)
    (o : Outcome) (db' : DB) (fs' : FS) (h : db.step fs op = some (o, db', fs'))
    (hk : db.kd.index k = none) : db'.kd.index k = none := by
  cases op with
  | set now key value =>
    have hne : k ≠ key := by
      intro hc; subst hc; simp [Op.avoids] at hop
    simp only [DB.step, DB.Set, Option.some.injEq, Prod.mk.injEq] at h
    obtain ⟨_, rfl, _⟩ := h
    split
    · exact hk
    · exact hk
    · split
      · exact hk
      · exact hk
      · simp [keyDir.update, hne, hk]
  | get key =>
    simp only [DB.step, DB.Get, Option.some.injEq, Prod.mk.injEq] at h
    obtain ⟨_, rfl, _⟩ := h
    split
    · exact hk
    · split <;> exact hk
  | delete key =>
    simp only [DB.step, DB.Delete, Option.some.injEq, Prod.mk.injEq] at h
    obtain ⟨_, rfl, _⟩ := h
    split
    · exact hk
    · split
      · exact hk
      · exact hk
      · split
        · exact hk
        · exact hk
        · simp only [keyDir.delete]
          split
          · rfl
          · exact hk
  | merge fuel =>
    simp only [DB.step] at h
    cases hm : db.Merge fuel fs with
    | none => rw [hm] at h; simp at h
    | some res =>
      obtain ⟨r, db1, fs1⟩ := res
      rw [hm] at h
      simp only [Option.some.injEq, Prod.mk.injEq] at h
      obtain ⟨_, rfl, _⟩ := h
      exact Merge_absent k fuel db fs r db1 fs1 hm hk
  | reopen d fuel opt => simp [Op.avoids] at hop

theorem run_absent (k : List Byte) (ops : List Op) (hops : ∀ op ∈ ops, op.avoids k = true) :
    ∀ (db : DB) (fs : FS) (os : List Outcome) (db' : DB) (fs' : FS),
      DB.run db fs ops = some (os, db', fs') → db.kd.index k = none →
      db'.kd.index k = none := by
  induction ops with
  | nil =>
    intro db fs os db' fs' h hk
    simp only [DB.run, Option.some.injEq, Prod.mk.injEq] at h
    obtain ⟨_, rfl, _⟩ := h
    exact hk
  | cons op ops ih =>
    intro db fs os db' fs' h hk
    unfold DB.run at h
    cases hs : db.step fs op with
    | none => rw [hs] at h; simp at h
    | some res =>
      obtain ⟨o, db1, fs1⟩ := res
      rw [hs] at h
      simp only at h
      cases hr : DB.run db1 fs1 ops with
      | none => rw [hr] at h; simp at h
      | some res2 =>
        obtain ⟨os2, db2, fs2⟩ := res2
        rw [hr] at h
        simp only [Option.some.injEq, Prod.mk.injEq] at h
        obtain ⟨_, rfl, _⟩ := h
        exact ih (fun op' hop' => hops op' (List.mem_cons_of_mem _ hop')) db1 fs1 os2 db2 fs2 hr
          (step_absent k op (hops op (List.mem_cons_self _ _)) db fs o db1 fs1 hs hk)

theorem Delete_ok_absent (db : DB) (fs : FS) (k : List Byte) (db' : DB) (fs' : FS)
    (h : db.Delete fs k = (.ok (), db', fs')) : db'.kd.index k = none := by
  unfold DB.Delete at h
  split at h
  · simp at h
  · simp only [Encode_tombstone] at h
    split at h
    · simp at h
    · simp at h
    · simp only [Prod.mk.injEq] at h
      obtain ⟨_, rfl, _⟩ := h
      simp [keyDir.delete]

theorem Get_absent (db : DB) (fs : FS) (k : List Byte) (hk : db.kd.index k = none) :
    db.Get fs k = (.error .ErrKeyNotFound, db) := by
  simp [DB.Get, keyDir.find, hk]

theorem ActiveIsLast_of_MergeInv {a0 : Int} {rest : List Int} {s : Storage} {fs : FS}
    (h : MergeInv a0 rest s fs) : ActiveIsLast s fs := by
  obtain ⟨hI, ids, a, hd, hn, ha, h0, _, hlt, hm⟩ := h
  refine ⟨hI, ids, hd, hn, ?_⟩
  rw [ha]
  refine ⟨(hm _).2 (Or.inr ⟨h0, le_refl _⟩), fun i hi => ?_⟩
  rcases (hm i).1 hi with hr | ⟨_, h2⟩
  · have := hlt i hr; omega
  · exact h2

theorem MergeInv_of_ActiveIsLast {s : Storage} {fs : FS} {a : ActiveFile} {ids : List Int}
    (h : ActiveIsLast s fs) (ha : s.af = some a) (hd : fs.dir = some ids) :
    MergeInv a.fid (ids.filter (fun i => i ≠ a.fid)) s fs := by
  obtain ⟨hI, ids', hd', hn, hm⟩ := h
  rw [hd] at hd'
  injection hd' with hd'
  subst hd'
  rw [ha] at hm
  refine ⟨hI, ids, a, hd, hn, ha, le_refl _, hn.filter _, ?_, ?_⟩
  · intro f hf
    simp only [ne_eq, decide_not, List.mem_filter, Bool.not_eq_eq_eq_not, Bool.not_true,
      decide_eq_false_iff_not] at hf
    have := hm.2 f hf.1
    omega
  · intro i
    simp only [ne_eq, decide_not, List.mem_filter, Bool.not_eq_eq_eq_not, Bool.not_true,
      decide_eq_false_iff_not]
    constructor
    · intro hi
      by_cases hia : i = a.fid
      · exact Or.inr ⟨by omega, by omega⟩
      · exact Or.inl ⟨hi, hia⟩
    · rintro (⟨hi, _⟩ | ⟨h1, h2⟩)
      · exact hi
      · have : i = a.fid := by omega
        rw [this]; exact hm.1

theorem MergeInv_af {a0 : Int} {rest : List Int} {s s' : Storage} {fs : FS}
    (h : MergeInv a0 rest s fs) (ha : s'.af = s.af) : MergeInv a0 rest s' fs := by
  obtain ⟨hI, ids, a, hd, hn, ha', rest'⟩ := h
  exact ⟨hI, ids, a, hd, hn, by rw [ha, ha'], rest'⟩

theorem writeAt_MergeInv {a0 : Int} {rest : List Int} {s : Storage} {fs : FS}
    (h : MergeInv a0 rest s fs) (b : List Byte) :
    MergeInv a0 rest (s.writeAt fs b).2.1 (s.writeAt fs b).2.2 := by
  obtain ⟨hI, ids, a, hd, hn, ha, h0, hrn, hlt, hm⟩ := h
  rcases writeAt_cases s fs b a ha with ⟨_, hw⟩ | ⟨_, _, hw⟩ | ⟨_, fs2, ho, hw⟩
  · rw [hw]
    exact ⟨hI, ids, ⟨a.fid, a.off + b.length⟩, hd, hn, rfl, h0, hrn, hlt, hm⟩
  · rw [hw]
    exact ⟨hI, ids, ⟨a.fid, a.off + b.length⟩, hd, hn, rfl, h0, hrn, hlt, hm⟩
  · rw [hw]
    have hI2 : NoForeignDat fs2 := NoForeignDat_of_others (openCreate_others ho) hI
    have hnot : a.fid + 1 ∉ ids := by
      intro hc
      rcases (hm _).1 hc with hr | ⟨_, h2⟩
      · have := hlt _ hr; omega
      · omega
    have hfs2 : fs2.dir = some (ids ++ [a.fid + 1]) := by
      unfold FS.openCreate at ho
      simp only [ActiveFile.writeAt, hd, hnot, if_false, Option.some.injEq] at ho
      subst ho
      rfl
    refine ⟨hI2, ids ++ [a.fid + 1], ⟨a.fid + 1, 0⟩, hfs2, ?_, rfl, by simp only; omega, hrn,
      hlt, ?_⟩
    · rw [List.nodup_append]
      refine ⟨hn, List.nodup_singleton _, ?_⟩
      intro x hx hx'
      simp only [List.mem_singleton] at hx'
      subst hx'
      exact hnot hx
    · intro i
      simp only [List.mem_append, List.mem_singleton, hm i]
      constructor
      · rintro ((hr | ⟨h1, h2⟩) | rfl)
        · exact Or.inl hr
        · exact Or.inr ⟨h1, by omega⟩
        · exact Or.inr ⟨by omega, by omega⟩
      · rintro (hr | ⟨h1, h2⟩)
        · exact Or.inl (Or.inl hr)
        · by_cases hi : i = a.fid + 1
          · exact Or.inr hi
          · exact Or.inl (Or.inr ⟨h1, by omega⟩)

theorem remove_MergeInv {a0 fid : Int} {rest : List Int} {s : Storage} {fs fs' : FS}
    (h : MergeInv a0 (fid :: rest) s fs) (hrem : fs.remove fid = some fs') :
    MergeInv a0 rest s fs' := by
  obtain ⟨hI, ids, a, hd, hn, ha, h0, hrn, hlt, hm⟩ := h
  have hfid : fid ∈ ids := (hm fid).2 (Or.inl (List.mem_cons_self _ _))
  have hfs : fs'.dir = some (ids.filter (fun i => i ≠ fid)) := by
    unfold FS.remove at hrem
    simp only [hd, hfid, if_true, Option.some.injEq] at hrem
    subst hrem
    rfl
  have hrn' := List.nodup_cons.mp hrn
  refine ⟨NoForeignDat_of_others (remove_others hrem) hI, _, a, hfs, hn.filter _, ha, h0, hrn'.2,
    fun f hf => hlt f (List.mem_cons_of_mem _ hf), ?_⟩
  intro i
  simp only [ne_eq, decide_not, List.mem_filter, Bool.not_eq_eq_eq_not, Bool.not_true,
    decide_eq_false_iff_not, hm i, List.mem_cons]
  constructor
  · rintro ⟨(rfl | hr) | h2, hne⟩
    · exact absurd rfl hne
    · exact Or.inl hr
    · exact Or.inr h2
  · rintro (hr | h2)
    · refine ⟨Or.inl (Or.inr hr), ?_⟩
      intro hc; subst hc; exact hrn'.1 hr
    · refine ⟨Or.inr h2, ?_⟩
      intro hc; subst hc
      have := hlt i (List.mem_cons_self _ _)
      omega

theorem readAt_af (s : Storage) (fs : FS) (fid : Int) (off n : Nat) :
    (s.readAt fs fid off n).2.af = s.af ∧ (s.readAt fs fid off n).2.fileSize = s.fileSize := by
  unfold Storage.readAt
  split
  · exact ⟨rfl, rfl⟩
  · split <;> exact ⟨rfl, rfl⟩

theorem readEntry_af (s : Storage) (fs : FS) (fid : Int) (off : Nat) :
    (s.readEntry fs fid off).2.af = s.af ∧ (s.readEntry fs fid off).2.fileSize = s.fileSize := by
  have h1 := readAt_af s fs fid off MetaSize
  unfold Storage.readEntry
  rcases hr1 : s.readAt fs fid off MetaSize with ⟨r1, s1⟩
  rw [hr1] at h1
  cases r1 with
  | error err => exact h1
  | panic => exact h1
  | ok buf =>
    simp only
    cases NewEntry.DecodeMeta buf with
    | error err => exact h1
    | panic => exact h1
    | ok entry =>
      simp only
      split
      · exact h1
      · have h2 := readAt_af s1 fs fid (off + MetaSize)
          ((entry.meta.keySize + entry.meta.valueSize) % 2 ^ 32)
        rcases hr2 : s1.readAt fs fid (off + MetaSize)
          ((entry.meta.keySize + entry.meta.valueSize) % 2 ^ 32) with ⟨r2, s2⟩
        rw [hr2] at h2
        have h3 : s2.af = s.af ∧ s2.fileSize = s.fileSize :=
          ⟨h2.1.trans h1.1, h2.2.trans h1.2⟩
        cases r2 with
        | error err => exact h3
        | panic => exact h3
        | ok payload =>
          simp only
          cases entry.DecodePayload payload with
          | error err => exact h3
          | panic => exact h3
          | ok entry2 =>
            simp only
            cases entry2.getCrc buf with
            | error err => exact h3
            | panic => exact h3
            | ok crc =>
              simp only
              split <;> exact h3

theorem readFullEntry_af (s : Storage) (fs : FS) (fid : Int) (off n : Nat) :
    (s.readFullEntry fs fid off n).2.af = s.af ∧
      (s.readFullEntry fs fid off n).2.fileSize = s.fileSize := by
  have h1 := readAt_af s fs fid off n
  unfold Storage.readFullEntry
  rcases hr1 : s.readAt fs fid off n with ⟨r1, s1⟩
  rw [hr1] at h1
  cases r1 with
  | error err => exact h1
  | panic => exact h1
  | ok buf =>
    simp only
    cases slice buf 0 MetaSize with
    | none => exact h1
    | some meta =>
      simp only
      cases NewEntry.DecodeMeta meta with
      | error err => exact h1
      | panic => exact h1
      | ok e =>
        simp only
        cases slice buf MetaSize ((MetaSize + (e.meta.keySize + e.meta.keySize) % 2 ^ 32) % 2 ^ 32) with
        | none => exact h1
        | some x =>
          simp only
          cases e.DecodePayload (List.drop MetaSize buf) with
          | error err => exact h1
          | panic => exact h1
          | ok e2 =>
            simp only
            cases e2.getCrc meta with
            | error err => exact h1
            | panic => exact h1
            | ok crc =>
              simp only
              split <;> exact h1

theorem mergeScan_MergeInv (a0 : Int) (rest : List Int) (fid : Int) (fuel off : Nat) (db : DB) (fs : FS)
    (r : Res Unit) (db' : DB) (fs' : FS)
    (h : DB.mergeScan fid fuel off db fs = some (r, db', fs'))
    (hJ : MergeInv a0 rest db.s fs) : MergeInv a0 rest db'.s fs' :=
  mergeScan_induct (fun db fs => MergeInv a0 rest db.s fs) fid
    (fun db fs off hP => MergeInv_af hP (readEntry_af db.s fs fid off).1)
    (fun db fs buf key hP _ =>
      ⟨fun i s fs' hw => by
          have := writeAt_MergeInv hP buf
          rw [hw] at this
          exact this,
        fun s fs' hw => by
          have := writeAt_MergeInv hP buf
          rw [hw] at this
          exact this⟩)
    fuel off db fs r db' fs' h hJ

theorem sorted_dropLast {l : List Int} {m : Int} (hn : l.Nodup) (hm : m ∈ l)
    (hmax : ∀ i ∈ l, i ≤ m) :
    (l.insertionSort (fun a b => a ≤ b)).dropLast.Nodup ∧
    (∀ f ∈ (l.insertionSort (fun a b => a ≤ b)).dropLast, f < m) ∧
    ∀ i, i ∈ l ↔ (i ∈ (l.insertionSort (fun a b => a ≤ b)).dropLast ∨ i = m) := by
  have hperm := List.perm_insertionSort (fun a b : Int => a ≤ b) l
  have hsorted := List.sorted_insertionSort (fun a b : Int => a ≤ b) l
  generalize l.insertionSort (fun a b => a ≤ b) = s at hperm hsorted
  have hsn : s.Nodup := hperm.nodup_iff.mpr hn
  have hne : s ≠ [] := by
    intro hc; subst hc
    have := hperm.mem_iff.mpr hm
    simp at this
  have hsplit := List.dropLast_append_getLast hne
  have hmem : ∀ i, i ∈ l ↔ (i ∈ s.dropLast ∨ i = s.getLast hne) := by
    intro i
    rw [← hperm.mem_iff]
    conv_lhs => rw [← hsplit]
    simp
  rw [← hsplit] at hsn hsorted
  have hnd := List.nodup_append.mp hsn
  have hle : ∀ a ∈ s.dropLast, a ≤ s.getLast hne := by
    intro a ha
    have := (List.pairwise_append.mp hsorted).2.2 a ha (s.getLast hne) (by simp)
    exact this
  have hlast : s.getLast hne = m := by
    have h1 : s.getLast hne ≤ m := hmax _ ((hmem _).2 (Or.inr rfl))
    rcases (hmem m).1 hm with hd | he
    · have := hle m hd
      have heq : m = s.getLast hne := by omega
      exact heq.symm
    · exact he.symm
  rw [hlast] at hmem hle
  refine ⟨hnd.1, ?_, hmem⟩
  intro f hf
  have h1 := hle f hf
  have h2 : f ≠ m := by
    intro hc
    subst hc
    exact hnd.2.2 hf (by rw [← hlast]; simp)
  omega

/-- What a call of `Merge` does to `Dir` and the active file, from a state in which the active
segment is the highest one. -/
theorem Merge_ActiveIsLast (fuel : Nat) (db : DB) (fs : FS) (r : Res Unit) (db' : DB) (fs' : FS)
    (h : db.Merge fuel fs = some (r, db', fs')) (hA : ActiveIsLast db.s fs) :
    ActiveIsLast db'.s fs' ∧
    (r = .ok () → ∃ ids ids' a a', fs.dir = some ids ∧ fs'.dir = some ids' ∧
      db.s.af = some a ∧ db'.s.af = some a' ∧ a.fid ≤ a'.fid ∧ ids'.Nodup ∧
      (∀ i, i ∈ ids → i ≤ a.fid) ∧ ∀ i, i ∈ ids' ↔ (a.fid ≤ i ∧ i ≤ a'.fid)) := by
  obtain ⟨hI, ids, hd, hn, haf⟩ := hA
  have hA : ActiveIsLast db.s fs := ⟨hI, ids, hd, hn, haf⟩
  unfold DB.Merge at h
  rcases getFids_inert hd hI with hg | ⟨fids, hg, hp⟩
  · rw [hg] at h
    simp only [Option.some.injEq, Prod.mk.injEq] at h
    obtain ⟨rfl, rfl, rfl⟩ := h
    exact ⟨hA, fun hc => (by cases hc)⟩
  rw [hg] at h
  simp only at h
  rw [hp.length_eq, insertionSort_perm hp] at h
  split at h
  · simp only [Option.some.injEq, Prod.mk.injEq] at h
    obtain ⟨rfl, rfl, rfl⟩ := h
    exact ⟨hA, fun hc => (by cases hc)⟩
  · rename_i hlen
    cases ha : db.s.af with
    | none =>
      rw [ha] at haf
      simp only at haf
      subst haf
      simp at hlen
    | some a =>
      rw [ha] at haf
      simp only at haf
      obtain ⟨hs1, hs2, hs3⟩ := sorted_dropLast hn haf.1 haf.2
      have hJ : MergeInv a.fid (ids.insertionSort (fun a b => a ≤ b)).dropLast db.s fs := by
        refine ⟨hI, ids, a, hd, hn, ha, le_refl _, hs1, hs2, fun i => ?_⟩
        rw [hs3 i]
        constructor
        · rintro (h1 | h2)
          · exact Or.inl h1
          · exact Or.inr ⟨by omega, by omega⟩
        · rintro (h1 | ⟨h2, h3⟩)
          · exact Or.inl h1
          · exact Or.inr (by omega)
      have hres := mergeSegments_induct (fun l db fs => MergeInv a.fid l db.s fs) fuel
        (fun fid rest db fs r db' fs' hs hP =>
          mergeScan_MergeInv a.fid (fid :: rest) fid fuel 0 db fs r db' fs' hs hP)
        (fun fid rest db fs fs' hP hrm => remove_MergeInv hP hrm)
        _ db fs r db' fs' h hJ
      obtain ⟨hok, l, hl⟩ := hres
      refine ⟨ActiveIsLast_of_MergeInv hl, fun hr => ?_⟩
      obtain ⟨_, ids', a', hd', hn', ha', h0, _, _, hm'⟩ := hok hr
      refine ⟨ids, ids', a, a', hd, hd', rfl, ha', h0, hn', haf.2, fun i => ?_⟩
      rw [hm' i]
      simp

theorem ActiveIsLast_af {s s' : Storage} {fs : FS} (h : ActiveIsLast s fs) (ha : s'.af = s.af) :
    ActiveIsLast s' fs := by
  obtain ⟨hI, ids, hd, hn, hm⟩ := h
  exact ⟨hI, ids, hd, hn, by rw [ha]; exact hm⟩

theorem writeAt_ActiveIsLast {s : Storage} {fs : FS} (h : ActiveIsLast s fs) (b : List Byte) :
    ActiveIsLast (s.writeAt fs b).2.1 (s.writeAt fs b).2.2 := by
  cases ha : s.af with
  | none =>
    have : s.writeAt fs b = (.panic, s, fs) := by simp [Storage.writeAt, ha]
    rw [this]; exact h
  | some a =>
    obtain ⟨hI, ids, hd, hn, hm⟩ := h
    exact ActiveIsLast_of_MergeInv
      (writeAt_MergeInv (MergeInv_of_ActiveIsLast ⟨hI, ids, hd, hn, hm⟩ ha hd) b)

theorem Set_storage (db : DB) (fs : FS) (now : Nat) (key value : List Byte) :
    ((db.Set fs now key value).2.1.s = db.s ∧ (db.Set fs now key value).2.2 = fs) ∨
    ∃ buf, (db.Set fs now key value).2.1.s = (db.s.writeAt fs buf).2.1 ∧
      (db.Set fs now key value).2.2 = (db.s.writeAt fs buf).2.2 := by
  unfold DB.Set
  simp only
  cases (NewEntryWithData now key value).Encode with
  | error err => exact Or.inl ⟨rfl, rfl⟩
  | panic => exact Or.inl ⟨rfl, rfl⟩
  | ok buf =>
    refine Or.inr ⟨buf, ?_⟩
    simp only
    rcases db.s.writeAt fs buf with ⟨r, s, fs2⟩
    cases r <;> exact ⟨rfl, rfl⟩

theorem Delete_storage (db : DB) (fs : FS) (key : List Byte) :
    ((db.Delete fs key).2.1.s = db.s ∧ (db.Delete fs key).2.2 = fs) ∨
    ∃ buf, (db.Delete fs key).2.1.s = (db.s.writeAt fs buf).2.1 ∧
      (db.Delete fs key).2.2 = (db.s.writeAt fs buf).2.2 := by
  unfold DB.Delete
  cases db.kd.find key with
  | none => exact Or.inl ⟨rfl, rfl⟩
  | some i =>
    simp only [Encode_tombstone]
    refine Or.inr ⟨frame (metaTail tombstone.meta), ?_⟩
    rcases db.s.writeAt fs (frame (metaTail tombstone.meta)) with ⟨r, s, fs2⟩
    cases r <;> exact ⟨rfl, rfl⟩

theorem Get_storage (db : DB) (fs : FS) (key : List Byte) :
    (db.Get fs key).2.s.af = db.s.af := by
  unfold DB.Get
  cases db.kd.find key with
  | none => rfl
  | some i =>
    simp only
    have := (readFullEntry_af db.s fs i.fid i.off (MetaSize + i.keySize + i.valueSize)).1
    rcases hrf : db.s.readFullEntry fs i.fid i.off (MetaSize + i.keySize + i.valueSize)
      with ⟨r, s⟩
    rw [hrf] at this
    cases r <;> exact this

theorem recoveryScan_af (fid : Int) (fs : FS) :
    ∀ (fuel off : Nat) (db : DB) (r : Res Nat) (db' : DB),
      DB.recoveryScan fid fs fuel off db = some (r, db') → db'.s.af = db.s.af := by
  intro fuel
  induction fuel with
  | zero => intro off db r db' h; simp [DB.recoveryScan] at h
  | succ fuel ih =>
    intro off db r db' h
    have hr := (readEntry_af db.s fs fid off).1
    unfold DB.recoveryScan at h
    rcases hre : db.s.readEntry fs fid off with ⟨x, s⟩
    rw [hre] at h hr
    cases x with
    | deleted e => exact (ih _ _ _ _ h).trans hr
    | panic =>
      simp only [Option.some.injEq, Prod.mk.injEq] at h
      obtain ⟨_, rfl⟩ := h
      exact hr
    | error err =>
      cases err <;>
      · simp only [Option.some.injEq, Prod.mk.injEq] at h
        obtain ⟨_, rfl⟩ := h
        exact hr
    | entry e => exact (ih _ _ _ _ h).trans hr

theorem openCreate_of_mem {fs : FS} {ids : List Int} {fid : Int} (hd : fs.dir = some ids)
    (hf : fid ∈ ids) : fs.openCreate fid = some fs := by
  simp [FS.openCreate, hd, hf]

theorem recoverySegments_af (fuel : Nat) (last : Int) (ids : List Int) :
    ∀ (l : List Int) (db : DB) (fs : FS) (db' : DB) (fs' : FS), fs.dir = some ids →
      (∀ f ∈ l, f ∈ ids) →
      DB.recoverySegments fuel last l db fs = some (.ok (), db', fs') →
      fs' = fs ∧ (last ∈ l → ∃ off, db'.s.af = some ⟨last, off⟩) ∧
        (last ∉ l → db'.s.af = db.s.af) := by
  intro l
  induction l with
  | nil =>
    intro db fs db' fs' hd hl h
    simp only [DB.recoverySegments, Option.some.injEq, Prod.mk.injEq] at h
    obtain ⟨_, rfl, rfl⟩ := h
    exact ⟨rfl, fun hc => absurd hc (List.not_mem_nil _), fun _ => rfl⟩
  | cons fid rest ih =>
    intro db fs db' fs' hd hl h
    unfold DB.recoverySegments at h
    rw [openCreate_of_mem hd (hl fid (List.mem_cons_self _ _))] at h
    simp only at h
    cases hs : DB.recoveryScan fid fs fuel 0
        { kd := db.kd, s := { fileSize := db.s.fileSize, fds := fid :: db.s.fds, af := db.s.af } }
      with
    | none => rw [hs] at h; simp at h
    | some res =>
      obtain ⟨r1, db1⟩ := res
      have haf := recoveryScan_af fid fs fuel 0 _ r1 db1 hs
      simp only at haf
      rw [hs] at h
      cases r1 with
      | error err => simp at h
      | panic => simp at h
      | ok off =>
        simp only at h
        obtain ⟨h1, h2, h3⟩ := ih _ fs db' fs' hd
          (fun f hf => hl f (List.mem_cons_of_mem _ hf)) h
        refine ⟨h1, fun hmem => ?_, fun hnm => ?_⟩
        · by_cases hr : last ∈ rest
          · exact h2 hr
          · have hfl : fid = last := by
              rcases List.mem_cons.mp hmem with h | h
              · exact h.symm
              · exact absurd h hr
            have := h3 hr
            rw [this]
            simp [hfl]
        · have hne : fid ≠ last := fun hc => hnm (by rw [hc]; exact List.mem_cons_self _ _)
          have hr : last ∉ rest := fun hc => hnm (List.mem_cons_of_mem _ hc)
          rw [h3 hr]
          simp only [hne, if_false]
          exact haf

theorem sorted_getLastD {l : List Int} (hne : l ≠ []) :
    (l.insertionSort (fun a b => a ≤ b)).getLastD 0 ∈ l.insertionSort (fun a b => a ≤ b) ∧
    ∀ i ∈ l, i ≤ (l.insertionSort (fun a b => a ≤ b)).getLastD 0 := by
  have hperm := List.perm_insertionSort (fun a b : Int => a ≤ b) l
  have hsorted := List.sorted_insertionSort (fun a b : Int => a ≤ b) l
  generalize l.insertionSort (fun a b => a ≤ b) = s at hperm hsorted
  have hsne : s ≠ [] := by
    intro hc; subst hc
    exact hne (List.Perm.eq_nil hperm.symm)
  have hg : s.getLastD 0 = s.getLast hsne := by
    rw [List.getLastD_eq_getLast?, List.getLast?_eq_getLast _ hsne]
    rfl
  rw [hg]
  refine ⟨List.getLast_mem hsne, fun i hi => ?_⟩
  have his : i ∈ s := hperm.mem_iff.mpr hi
  have hsplit := List.dropLast_append_getLast hsne
  rw [← hsplit] at his hsorted
  rcases List.mem_append.mp his with h | h
  · exact (List.pairwise_append.mp hsorted).2.2 i h _ (by simp)
  · simp only [List.mem_singleton] at h
    omega

theorem recoverySegments_fs (fuel : Nat) (last : Int) (ids : List Int) :
    ∀ (l : List Int) (db : DB) (fs : FS) (r : Res Unit) (db' : DB) (fs' : FS),
      fs.dir = some ids → (∀ f ∈ l, f ∈ ids) →
      DB.recoverySegments fuel last l db fs = some (r, db', fs') → fs' = fs := by
  intro l
  induction l with
  | nil =>
    intro db fs r db' fs' hd hl h
    simp only [DB.recoverySegments, Option.some.injEq, Prod.mk.injEq] at h
    exact h.2.2.symm
  | cons fid rest ih =>
    intro db fs r db' fs' hd hl h
    unfold DB.recoverySegments at h
    rw [openCreate_of_mem hd (hl fid (List.mem_cons_self _ _))] at h
    simp only at h
    cases hs : DB.recoveryScan fid fs fuel 0
        { kd := db.kd, s := { fileSize := db.s.fileSize, fds := fid :: db.s.fds, af := db.s.af } }
      with
    | none => rw [hs] at h; simp at h
    | some res =>
      obtain ⟨r1, db1⟩ := res
      rw [hs] at h
      cases r1 with
      | error err =>
        simp only [Option.some.injEq, Prod.mk.injEq] at h
        exact h.2.2.symm
      | panic =>
        simp only [Option.some.injEq, Prod.mk.injEq] at h
        exact h.2.2.symm
      | ok off =>
        simp only at h
        exact ih _ fs r db' fs' hd (fun f hf => hl f (List.mem_cons_of_mem _ hf)) h

theorem NewDB_fs_of_fail (d fuel : Nat) (opt : Options) (fs : FS) (r : Res DB) (fs' : FS)
    (hI : NoForeignDat fs)
    (h : NewDB d fuel opt fs = some (r, fs')) (hr : ∀ db, r ≠ .ok db) : fs' = fs := by
  unfold NewDB at h
  cases hd : fs.dir with
  | none =>
    simp only [hd, Option.isSome_none, Bool.false_eq_true, if_false, NewStorage] at h
    simp only [Option.some.injEq, Prod.mk.injEq] at h
    exact absurd h.1.symm (hr _)
  | some ids =>
    simp only [hd, Option.isSome_some, if_true, DB.recovery] at h
    rcases getFids_inert hd hI with hg | ⟨fids, hg, hp⟩
    · rw [hg] at h
      simp only [Option.some.injEq, Prod.mk.injEq] at h
      exact h.2.symm
    rw [hg] at h
    simp only at h
    rw [insertionSort_perm hp] at h
    cases hrs : DB.recoverySegments fuel
        ((ids.insertionSort (fun a b => a ≤ b)).getLastD 0)
        (ids.insertionSort (fun a b => a ≤ b))
        { kd := { index := fun _ => none },
          s := { fileSize := getSegmentSize d opt.SegmentSize, fds := [], af := none } } fs with
    | none => rw [hrs] at h; simp at h
    | some res =>
      obtain ⟨r1, db1, fs1⟩ := res
      rw [hrs] at h
      have hperm := List.perm_insertionSort (fun a b : Int => a ≤ b) ids
      have hfs := recoverySegments_fs fuel _ ids _ _ fs r1 db1 fs1 hd
        (fun f hf => hperm.mem_iff.mp hf) hrs
      cases r1 with
      | error err =>
        simp only [Option.some.injEq, Prod.mk.injEq] at h
        rw [← h.2]; exact hfs
      | panic =>
        simp only [Option.some.injEq, Prod.mk.injEq] at h
        rw [← h.2]; exact hfs
      | ok u =>
        simp only [Option.some.injEq, Prod.mk.injEq] at h
        exact absurd h.1.symm (hr _)

theorem NewDB_ActiveIsLast (d fuel : Nat) (opt : Options) (fs : FS) (db : DB) (fs' : FS)
    (hn : ∀ ids, fs.dir = some ids → ids.Nodup) (hI : NoForeignDat fs)
    (h : NewDB d fuel opt fs = some (.ok db, fs')) : ActiveIsLast db.s fs' := by
  unfold NewDB at h
  cases hd : fs.dir with
  | none =>
    simp only [hd, Option.isSome_none, Bool.false_eq_true, if_false, NewStorage] at h
    simp only [Option.some.injEq, Prod.mk.injEq, Res.ok.injEq] at h
    obtain ⟨rfl, rfl⟩ := h
    exact ⟨fun f hf => absurd hf (List.not_mem_nil _), [0], rfl, List.nodup_singleton _,
      by simp⟩
  | some ids =>
    simp only [hd, Option.isSome_some, if_true, DB.recovery] at h
    rcases getFids_inert hd hI with hg | ⟨fids, hg, hp⟩
    · rw [hg] at h
      simp at h
    rw [hg] at h
    simp only at h
    rw [insertionSort_perm hp] at h
    cases hrs : DB.recoverySegments fuel
        ((ids.insertionSort (fun a b => a ≤ b)).getLastD 0)
        (ids.insertionSort (fun a b => a ≤ b))
        { kd := { index := fun _ => none },
          s := { fileSize := getSegmentSize d opt.SegmentSize, fds := [], af := none } } fs with
    | none => rw [hrs] at h; simp at h
    | some res =>
      obtain ⟨r, db1, fs1⟩ := res
      rw [hrs] at h
      cases r with
      | error err => simp at h
      | panic => simp at h
      | ok u =>
        simp only [Option.some.injEq, Prod.mk.injEq, Res.ok.injEq] at h
        obtain ⟨rfl, rfl⟩ := h
        have hperm := List.perm_insertionSort (fun a b : Int => a ≤ b) ids
        obtain ⟨h1, h2, h3⟩ := recoverySegments_af fuel _ ids _ _ fs db1 fs1 hd
          (fun f hf => hperm.mem_iff.mp hf) hrs
        subst h1
        refine ⟨hI, ids, hd, hn ids hd, ?_⟩
        by_cases hne : ids = []
        · subst hne
          have := h3 (by simp)
          rw [this]
        · obtain ⟨g1, g2⟩ := sorted_getLastD hne
          obtain ⟨off, hoff⟩ := h2 g1
          rw [hoff]
          exact ⟨hperm.mem_iff.mp g1, g2⟩

theorem step_ActiveIsLast (op : Op) (db : DB) (fs : FS) (o : Outcome) (db' : DB) (fs' : FS)
    (h : db.step fs op = some (o, db', fs')) (hA : ActiveIsLast db.s fs) :
    ActiveIsLast db'.s fs' := by
  cases op with
  | set now key value =>
    simp only [DB.step, Option.some.injEq, Prod.mk.injEq] at h
    obtain ⟨_, rfl, rfl⟩ := h
    rcases Set_storage db fs now key value with ⟨h1, h2⟩ | ⟨buf, h1, h2⟩
    · rw [h2]; exact ActiveIsLast_af hA (by rw [h1])
    · rw [h1, h2]; exact writeAt_ActiveIsLast hA buf
  | get key =>
    simp only [DB.step, Option.some.injEq, Prod.mk.injEq] at h
    obtain ⟨_, rfl, rfl⟩ := h
    exact ActiveIsLast_af hA (Get_storage db fs key)
  | delete key =>
    simp only [DB.step, Option.some.injEq, Prod.mk.injEq] at h
    obtain ⟨_, rfl, rfl⟩ := h
    rcases Delete_storage db fs key with ⟨h1, h2⟩ | ⟨buf, h1, h2⟩
    · rw [h2]; exact ActiveIsLast_af hA (by rw [h1])
    · rw [h1, h2]; exact writeAt_ActiveIsLast hA buf
  | merge fuel =>
    simp only [DB.step] at h
    cases hm : db.Merge fuel fs with
    | none => rw [hm] at h; simp at h
    | some res =>
      obtain ⟨r, db1, fs1⟩ := res
      rw [hm] at h
      simp only [Option.some.injEq, Prod.mk.injEq] at h
      obtain ⟨_, rfl, rfl⟩ := h
      exact (Merge_ActiveIsLast fuel db fs r db1 fs1 hm hA).1
  | reopen d fuel opt =>
    simp only [DB.step] at h
    obtain ⟨hI, ids, hd, hn, hm⟩ := hA
    have hnd : ∀ ids', fs.dir = some ids' → ids'.Nodup := by
      intro ids' h'
      rw [hd] at h'
      injection h' with h'
      subst h'
      exact hn
    cases hnew : NewDB d fuel opt fs with
    | none => rw [hnew] at h; simp at h
    | some res =>
      obtain ⟨r, fs1⟩ := res
      rw [hnew] at h
      cases r with
      | ok db1 =>
        simp only [Option.some.injEq, Prod.mk.injEq] at h
        obtain ⟨_, rfl, rfl⟩ := h
        exact NewDB_ActiveIsLast d fuel opt fs db1 fs1 hnd hI hnew
      | error err =>
        have hfs := NewDB_fs_of_fail d fuel opt fs _ fs1 hI hnew (fun db hc => by cases hc)
        simp only [Option.some.injEq, Prod.mk.injEq] at h
        obtain ⟨_, rfl, rfl⟩ := h
        rw [hfs]
        exact ⟨hI, ids, hd, hn, hm⟩
      | panic =>
        have hfs := NewDB_fs_of_fail d fuel opt fs _ fs1 hI hnew (fun db hc => by cases hc)
        simp only [Option.some.injEq, Prod.mk.injEq] at h
        obtain ⟨_, rfl, rfl⟩ := h
        rw [hfs]
        exact ⟨hI, ids, hd, hn, hm⟩

theorem triple_eta {α β γ : Type} (x : α × β × γ) (a : α) (h : x.1 = a) :
    x = (a, x.2.1, x.2.2) := by
  subst h; rfl

theorem fileWriteAt_append (data b : List Byte) :
    (fileWriteAt data data.length b).length = data.length + b.length := by
  unfold fileWriteAt
  split
  · rename_i h; subst h; rfl
  · simp

theorem CursorAtEnd_af {s s' : Storage} {fs : FS} (h : CursorAtEnd s fs) (ha : s'.af = s.af) :
    CursorAtEnd s' fs := by
  obtain ⟨a, h1, h2⟩ := h
  exact ⟨a, by rw [ha, h1], h2⟩

theorem writeAt_CursorAtEnd {s : Storage} {fs : FS} (hA : ActiveIsLast s fs)
    (hC : CursorAtEnd s fs) (b : List Byte) :
    CursorAtEnd (s.writeAt fs b).2.1 (s.writeAt fs b).2.2 := by
  obtain ⟨a, ha, hoff⟩ := hC
  obtain ⟨_, ids, hd, hn, hm⟩ := hA
  rw [ha] at hm
  have hlen : (fileWriteAt (fs.data a.fid) a.off b).length = a.off + b.length := by
    rw [hoff]; exact fileWriteAt_append _ _
  rcases writeAt_cases s fs b a ha with ⟨_, hw⟩ | ⟨_, _, hw⟩ | ⟨_, fs2, ho, hw⟩
  · rw [hw]
    exact ⟨⟨a.fid, a.off + b.length⟩, rfl, by simp [ActiveFile.writeAt, hlen]⟩
  · rw [hw]
    exact ⟨⟨a.fid, a.off + b.length⟩, rfl, by simp [ActiveFile.writeAt, hlen]⟩
  · rw [hw]
    have hnot : a.fid + 1 ∉ ids := by
      intro hc
      have := hm.2 _ hc
      omega
    unfold FS.openCreate at ho
    simp only [ActiveFile.writeAt, hd, hnot, if_false, Option.some.injEq] at ho
    subst ho
    exact ⟨⟨a.fid + 1, 0⟩, rfl, by simp⟩

theorem remove_CursorAtEnd {s : Storage} {fs fs' : FS} {fid : Int} (hC : CursorAtEnd s fs)
    (hr : fs.remove fid = some fs') : CursorAtEnd s fs' := by
  obtain ⟨a, ha, hoff⟩ := hC
  unfold FS.remove at hr
  cases hd : fs.dir with
  | none => simp [hd] at hr
  | some ids =>
    simp only [hd] at hr
    split at hr
    · injection hr with hr
      subst hr
      exact ⟨a, ha, hoff⟩
    · cases hr

theorem mergeScan_Cursor (a0 : Int) (rest : List Int) (fid : Int) (fuel off : Nat) (db : DB) (fs : FS)
    (r : Res Unit) (db' : DB) (fs' : FS)
    (h : DB.mergeScan fid fuel off db fs = some (r, db', fs'))
    (hJ : MergeInv a0 rest db.s fs ∧ CursorAtEnd db.s fs) :
    MergeInv a0 rest db'.s fs' ∧ CursorAtEnd db'.s fs' :=
  mergeScan_induct (fun db fs => MergeInv a0 rest db.s fs ∧ CursorAtEnd db.s fs) fid
    (fun db fs off hP =>
      ⟨MergeInv_af hP.1 (readEntry_af db.s fs fid off).1,
        CursorAtEnd_af hP.2 (readEntry_af db.s fs fid off).1⟩)
    (fun db fs buf key hP _ =>
      ⟨fun i s fs' hw => by
          have h1 := writeAt_MergeInv hP.1 buf
          have h2 := writeAt_CursorAtEnd (ActiveIsLast_of_MergeInv hP.1) hP.2 buf
          rw [hw] at h1 h2
          exact ⟨h1, h2⟩,
        fun s fs' hw => by
          have h1 := writeAt_MergeInv hP.1 buf
          have h2 := writeAt_CursorAtEnd (ActiveIsLast_of_MergeInv hP.1) hP.2 buf
          rw [hw] at h1 h2
          exact ⟨h1, h2⟩⟩)
    fuel off db fs r db' fs' h hJ

theorem Merge_CursorAtEnd (fuel : Nat) (db : DB) (fs : FS) (r : Res Unit) (db' : DB) (fs' : FS)
    (h : db.Merge fuel fs = some (r, db', fs')) (hA : ActiveIsLast db.s fs)
    (hC : CursorAtEnd db.s fs) : CursorAtEnd db'.s fs' := by
  obtain ⟨a, ha, hoff⟩ := hC
  obtain ⟨hI, ids, hd, hn, haf⟩ := hA
  unfold DB.Merge at h
  rcases getFids_inert hd hI with hg | ⟨fids, hg, hp⟩
  · rw [hg] at h
    simp only [Option.some.injEq, Prod.mk.injEq] at h
    obtain ⟨_, rfl, rfl⟩ := h
    exact ⟨a, ha, hoff⟩
  rw [hg] at h
  simp only at h
  rw [hp.length_eq, insertionSort_perm hp] at h
  split at h
  · simp only [Option.some.injEq, Prod.mk.injEq] at h
    obtain ⟨_, rfl, rfl⟩ := h
    exact ⟨a, ha, hoff⟩
  · have hJ := MergeInv_of_ActiveIsLast ⟨hI, ids, hd, hn, haf⟩ ha hd
    rw [ha] at haf
    simp only at haf
    obtain ⟨hs1, hs2, hs3⟩ := sorted_dropLast hn haf.1 haf.2
    have hJ : MergeInv a.fid (ids.insertionSort (fun a b => a ≤ b)).dropLast db.s fs := by
      refine ⟨hI, ids, a, hd, hn, ha, le_refl _, hs1, hs2, fun i => ?_⟩
      rw [hs3 i]
      constructor
      · rintro (h1 | h2)
        · exact Or.inl h1
        · exact Or.inr ⟨by omega, by omega⟩
      · rintro (h1 | ⟨h2, h3⟩)
        · exact Or.inl h1
        · exact Or.inr (by omega)
    have hres := mergeSegments_induct
      (fun l db fs => MergeInv a.fid l db.s fs ∧ CursorAtEnd db.s fs) fuel
      (fun fid rest db fs r db' fs' hs hP =>
        mergeScan_Cursor a.fid (fid :: rest) fid fuel 0 db fs r db' fs' hs hP)
      (fun fid rest db fs fs' hP hrm => ⟨remove_MergeInv hP.1 hrm, remove_CursorAtEnd hP.2 hrm⟩)
      _ db fs r db' fs' h ⟨hJ, a, ha, hoff⟩
    obtain ⟨_, l, hl⟩ := hres
    exact hl.2

theorem step_CursorAtEnd (op : Op) (hop : op.sameInstance = true) (db : DB) (fs : FS)
    (o : Outcome) (db' : DB) (fs' : FS)
    (h : db.step fs op = some (o, db', fs')) (hA : ActiveIsLast db.s fs)
    (hC : CursorAtEnd db.s fs) : CursorAtEnd db'.s fs' := by
  cases op with
  | set now key value =>
    simp only [DB.step, Option.some.injEq, Prod.mk.injEq] at h
    obtain ⟨_, rfl, rfl⟩ := h
    rcases Set_storage db fs now key value with ⟨h1, h2⟩ | ⟨buf, h1, h2⟩
    · rw [h2]; exact CursorAtEnd_af hC (by rw [h1])
    · rw [h1, h2]; exact writeAt_CursorAtEnd hA hC buf
  | get key =>
    simp only [DB.step, Option.some.injEq, Prod.mk.injEq] at h
    obtain ⟨_, rfl, rfl⟩ := h
    exact CursorAtEnd_af hC (Get_storage db fs key)
  | delete key =>
    simp only [DB.step, Option.some.injEq, Prod.mk.injEq] at h
    obtain ⟨_, rfl, rfl⟩ := h
    rcases Delete_storage db fs key with ⟨h1, h2⟩ | ⟨buf, h1, h2⟩
    · rw [h2]; exact CursorAtEnd_af hC (by rw [h1])
    · rw [h1, h2]; exact writeAt_CursorAtEnd hA hC buf
  | merge fuel =>
    simp only [DB.step] at h
    cases hm : db.Merge fuel fs with
    | none => rw [hm] at h; simp at h
    | some res =>
      obtain ⟨r, db1, fs1⟩ := res
      rw [hm] at h
      simp only [Option.some.injEq, Prod.mk.injEq] at h
      obtain ⟨_, rfl, rfl⟩ := h
      exact Merge_CursorAtEnd fuel db fs r db1 fs1 hm hA hC
  | reopen d fuel opt => simp [Op.sameInstance] at hop

theorem run_CursorAtEnd (ops : List Op) (hops : ∀ op ∈ ops, op.sameInstance = true) :
    ∀ (db : DB) (fs : FS) (os : List Outcome) (db' : DB) (fs' : FS),
      DB.run db fs ops = some (os, db', fs') → ActiveIsLast db.s fs → CursorAtEnd db.s fs →
      ActiveIsLast db'.s fs' ∧ CursorAtEnd db'.s fs' := by
  induction ops with
  | nil =>
    intro db fs os db' fs' h hA hC
    simp only [DB.run, Option.some.injEq, Prod.mk.injEq] at h
    obtain ⟨_, rfl, rfl⟩ := h
    exact ⟨hA, hC⟩
  | cons op ops ih =>
    intro db fs os db' fs' h hA hC
    unfold DB.run at h
    cases hs : db.step fs op with
    | none => rw [hs] at h; simp at h
    | some res =>
      obtain ⟨o, db1, fs1⟩ := res
      rw [hs] at h
      simp only at h
      cases hr : DB.run db1 fs1 ops with
      | none => rw [hr] at h; simp at h
      | some res2 =>
        obtain ⟨os2, db2, fs2⟩ := res2
        rw [hr] at h
        simp only [Option.some.injEq, Prod.mk.injEq] at h
        obtain ⟨_, rfl, rfl⟩ := h
        exact ih (fun op' hop' => hops op' (List.mem_cons_of_mem _ hop')) db1 fs1 os2 db2 fs2 hr
          (step_ActiveIsLast op db fs o db1 fs1 hs hA)
          (step_CursorAtEnd op (hops op (List.mem_cons_self _ _)) db fs o db1 fs1 hs hA hC)

theorem crcBit_lt {c : Nat} (h : c < 2 ^ 32) : crcBit c < 2 ^ 32 := by
  have h1 : c >>> 1 < 2 ^ 32 := by
    rw [Nat.shiftRight_eq_div_pow]
    omega
  unfold crcBit
  split
  · exact Nat.xor_lt_two_pow h1 (by decide)
  · exact h1

theorem crcTable_lt {i : Nat} (h : i < 2 ^ 32) : crcTable i < 2 ^ 32 := by
  unfold crcTable
  exact crcBit_lt (crcBit_lt (crcBit_lt (crcBit_lt (crcBit_lt (crcBit_lt (crcBit_lt
    (crcBit_lt h)))))))

theorem crcStep_lt {crc : Nat} (v : Byte) (h : crc < 2 ^ 32) : crcStep crc v < 2 ^ 32 := by
  unfold crcStep
  have h1 : crc % 256 ^^^ v.val < 2 ^ 8 :=
    Nat.xor_lt_two_pow (Nat.mod_lt _ (by decide)) v.isLt
  have h2 : crc >>> 8 < 2 ^ 32 := by
    rw [Nat.shiftRight_eq_div_pow]
    omega
  exact Nat.xor_lt_two_pow (crcTable_lt (by omega)) h2

theorem foldl_crcStep_lt (p : List Byte) : ∀ {crc : Nat}, crc < 2 ^ 32 →
    p.foldl crcStep crc < 2 ^ 32 := by
  induction p with
  | nil => intro crc h; exact h
  | cons b p ih => intro crc h; exact ih (crcStep_lt b h)

theorem crcUpdate_lt {crc : Nat} (p : List Byte) (h : crc < 2 ^ 32) :
    crcUpdate crc p < 2 ^ 32 := by
  unfold crcUpdate
  exact Nat.xor_lt_two_pow (foldl_crcStep_lt p (Nat.xor_lt_two_pow h (by decide))) (by decide)

theorem ChecksumIEEE_lt (p : List Byte) : ChecksumIEEE p < 2 ^ 32 :=
  crcUpdate_lt p (by decide)

theorem fileReadAt_mid (pre mid post : List Byte) :
    fileReadAt (pre ++ (mid ++ post)) pre.length mid.length = .ok mid := by
  unfold fileReadAt
  split
  · rename_i h
    have : mid = [] := List.length_eq_zero.mp h
    rw [this]
  · rw [if_pos (by simp), List.drop_left, List.take_left]

theorem fileReadAt_eof (data : List Byte) (off n : Nat) (hn : n ≠ 0) (h : data.length < off + n) :
    fileReadAt data off n = .error .EOF := by
  unfold fileReadAt
  rw [if_neg hn, if_neg (by omega)]

theorem readAt_cached (s : Storage) (fs : FS) (fid : Int) (off n : Nat) (h : fid ∈ s.fds) :
    s.readAt fs fid off n = (fileReadAt (fs.data fid) off n, s) := by
  unfold Storage.readAt
  rw [if_pos h]

/-- `readEntry` at the start of a put record that holds `m`, `k` and `v`. -/
theorem readEntry_put (s : Storage) (fs : FS) (fid : Int) (pre post k v : List Byte) (m : Meta)
    (hfd : fid ∈ s.fds)
    (hdata : fs.data fid = pre ++ (frame (metaTail m ++ k ++ v) ++ post))
    (hk : m.keySize = k.length) (hv : m.valueSize = v.length)
    (hsz : k.length + v.length + 29 < 2 ^ 32) (hf : m.flag % 256 ≠ DeleteFlag) :
    s.readEntry fs fid pre.length
      = (.entry ⟨k, v, Meta.stored (ChecksumIEEE (metaTail m ++ k ++ v)) m⟩, s) := by
  have hkm : m.keySize % 2 ^ 32 = k.length := by rw [hk]; exact Nat.mod_eq_of_lt (by omega)
  have hvm : m.valueSize % 2 ^ 32 = v.length := by rw [hv]; exact Nat.mod_eq_of_lt (by omega)
  have hd1 : fs.data fid = pre ++ ((leBytes 4 (ChecksumIEEE (metaTail m ++ k ++ v)) ++ metaTail m)
      ++ (k ++ v ++ post)) := by
    rw [hdata]; simp [frame, List.append_assoc]
  have hd2 : fs.data fid = (pre ++ (leBytes 4 (ChecksumIEEE (metaTail m ++ k ++ v))
      ++ metaTail m)) ++ ((k ++ v) ++ post) := by
    rw [hdata]; simp [frame, List.append_assoc]
  have hr1 : s.readAt fs fid pre.length MetaSize
      = (.ok (leBytes 4 (ChecksumIEEE (metaTail m ++ k ++ v)) ++ metaTail m), s) := by
    rw [readAt_cached s fs fid _ _ hfd, hd1]
    have := fileReadAt_mid pre (leBytes 4 (ChecksumIEEE (metaTail m ++ k ++ v)) ++ metaTail m)
      (k ++ v ++ post)
    simp only [List.length_append, leBytes_length, metaTail_length] at this
    rw [show MetaSize = 4 + 25 from rfl, this]
  have hr2 : s.readAt fs fid (pre.length + MetaSize) ((k.length + v.length) % 2 ^ 32)
      = (.ok (k ++ v), s) := by
    rw [readAt_cached s fs fid _ _ hfd, hd2, Nat.mod_eq_of_lt (by omega)]
    have := fileReadAt_mid (pre ++ (leBytes 4 (ChecksumIEEE (metaTail m ++ k ++ v))
      ++ metaTail m)) (k ++ v) post
    simp only [List.length_append, leBytes_length, metaTail_length] at this
    rw [show MetaSize = 4 + 25 from rfl, this]
  have hst : ∀ c, (Meta.stored c m).keySize = k.length ∧ (Meta.stored c m).valueSize = v.length ∧
      (Meta.stored c m).flag ≠ DeleteFlag ∧ (Meta.stored c m).crc = c % 2 ^ 32 :=
    fun c => ⟨hkm, hvm, hf, rfl⟩
  obtain ⟨g1, g2, g3, g4⟩ := hst (ChecksumIEEE (metaTail m ++ k ++ v))
  have hdp := DecodePayload_append
    ⟨[], [], Meta.stored (ChecksumIEEE (metaTail m ++ k ++ v)) m⟩ k v [] g1 g2 (by omega)
  rw [List.append_nil] at hdp
  have hcrc : (Entry.mk k v (Meta.stored (ChecksumIEEE (metaTail m ++ k ++ v)) m)).getCrc
      (leBytes 4 (ChecksumIEEE (metaTail m ++ k ++ v)) ++ metaTail m)
      = .ok (ChecksumIEEE (metaTail m ++ k ++ v)) := by
    unfold Entry.getCrc
    have hs := slice_mid (leBytes 4 (ChecksumIEEE (metaTail m ++ k ++ v))) (metaTail m) [] 4
      (4 + (metaTail m).length) (leBytes_length _ _) rfl
    rw [List.append_nil] at hs
    have hl : (leBytes 4 (ChecksumIEEE (metaTail m ++ k ++ v)) ++ metaTail m).length
        = 4 + (metaTail m).length := by simp [leBytes_length]
    rw [hl, hs]
    simp only [ChecksumIEEE, crcUpdate_append]
  unfold Storage.readEntry
  rw [hr1]
  simp only [DecodeMeta_bytes, NewEntry]
  rw [if_neg g3, g1, g2, hr2]
  simp only [hdp, hcrc, g4, Nat.mod_eq_of_lt (ChecksumIEEE_lt _), ne_eq, not_true_eq_false,
    if_false]

/-- `readEntry` at the start of the tombstone that `Delete` writes. -/
theorem readEntry_tombstone (s : Storage) (fs : FS) (fid : Int) (pre post : List Byte)
    (hfd : fid ∈ s.fds)
    (hdata : fs.data fid = pre ++ (frame (metaTail tombstone.meta) ++ post)) :
    ∃ e, s.readEntry fs fid pre.length = (.deleted e, s) ∧ e.Size = 29 := by
  have hd1 : fs.data fid = pre ++ ((leBytes 4 (ChecksumIEEE (metaTail tombstone.meta))
      ++ metaTail tombstone.meta) ++ post) := by
    rw [hdata]; simp [frame, List.append_assoc]
  have hr1 : s.readAt fs fid pre.length MetaSize
      = (.ok (leBytes 4 (ChecksumIEEE (metaTail tombstone.meta)) ++ metaTail tombstone.meta), s) := by
    rw [readAt_cached s fs fid _ _ hfd, hd1]
    have := fileReadAt_mid pre (leBytes 4 (ChecksumIEEE (metaTail tombstone.meta))
      ++ metaTail tombstone.meta) post
    simp only [List.length_append, leBytes_length, metaTail_length] at this
    rw [show MetaSize = 4 + 25 from rfl, this]
  refine ⟨⟨[], [], Meta.stored (ChecksumIEEE (metaTail tombstone.meta)) tombstone.meta⟩, ?_, rfl⟩
  unfold Storage.readEntry
  rw [hr1]
  simp only [DecodeMeta_bytes, NewEntry]
  have hfl : (Meta.stored (ChecksumIEEE (metaTail tombstone.meta)) tombstone.meta).flag
      = DeleteFlag := rfl
  rw [if_pos hfl]

theorem readEntry_eof (s : Storage) (fs : FS) (fid : Int) (hfd : fid ∈ s.fds) :
    s.readEntry fs fid (fs.data fid).length = (.error .EOF, s) := by
  unfold Storage.readEntry
  rw [readAt_cached s fs fid _ _ hfd, fileReadAt_eof _ _ _ (by decide) (by simp [MetaSize])]

theorem IsRecord_cases {b : List Byte} (h : IsRecord b) :
    (∃ m k v, b = frame (metaTail m ++ k ++ v) ∧ m.keySize = k.length ∧
      m.valueSize = v.length ∧ k.length + v.length + 29 < 2 ^ 32 ∧ m.flag % 256 ≠ DeleteFlag ∧
      m.flag = 0) ∨
    b = frame (metaTail tombstone.meta) := by
  rcases h with ⟨now, key, value, hb⟩ | hb
  · left
    obtain ⟨body, hbody⟩ := Encode_ok_body hb
    have hsz := encodeBody_some_bounds _ body (by simp [NewEntryWithData, DeleteFlag])
      (Nat.mod_lt _ (by decide)) (Nat.mod_lt _ (by decide)) hbody
    simp only [NewEntryWithData] at hsz
    rw [Encode_NewEntryWithData now key value hsz] at hb
    injection hb with hb
    refine ⟨(NewEntryWithData now key value).meta, key.take (key.length % 2 ^ 32),
      value.take (value.length % 2 ^ 32), hb.symm, ?_, ?_, ?_, ?_, rfl⟩
    · simp [NewEntryWithData, List.length_take, Nat.min_eq_left (Nat.mod_le _ _)]
    · simp [NewEntryWithData, List.length_take, Nat.min_eq_left (Nat.mod_le _ _)]
    · simp only [List.length_take, Nat.min_eq_left (Nat.mod_le _ _)]; exact hsz
    · simp [NewEntryWithData, DeleteFlag]
  · right
    rw [Encode_tombstone] at hb
    injection hb with hb
    exact hb.symm

theorem frame_put_length (m : Meta) (k v : List Byte) :
    (frame (metaTail m ++ k ++ v)).length = 29 + k.length + v.length := by
  simp only [frame_length, List.length_append, metaTail_length]; omega

/-! ## Lemmas: recovery of a well-formed log -/

theorem slice_some_eq {b x : List Byte} {lo hi : Nat} (h : slice b lo hi = some x) :
    (b.drop lo).take (hi - lo) = x := by
  unfold slice at h
  split at h
  · injection h
  · cases h

theorem drop_take_one {b : List Byte} {n : Nat} {x : Byte} (h : b.get? n = some x) :
    (b.drop n).take 1 = [x] := by
  induction b generalizing n with
  | nil => simp at h
  | cons y ys ih =>
    cases n with
    | zero =>
      simp only [List.get?_cons_zero, Option.some.injEq] at h
      subst h
      simp
    | succ n =>
      simp only [List.get?_cons_succ] at h
      simpa using ih h

/-- The fields that the layout of the spec reads from the record written for `m`, `k`, `v`. -/
theorem frame_fields_spec (m : Meta) (k v : List Byte) (hk : m.keySize = k.length)
    (hsz : k.length + v.length + 29 < 2 ^ 32) :
    recordTimestampSpec (frame (metaTail m ++ k ++ v)) = m.timestamp % 2 ^ 64 ∧
    recordFlagSpec (frame (metaTail m ++ k ++ v)) = m.flag % 256 ∧
    recordKeySpec (frame (metaTail m ++ k ++ v)) = k := by
  obtain ⟨_, _, _, h4, h5, _, h7, h8, _, _⟩ :=
    record_slices (ChecksumIEEE (metaTail m ++ k ++ v)) m k v
  have e4 := slice_some_eq h4
  have e5 := slice_some_eq h5
  have e7 := drop_take_one h7
  have e8 := slice_some_eq h8
  have hks : recordKeySizeSpec (frame (metaTail m ++ k ++ v)) = k.length := by
    simp only [recordKeySizeSpec, frame]
    rw [show (4 : Nat) = 24 - 20 from rfl, e5, leNat_leBytes, hk]
    exact Nat.mod_eq_of_lt (by norm_num; omega)
  refine ⟨?_, ?_, ?_⟩
  · simp only [recordTimestampSpec, frame]
    rw [show (8 : Nat) = 20 - 12 from rfl, e4, leNat_leBytes]
    norm_num
  · simp only [recordFlagSpec, frame]
    rw [e7]
    simp [leNat]
  · simp only [recordKeySpec, hks]
    simp only [frame]
    rw [show k.length = 29 + k.length - 29 by omega]
    rw [e8]

theorem applyPuts_append (a b : List Put) (idx : List Byte → Option Index) :
    applyPuts (a ++ b) idx = applyPuts b (applyPuts a idx) := by
  simp [applyPuts, List.foldl_append]

theorem applyPuts_cons (p : Put) (b : List Put) (idx : List Byte → Option Index) :
    applyPuts (p :: b) idx = applyPuts b (fun k =>
      if k = p.key then
        some { fid := p.fid, off := p.off, timestamp := p.timestamp, keySize := 0, valueSize := 0 }
      else idx k) := rfl

theorem applyPuts_other (key : List Byte) :
    ∀ (puts : List Put) (idx : List Byte → Option Index),
      (∀ p ∈ puts, p.key ≠ key) → applyPuts puts idx key = idx key := by
  intro puts
  induction puts with
  | nil => intro idx _; rfl
  | cons p rest ih =>
    intro idx h
    rw [applyPuts_cons, ih _ (fun q hq => h q (List.mem_cons_of_mem _ hq))]
    have := h p (List.mem_cons_self _ _)
    simp only [if_neg (Ne.symm this)]

/-- The recovery scan of a segment that is a concatenation of records reaches the end of the
file and enters the put records of the segment in order, given one unit of fuel per record and
one more; with less fuel it does not return. -/
theorem recoveryScan_records (fid : Int) (fs : FS) :
    ∀ (recs : List (List Byte)) (pre : List Byte) (fuel : Nat) (db : DB),
      (∀ b ∈ recs, IsRecord b) → fs.data fid = pre ++ recs.flatten → fid ∈ db.s.fds →
      (recs.length < fuel →
        DB.recoveryScan fid fs fuel pre.length db = some (.ok (fs.data fid).length,
          ⟨⟨applyPuts (segmentPutsSpec fid pre.length recs) db.kd.index⟩, db.s⟩)) ∧
      (∀ x, DB.recoveryScan fid fs fuel pre.length db = some x → recs.length < fuel) := by
  intro recs
  induction recs with
  | nil =>
    intro pre fuel db _ hdata hfd
    have hlen : pre.length = (fs.data fid).length := by rw [hdata]; simp
    constructor
    · intro hfuel
      cases fuel with
      | zero => simp at hfuel
      | succ fuel =>
        unfold DB.recoveryScan
        rw [hlen, readEntry_eof db.s fs fid hfd]
        rfl
    · intro x h
      cases fuel with
      | zero => simp [DB.recoveryScan] at h
      | succ fuel => simp
  | cons b recs ih =>
    intro pre fuel db hrec hdata hfd
    have hdata' : fs.data fid = pre ++ (b ++ recs.flatten) := by rw [hdata]; simp
    have hdata2 : fs.data fid = (pre ++ b) ++ recs.flatten := by rw [hdata]; simp
    have hrec' : ∀ b' ∈ recs, IsRecord b' := fun b' hb' => hrec b' (List.mem_cons_of_mem _ hb')
    rcases IsRecord_cases (hrec b (List.mem_cons_self _ _)) with
      ⟨m, k, v, rfl, hk, hv, hsz, hf, hf0⟩ | rfl
    · have hre := readEntry_put db.s fs fid pre recs.flatten k v m hfd hdata' hk hv hsz hf
      have hsize : (Entry.mk k v (Meta.stored (ChecksumIEEE (metaTail m ++ k ++ v)) m)).Size
          = (frame (metaTail m ++ k ++ v)).length := by
        have hkm : m.keySize % 2 ^ 32 = k.length := by
          rw [hk]; exact Nat.mod_eq_of_lt (by omega)
        have hvm : m.valueSize % 2 ^ 32 = v.length := by
          rw [hv]; exact Nat.mod_eq_of_lt (by omega)
        rw [frame_put_length]
        simp only [Entry.Size, Meta.stored, hkm, hvm, MetaSize]
        omega
      obtain ⟨hts, hfl, hkey⟩ := frame_fields_spec m k v hk hsz
      have hfl0 : recordFlagSpec (frame (metaTail m ++ k ++ v)) = 0 := by rw [hfl, hf0]
      have hseg : segmentPutsSpec fid pre.length (frame (metaTail m ++ k ++ v) :: recs)
          = ⟨fid, pre.length, k, m.timestamp % 2 ^ 64⟩ ::
              segmentPutsSpec fid (pre ++ frame (metaTail m ++ k ++ v)).length recs := by
        simp only [segmentPutsSpec, hfl0, if_true, hkey, hts, List.length_append]
      obtain ⟨ih1, ih2⟩ := (fun hfd' => ih (pre ++ frame (metaTail m ++ k ++ v)) (fuel - 1)
        (DB.mk ⟨fun k' => if k' = k then
            some ⟨fid, pre.length, m.timestamp % 2 ^ 64, 0, 0⟩ else db.kd.index k'⟩ db.s)
        hrec' hdata2 hfd') hfd
      constructor
      · intro hfuel
        cases fuel with
        | zero => simp at hfuel
        | succ fuel =>
          have hfuel' : recs.length < fuel := by simp at hfuel; omega
          unfold DB.recoveryScan
          rw [hre]
          simp only [hsize]
          rw [← List.length_append, hseg, applyPuts_cons]
          exact ih1 hfuel'
      · intro x h
        cases fuel with
        | zero => simp [DB.recoveryScan] at h
        | succ fuel =>
          unfold DB.recoveryScan at h
          rw [hre] at h
          simp only [hsize] at h
          rw [← List.length_append] at h
          have := ih2 x h
          simp only [List.length_cons]
          omega
    · obtain ⟨e, hre, hsize⟩ := readEntry_tombstone db.s fs fid pre recs.flatten hfd hdata'
      have hl : (frame (metaTail tombstone.meta)).length = 29 := by
        simp [frame_length, metaTail_length]
      obtain ⟨_, hfl, _⟩ := frame_fields_spec tombstone.meta [] [] rfl (by decide)
      simp only [List.append_nil] at hfl
      have hfl1 : recordFlagSpec (frame (metaTail tombstone.meta)) ≠ 0 := by
        rw [hfl]; decide
      have hseg : segmentPutsSpec fid pre.length (frame (metaTail tombstone.meta) :: recs)
          = segmentPutsSpec fid (pre ++ frame (metaTail tombstone.meta)).length recs := by
        simp only [segmentPutsSpec, hfl1, if_false, List.length_append]
      obtain ⟨ih1, ih2⟩ := (fun hfd' => ih (pre ++ frame (metaTail tombstone.meta)) (fuel - 1)
        (DB.mk db.kd db.s) hrec' hdata2 hfd') hfd
      constructor
      · intro hfuel
        cases fuel with
        | zero => simp at hfuel
        | succ fuel =>
          have hfuel' : recs.length < fuel := by simp at hfuel; omega
          unfold DB.recoveryScan
          rw [hre]
          simp only [hsize]
          rw [← hl, ← List.length_append, hseg]
          exact ih1 hfuel'
      · intro x h
        cases fuel with
        | zero => simp [DB.recoveryScan] at h
        | succ fuel =>
          unfold DB.recoveryScan at h
          rw [hre] at h
          simp only [hsize] at h
          rw [← hl, ← List.length_append] at h
          have := ih2 x h
          simp only [List.length_cons]
          omega

/-- `os.OpenFile` with `O_CREATE` on a `Dir` that exists: the file is listed afterwards, the
files that were there keep their content, and a file that was not there is empty. -/
theorem openCreate_cases {fs : FS} {ids : List Int} (hd : fs.dir = some ids) (fid : Int) :
    ∃ fs1 ids1, fs.openCreate fid = some fs1 ∧ fs1.dir = some ids1 ∧
      (∀ i, i ∈ ids1 ↔ (i ∈ ids ∨ i = fid)) ∧ (∀ g ∈ ids, fs1.data g = fs.data g) ∧
      (fid ∉ ids → fs1.data fid = []) ∧ fs1.others = fs.others ∧ (fid ∈ ids → fs1 = fs) := by
  by_cases hm : fid ∈ ids
  · refine ⟨fs, ids, by simp [FS.openCreate, hd, hm], hd, fun i => ?_, fun g _ => rfl,
      fun hc => absurd hm hc, rfl, fun _ => rfl⟩
    constructor
    · exact Or.inl
    · rintro (h | rfl)
      · exact h
      · exact hm
  · refine ⟨{ fs with dir := some (ids ++ [fid]), data := Function.update fs.data fid [] },
      ids ++ [fid], by simp [FS.openCreate, hd, hm], rfl, fun i => by simp, fun g hg => ?_,
      fun _ => by simp, rfl, fun hc => absurd hc hm⟩
    have hne : g ≠ fid := fun hc => hm (hc ▸ hg)
    simp [Function.update, hne]

/-- The loop of `recovery` over segments that are concatenations of records: with one unit of
fuel per record of each segment and one more, every segment is scanned to its end, the put
records are entered in order, and the segment `last` becomes the active file with its offset at
the length of the file; with less fuel the loop does not return. -/
theorem recoverySegments_records (fuel : Nat) (last : Int) (recs : Int → List (List Byte))
    (hrecs : ∀ fid, ∀ b ∈ recs fid, IsRecord b) :
    ∀ (l : List Int) (db : DB) (fs : FS) (ids : List Int), fs.dir = some ids →
      (∀ fid ∈ ids, fs.data fid = (recs fid).flatten) → (∀ fid, fid ∉ ids → recs fid = []) →
      ((∀ fid ∈ l, (recs fid).length < fuel) →
        ∃ db' fs' ids', DB.recoverySegments fuel last l db fs = some (.ok (), db', fs') ∧
          fs'.dir = some ids' ∧ (∀ i, i ∈ ids' ↔ (i ∈ ids ∨ i ∈ l)) ∧
          (∀ fid ∈ ids', fs'.data fid = (recs fid).flatten) ∧
          fs'.others = fs.others ∧
          ((∀ f ∈ l, f ∈ ids) → fs' = fs) ∧
          (last ∈ l → db'.s.af = some ⟨last, (fs'.data last).length⟩) ∧
          (last ∉ l → db'.s.af = db.s.af) ∧
          db'.kd.index
            = applyPuts (l.flatMap (fun fid => segmentPutsSpec fid 0 (recs fid))) db.kd.index) ∧
      (∀ x, DB.recoverySegments fuel last l db fs = some x →
        ∀ fid ∈ l, (recs fid).length < fuel) := by
  intro l
  induction l with
  | nil =>
    intro db fs ids hd hdata hnew
    refine ⟨fun _ => ⟨db, fs, ids, rfl, hd, fun i => by simp, hdata, rfl, fun _ => rfl,
      fun hc => absurd hc (List.not_mem_nil _), fun _ => rfl, rfl⟩, fun x _ fid hfid => ?_⟩
    exact absurd hfid (List.not_mem_nil _)
  | cons fid rest ih =>
    intro db fs ids hd hdata hnew
    obtain ⟨fs1, ids1, ho, hd1, hm1, hdat1, hemp1, hoth1, hsame1⟩ := openCreate_cases hd fid
    have hfid1 : fid ∈ ids1 := (hm1 fid).2 (Or.inr rfl)
    have hdata1 : ∀ g ∈ ids1, fs1.data g = (recs g).flatten := by
      intro g hg
      by_cases hgi : g ∈ ids
      · rw [hdat1 g hgi]; exact hdata g hgi
      · rcases (hm1 g).1 hg with h | rfl
        · exact absurd h hgi
        · rw [hemp1 hgi, hnew g hgi]; rfl
    have hnew1 : ∀ g, g ∉ ids1 → recs g = [] :=
      fun g hg => hnew g (fun hc => hg ((hm1 g).2 (Or.inl hc)))
    obtain ⟨sc1, sc2⟩ := recoveryScan_records fid fs1 (recs fid) [] fuel
      { kd := db.kd, s := { fileSize := db.s.fileSize, fds := fid :: db.s.fds, af := db.s.af } }
      (hrecs fid) (by simpa using hdata1 fid hfid1) (List.mem_cons_self _ _)
    simp only [List.length_nil] at sc1 sc2
    obtain ⟨ih1, ih2⟩ := ih
      (if fid = last then
        DB.mk ⟨applyPuts (segmentPutsSpec fid 0 (recs fid)) db.kd.index⟩
          (Storage.mk db.s.fileSize (fid :: db.s.fds) (some ⟨fid, (fs1.data fid).length⟩))
       else DB.mk ⟨applyPuts (segmentPutsSpec fid 0 (recs fid)) db.kd.index⟩
          (Storage.mk db.s.fileSize (fid :: db.s.fds) db.s.af))
      fs1 ids1 hd1 hdata1 hnew1
    constructor
    · intro hfuel
      have hs := sc1 (hfuel fid (List.mem_cons_self _ _))
      obtain ⟨db', fs', ids', h1, h2, h3, h4, h5, h6, h7, h8, h9⟩ :=
        ih1 (fun g hg => hfuel g (List.mem_cons_of_mem _ hg))
      refine ⟨db', fs', ids', ?_, h2, fun i => ?_, h4, h5.trans hoth1, fun hall => ?_,
        fun hmem => ?_, fun hnm => ?_, ?_⟩
      · unfold DB.recoverySegments
        rw [ho]
        simp only
        rw [hs]
        exact h1
      · rw [h3 i, hm1 i, List.mem_cons]
        constructor
        · rintro ((h | h) | h)
          · exact Or.inl h
          · exact Or.inr (Or.inl h)
          · exact Or.inr (Or.inr h)
        · rintro (h | h | h)
          · exact Or.inl (Or.inl h)
          · exact Or.inl (Or.inr h)
          · exact Or.inr h
      · have e1 := hsame1 (hall fid (List.mem_cons_self _ _))
        have e2 := h6 (fun f hf => (hm1 f).2 (Or.inl (hall f (List.mem_cons_of_mem _ hf))))
        rw [e2, e1]
      · by_cases hr : last ∈ rest
        · exact h7 hr
        · have hfl : fid = last := by
            rcases List.mem_cons.mp hmem with h | h
            · exact h.symm
            · exact absurd h hr
          have hdl : fs'.data fid = fs1.data fid := by
            rw [h4 fid ((h3 fid).2 (Or.inl hfid1)), hdata1 fid hfid1]
          rw [h8 hr, if_pos hfl, ← hfl, hdl]
      · have hne : fid ≠ last := fun hc => hnm (by rw [hc]; exact List.mem_cons_self _ _)
        have hr : last ∉ rest := fun hc => hnm (List.mem_cons_of_mem _ hc)
        rw [h8 hr, if_neg hne]
      · rw [h9, List.flatMap_cons, applyPuts_append]
        split <;> rfl
    · intro x h g hg
      unfold DB.recoverySegments at h
      rw [ho] at h
      simp only at h
      have hf : (recs fid).length < fuel := by
        cases hs : DB.recoveryScan fid fs1 fuel 0
            { kd := db.kd,
              s := { fileSize := db.s.fileSize, fds := fid :: db.s.fds, af := db.s.af } } with
        | none => rw [hs] at h; simp at h
        | some y => exact sc2 y hs
      rcases List.mem_cons.mp hg with rfl | hg'
      · exact hf
      · rw [sc1 hf] at h
        exact ih2 x h g hg'

theorem applyPuts_mem (key : List Byte) :
    ∀ (puts : List Put) (idx : List Byte → Option Index), (∃ p ∈ puts, p.key = key) →
      ∃ i, applyPuts puts idx key = some i := by
  intro puts
  induction puts with
  | nil => intro idx hp; obtain ⟨p, hp, _⟩ := hp; exact absurd hp (List.not_mem_nil _)
  | cons q rest ih =>
    intro idx hp
    rw [applyPuts_cons]
    by_cases hex : ∃ r ∈ rest, r.key = key
    · exact ih _ hex
    · have hnone : ∀ r ∈ rest, r.key ≠ key := fun r hr1 hc => hex ⟨r, hr1, hc⟩
      obtain ⟨p, hp1, hp2⟩ := hp
      have hq : q.key = key := by
        rcases List.mem_cons.mp hp1 with rfl | h
        · exact hp2
        · exact absurd hp2 (hnone p h)
      rw [applyPuts_other key rest _ hnone]
      simp [hq]

/-- What `recovery` does on a `Dir` whose segment files are concatenations of records and whose
listing `getFids` accepts: the segments are scanned in ascending order of the listed ids. -/
theorem recovery_records (d fuel : Nat) (opt : Options) (db0 : DB) (fs : FS)
    (ids fids : List Int) (recs : Int → List (List Byte))
    (hd : fs.dir = some ids)
    (hrec : ∀ fid ∈ ids, (∀ b ∈ recs fid, IsRecord b) ∧ fs.data fid = (recs fid).flatten)
    (hg : getFids fs = .ok fids) :
    (∀ i ∈ ids, i ∈ fids) ∧
    ((0 < fuel ∧ ∀ fid ∈ ids, (recs fid).length < fuel) →
      ∃ db fs', DB.recovery d fuel db0 opt fs = some (.ok (), db, fs') ∧
        (∀ fid ∈ ids, fs'.data fid = fs.data fid) ∧ (NoForeignDat fs → fs' = fs) ∧
        (fids ≠ [] → ∃ m ∈ fids, (∀ i ∈ fids, i ≤ m) ∧
          db.s.af = some ⟨m, (fs'.data m).length⟩) ∧
        db.kd.index = applyPuts ((fids.insertionSort (fun a b => a ≤ b)).flatMap
          (fun fid => segmentPutsSpec fid 0 (if fid ∈ ids then recs fid else []))) db0.kd.index) ∧
    (∀ x, DB.recovery d fuel db0 opt fs = some x →
      0 < fuel ∨ fids = []) ∧
    (∀ x, DB.recovery d fuel db0 opt fs = some x → ∀ fid ∈ ids, (recs fid).length < fuel) := by
  have hperm := List.perm_insertionSort (fun a b : Int => a ≤ b) fids
  have hfids : fids.Perm (ids ++ fs.others.filterMap nameFid) := by
    rcases getFids_cases hd with ⟨h, _⟩ | ⟨fids', h, hp, _⟩
    · rw [h] at hg; cases hg
    · rw [h] at hg; injection hg with hg; subst hg; exact hp
  have hsub : ∀ i ∈ ids, i ∈ fids :=
    fun i hi => hfids.mem_iff.mpr (List.mem_append_left _ hi)
  have hrecs : ∀ fid, ∀ b ∈ (if fid ∈ ids then recs fid else []), IsRecord b := by
    intro fid b hb
    by_cases hf : fid ∈ ids
    · rw [if_pos hf] at hb; exact (hrec fid hf).1 b hb
    · rw [if_neg hf] at hb; exact absurd hb (List.not_mem_nil _)
  have hdata : ∀ fid ∈ ids, fs.data fid = (if fid ∈ ids then recs fid else []).flatten := by
    intro fid hf
    rw [if_pos hf]; exact (hrec fid hf).2
  have hnew : ∀ fid, fid ∉ ids → (if fid ∈ ids then recs fid else []) = [] :=
    fun fid hf => if_neg hf
  obtain ⟨p1, p2⟩ := recoverySegments_records fuel
    ((fids.insertionSort (fun a b => a ≤ b)).getLastD 0)
    (fun fid => if fid ∈ ids then recs fid else []) hrecs
    (fids.insertionSort (fun a b => a ≤ b))
    { kd := db0.kd, s := { fileSize := getSegmentSize d opt.SegmentSize, fds := [], af := none } }
    fs ids hd hdata hnew
  have hrecovery : DB.recovery d fuel db0 opt fs = DB.recoverySegments fuel
      ((fids.insertionSort (fun a b => a ≤ b)).getLastD 0)
      (fids.insertionSort (fun a b => a ≤ b))
      { kd := db0.kd, s := { fileSize := getSegmentSize d opt.SegmentSize, fds := [],
                             af := none } } fs := by
    simp only [DB.recovery, hg]
  refine ⟨hsub, ?_, ?_, ?_⟩
  · rintro ⟨hfuel0, hfuel⟩
    have hf : ∀ fid ∈ fids.insertionSort (fun a b => a ≤ b),
        (if fid ∈ ids then recs fid else []).length < fuel := by
      intro fid _
      by_cases hfi : fid ∈ ids
      · rw [if_pos hfi]; exact hfuel fid hfi
      · rw [if_neg hfi]; exact hfuel0
    obtain ⟨db, fs', ids', h1, h2, h3, h4, h5, h6, h7, h8, h9⟩ := p1 hf
    refine ⟨db, fs', hrecovery.trans h1, fun fid hfid => ?_, fun hI => ?_, fun hne => ?_, h9⟩
    · rw [h4 fid ((h3 fid).2 (Or.inl hfid)), hdata fid hfid]
    · apply h6
      intro f hf'
      have := hfids.mem_iff.mp (hperm.mem_iff.mp hf')
      rw [filterMap_nameFid_others hI, List.append_nil] at this
      exact this
    · obtain ⟨g1, g2⟩ := sorted_getLastD hne
      exact ⟨_, hperm.mem_iff.mp g1, g2, h7 g1⟩
  · intro x hx
    rw [hrecovery] at hx
    by_cases hne : fids = []
    · exact Or.inr hne
    · left
      obtain ⟨g1, _⟩ := sorted_getLastD hne
      have := p2 x hx _ g1
      omega
  · intro x hx fid hfid
    rw [hrecovery] at hx
    have := p2 x hx fid (hperm.mem_iff.mpr (hsub fid hfid))
    rw [if_pos hfid] at this
    exact this

theorem mem_putRecordsSpec_iff (ids l : List Int) (recs : Int → List (List Byte))
    (hl : ∀ i, i ∈ ids → i ∈ l) (p : Put) :
    p ∈ l.flatMap (fun fid => segmentPutsSpec fid 0 (if fid ∈ ids then recs fid else []))
      ↔ p ∈ putRecordsSpec ids recs := by
  simp only [putRecordsSpec, List.mem_flatMap]
  constructor
  · rintro ⟨fid, _, hp⟩
    by_cases hf : fid ∈ ids
    · rw [if_pos hf] at hp; exact ⟨fid, hf, hp⟩
    · rw [if_neg hf] at hp; simp [segmentPutsSpec] at hp
  · rintro ⟨fid, hf, hp⟩
    exact ⟨fid, hl fid hf, by rw [if_pos hf]; exact hp⟩

theorem length_filterMap_nameFid (files : List String)
    (h : ∀ f ∈ files, pathExt (pathBase f.data) = fileSuffix →
      Atoi (trimSuffix (pathBase f.data) fileSuffix) ≠ none) :
    (files.filterMap nameFid).length
      = (files.filter (fun f => decide (pathExt (pathBase f.data) = fileSuffix))).length := by
  induction files with
  | nil => rfl
  | cons f rest ih =>
    have ih' := ih (fun g hg => h g (List.mem_cons_of_mem _ hg))
    by_cases hext : pathExt (pathBase f.data) = fileSuffix
    · have ha := h f (List.mem_cons_self _ _) hext
      cases hat : Atoi (trimSuffix (pathBase f.data) fileSuffix) with
      | none => exact absurd hat ha
      | some fid =>
        have hn : nameFid f = some fid := by simp only [nameFid, if_pos hext, hat]
        simp only [List.filterMap_cons, hn, List.filter_cons, hext, decide_True, if_true,
          List.length_cons, ih']
    · have hn : nameFid f = none := by simp only [nameFid, if_neg hext]
      simp only [List.filterMap_cons, hn, List.filter_cons, hext, decide_False,
        Bool.false_eq_true, if_false, ih']

/-! ## Claims -/

set_option maxRecDepth 100000

/-- C1, failing input. On a fresh store `Set("ab", "c")` succeeds and the `Get("ab")` that
follows panics: `readFullEntry` reslices the 32-byte buffer up to `29 + keySize + keySize = 33`. -/
theorem get_after_set_key_longer_than_value :
    Option.map Prod.fst
      (runStore 0 0 ⟨64⟩ FS.absent [.set 7 [97, 98] [99], .get [97, 98]])
      = some [.done, .panic] := by
  decide!

/-- C2, failing input. Scenario 1 of the spec, then a reopen: `Get("b")` panics instead of
returning `"2"`, because the index that `recovery` builds has `keySize = valueSize = 0`. -/
theorem get_after_reopen_panics :
    Option.map Prod.fst
      (runStore 0 0 ⟨1024⟩ FS.absent
        [.set 1 [97] [49], .set 2 [98] [50], .get [97], .delete [97], .get [97], .get [98],
          .reopen 0 10 ⟨1024⟩, .get [98]])
      = some [.done, .done, .value [49], .done, .error .ErrKeyNotFound, .value [50],
          .done, .panic] := by
  decide!

/-- C3, failing input. `Set("a","1"); Set("b","2"); Delete("a")`, then a reopen: the directory
has an entry for `"a"` again (the tombstone carries no key and `recovery` skips it), and
`Get("a")` does not return `ErrKeyNotFound`. -/
theorem deleted_key_back_after_reopen :
    Option.map (fun r => (r.1, r.2.1.kd.index [97]))
      (runStore 0 0 ⟨1024⟩ FS.absent
        [.set 1 [97] [49], .set 2 [98] [50], .delete [97], .get [97],
          .reopen 0 10 ⟨1024⟩, .get [97]])
      = some ([.done, .done, .done, .error .ErrKeyNotFound, .done, .panic],
          some ⟨0, 0, 1, 0, 0⟩) := by
  decide!

/-- C4. Within one engine instance, after a successful `Delete(k)` every `Get(k)` returns
`ErrKeyNotFound`: immediately, and after any further sequence of `Get`, `Delete`, `Merge`
and `Set` calls none of which is a `Set` of `k`. -/
theorem delete_then_not_found (db db1 db2 : DB) (fs fs1 fs2 : FS) (k : List Byte)
    (ops : List Op) (os : List Outcome)
    (hdel : db.Delete fs k = (.ok (), db1, fs1))
    (hops : ∀ op ∈ ops, op.avoids k = true)
    (hrun : DB.run db1 fs1 ops = some (os, db2, fs2)) :
    db2.Get fs2 k = (.error .ErrKeyNotFound, db2) :=
  Get_absent db2 fs2 k
    (run_absent k ops hops db1 fs1 os db2 fs2 hrun (Delete_ok_absent db fs k db1 fs1 hdel))

/-- C4, witness: key `a` is deleted, then `Get("a")`, `Set("b","2")`, `Merge`, `Delete("b")`
run, and `Get("a")` still returns `ErrKeyNotFound`. -/
theorem delete_then_not_found_witness :
    ∃ db2 fs2,
      (DB.mk ⟨fun k => if k = [97] then some ⟨0, 0, 0, 1, 1⟩ else none⟩
        ⟨1024, [0], some ⟨0, 0⟩⟩).Delete ⟨some [0], fun _ => [], []⟩ [97]
        = (.ok (), db2, fs2) ∧
      ∃ os db3 fs3, DB.run db2 fs2 [.get [97], .set 5 [98] [50], .merge 3, .delete [98]]
        = some (os, db3, fs3) ∧ db3.Get fs3 [97] = (.error .ErrKeyNotFound, db3) := by
  have h1 : ((DB.mk ⟨fun k => if k = [97] then some ⟨0, 0, 0, 1, 1⟩ else none⟩
      ⟨1024, [0], some ⟨0, 0⟩⟩).Delete ⟨some [0], fun _ => [], []⟩ [97]).1 = .ok () := by decide!
  have hdel := triple_eta _ _ h1
  refine ⟨_, _, hdel, ?_⟩
  have hsome : (DB.run ((DB.mk ⟨fun k => if k = [97] then some ⟨0, 0, 0, 1, 1⟩ else none⟩
      ⟨1024, [0], some ⟨0, 0⟩⟩).Delete ⟨some [0], fun _ => [], []⟩ [97]).2.1
      ((DB.mk ⟨fun k => if k = [97] then some ⟨0, 0, 0, 1, 1⟩ else none⟩
      ⟨1024, [0], some ⟨0, 0⟩⟩).Delete ⟨some [0], fun _ => [], []⟩ [97]).2.2
      [.get [97], .set 5 [98] [50], .merge 3, .delete [98]]).isSome = true := by decide!
  obtain ⟨r, hr⟩ := Option.isSome_iff_exists.mp hsome
  obtain ⟨os, db3, fs3⟩ := r
  exact ⟨os, db3, fs3, hr,
    delete_then_not_found _ _ db3 _ _ fs3 [97] _ os hdel (by decide) hr⟩

/-- C5, failing input. With segment size 64, `Set("k","v1"); Set("k","v2")` fills segment 0 and
rotates; `Get("k")` returns `"v2"`; `Merge` returns no error; the next `Get("k")` panics:
`Merge` has re-appended the superseded record `"v1"` and repointed the directory to it. -/
theorem merge_loses_value :
    Option.map (fun r => (r.1, r.2.1.kd.index [107], r.2.2.data 1))
      (runStore 0 0 ⟨64⟩ FS.absent
        [.set 1 [107] [118, 49], .set 2 [107] [118, 50], .get [107], .merge 10, .get [107]])
      = some ([.done, .done, .value [118, 50], .done, .panic],
          some ⟨1, 0, 0, 0, 0⟩,
          [54, 253, 174, 80, 0, 0, 0, 0, 0, 0, 0, 0, 1, 0, 0, 0, 0, 0, 0, 0, 1, 0, 0, 0, 2, 0, 0,
            0, 0, 107, 118, 49]) := by
  decide!

/-- C7, failing input. After `Set("k","v")`, flipping bit 1 of byte 20 of the record (the low
byte of `keySize`, 1 becomes 3) makes `Get("k")` panic instead of returning the crc error. -/
theorem get_after_size_bit_flip_panics :
    Option.bind (runStore 0 0 ⟨1024⟩ FS.absent [.set 1 [107] [118]])
      (fun r => Option.map Prod.fst (DB.run r.2.1 (r.2.2.flip 0 20 1) [.get [107]]))
      = some [.panic] := by
  decide!

/-- C8. Codec round trip: when `Encode` returns `b` for the put entry built by
`NewEntryWithData`, or for a tombstone entry (flag `DeleteFlag`, both sizes zero, as built by
`Delete`), then `DecodeMeta` on `b[0:29]`, `DecodePayload` on `b[29:]` and `Encode` on the
decoded entry succeed and give exactly `b` again. -/
theorem codec_round_trip (e : Entry) (b : List Byte)
    (he : (∃ now key value, e = NewEntryWithData now key value) ∨
      (e.meta.flag = DeleteFlag ∧ e.meta.keySize = 0 ∧ e.meta.valueSize = 0))
    (hb : e.Encode = .ok b) :
    ∃ meta e1 e2,
      slice b 0 MetaSize = some meta ∧
      NewEntry.DecodeMeta meta = .ok e1 ∧
      e1.DecodePayload (b.drop MetaSize) = .ok e2 ∧
      e2.Encode = .ok b := by
  rcases he with ⟨now, key, value, rfl⟩ | ⟨hf, hk, hv⟩
  · obtain ⟨body, hbody⟩ := Encode_ok_body hb
    have hsz := encodeBody_some_bounds _ body (by simp [NewEntryWithData, DeleteFlag])
      (Nat.mod_lt _ (by decide)) (Nat.mod_lt _ (by decide)) hbody
    simp only [NewEntryWithData] at hsz
    rw [Encode_NewEntryWithData now key value hsz] at hb
    injection hb with hb
    subst hb
    exact roundtrip_frame_put _ _ _
      (by simp [NewEntryWithData, List.length_take, Nat.min_eq_left (Nat.mod_le _ _)])
      (by simp [NewEntryWithData, List.length_take, Nat.min_eq_left (Nat.mod_le _ _)])
      (by simp only [List.length_take, Nat.min_eq_left (Nat.mod_le _ _)]; exact hsz)
      (by simp [NewEntryWithData, DeleteFlag])
  · have h := encodeBody_tombstone e hf (by rw [hk, hv]; decide)
    rw [hk, hv] at h
    have h2 := Encode_of_body e _ h
    simp only [Nat.add_zero, List.replicate_zero, List.append_nil] at h2
    rw [h2] at hb
    injection hb with hb
    subst hb
    exact roundtrip_frame_tombstone e.meta hk hv hf

/-- C8, witness: the put record of key `k`, value `v` and the tombstone of `Delete`. -/
theorem codec_round_trip_witness :
    (NewEntryWithData 7 [107] [118]).Encode = .ok [233, 107, 210, 8, 0, 0, 0, 0, 0, 0, 0, 0, 7,
      0, 0, 0, 0, 0, 0, 0, 1, 0, 0, 0, 1, 0, 0, 0, 0, 107, 118] ∧
    (∃ meta e1 e2,
      slice [233, 107, 210, 8, 0, 0, 0, 0, 0, 0, 0, 0, 7, 0, 0, 0, 0, 0, 0, 0, 1, 0, 0, 0,
          1, 0, 0, 0, 0, 107, 118] 0 MetaSize = some meta ∧
      NewEntry.DecodeMeta meta = .ok e1 ∧
      e1.DecodePayload (List.drop MetaSize [233, 107, 210, 8, 0, 0, 0, 0, 0, 0, 0, 0, 7, 0, 0,
          0, 0, 0, 0, 0, 1, 0, 0, 0, 1, 0, 0, 0, 0, 107, 118]) = .ok e2 ∧
      e2.Encode = .ok [233, 107, 210, 8, 0, 0, 0, 0, 0, 0, 0, 0, 7, 0, 0, 0, 0, 0, 0, 0, 1, 0,
          0, 0, 1, 0, 0, 0, 0, 107, 118]) :=
  ⟨by decide!, codec_round_trip (NewEntryWithData 7 [107] [118]) _
    (Or.inl ⟨7, [107], [118], rfl⟩) (by decide!)⟩

/-- C9. On-disk record layout: with `29 + len(key) + len(value) < 2^32`, `Encode` of the put entry
returns `29 + len(key) + len(value)` bytes: position (zero) in bytes 4..11, the timestamp in
bytes 12..19, `len(key)` in bytes 20..23, `len(value)` in bytes 24..27, all little-endian, flag
byte 0, then key and value, and in bytes 0..3 the CRC-32 of bytes 4..end.  The tombstone that
`Delete` writes at the cursor of the active file is 29 bytes with sizes 0 and flag 1. -/
theorem record_layout (now : Nat) (key value : List Byte)
    (h : 29 + key.length + value.length < 2 ^ 32) :
    (∃ b, (NewEntryWithData now key value).Encode = .ok b ∧
      b.length = 29 + key.length + value.length ∧
      slice b 4 12 = some (leBytes 8 0) ∧
      slice b 12 20 = some (leBytes 8 now) ∧
      slice b 20 24 = some (leBytes 4 key.length) ∧
      slice b 24 28 = some (leBytes 4 value.length) ∧
      b.get? 28 = some 0 ∧
      slice b 29 (29 + key.length) = some key ∧
      slice b (29 + key.length) (29 + key.length + value.length) = some value ∧
      slice b 0 4 = some (leBytes 4 (ChecksumIEEE (b.drop 4)))) ∧
    (∃ t, tombstone.Encode = .ok t ∧
      t.length = 29 ∧
      slice t 20 24 = some (leBytes 4 0) ∧
      slice t 24 28 = some (leBytes 4 0) ∧
      t.get? 28 = some 1 ∧
      slice t 0 4 = some (leBytes 4 (ChecksumIEEE (t.drop 4))) ∧
      ∀ (db : DB) (fs : FS) (k : List Byte) (i : Index) (a : ActiveFile),
        db.kd.find k = some i → db.s.af = some a →
        (db.Delete fs k).2.2.data a.fid = fileWriteAt (fs.data a.fid) a.off t) := by
  have hk : key.length % 2 ^ 32 = key.length := Nat.mod_eq_of_lt (by omega)
  have hv : value.length % 2 ^ 32 = value.length := Nat.mod_eq_of_lt (by omega)
  constructor
  · have he := Encode_NewEntryWithData now key value (by rw [hk, hv]; omega)
    rw [hk, hv, List.take_length, List.take_length] at he
    simp only [frame] at he
    obtain ⟨h1, h2, h3, h4, h5, h6, h7, h8, h9, h10⟩ :=
      record_slices (ChecksumIEEE (metaTail (NewEntryWithData now key value).meta ++ key ++ value))
        (NewEntryWithData now key value).meta key value
    refine ⟨_, he, h1, h3, ?_, ?_, ?_, ?_, h8, h9, ?_⟩
    · rw [h4]; exact congrArg some (leBytes_mod 8 now)
    · rw [h5]; simp only [NewEntryWithData, hk]
    · rw [h6]; simp only [NewEntryWithData, hv]
    · rw [h7]; rfl
    · show slice (leBytes 4 _ ++ _) 0 4 = _
      rw [h2]
      show _ = some (leBytes 4 (ChecksumIEEE (List.drop 4 (leBytes 4 _ ++ _))))
      rw [h10]
  · obtain ⟨h1, h2, h3, h4, h5, h6, h7, h8, h9, h10⟩ :=
      record_slices (ChecksumIEEE (metaTail tombstone.meta)) tombstone.meta [] []
    simp only [List.append_nil] at h1 h2 h3 h4 h5 h6 h7 h10
    have ht := Encode_tombstone
    simp only [frame] at ht
    refine ⟨_, ht, h1, h5, h6, ?_, ?_, ?_⟩
    · show (leBytes 4 _ ++ _).get? 28 = _
      rw [h7]; rfl
    · show slice (leBytes 4 _ ++ _) 0 4 = _
      rw [h2]
      show _ = some (leBytes 4 (ChecksumIEEE (List.drop 4 (leBytes 4 _ ++ _))))
      rw [h10]
    · intro db fs k i a hi ha
      have := Delete_data db fs k i a hi ha
      simp only [frame] at this
      exact this

/-- C9, witness: the record of key `k`, value `v` written at time 7 has 31 bytes. -/
theorem record_layout_witness :
    29 + ([107] : List Byte).length + ([118] : List Byte).length < 2 ^ 32 ∧
    ∃ b, (NewEntryWithData 7 [107] [118]).Encode = .ok b ∧ b.length = 31 ∧
      slice b 29 30 = some [107] ∧ slice b 30 31 = some [118] :=
  ⟨by decide,
    match (record_layout 7 [107] [118] (by decide)).1 with
    | ⟨b, h0, h1, _, _, _, _, _, h7, h8, _⟩ => ⟨b, h0, h1, h7, h8⟩⟩

/-- C10. Soft rotation threshold: a successful `Storage.writeAt(b)` on the active file
`(fid, off)` stores `b` contiguously in segment `fid` from offset `off` and returns the index
`(fid, off)`; afterwards the active file is `(fid, off + len b)` when that stays below the
segment size, and `(fid + 1, 0)` otherwise, where segment `fid + 1` exists and is empty
unless a file of that id was already present. -/
theorem writeAt_soft_rotation (s s' : Storage) (fs fs' : FS) (b : List Byte) (a : ActiveFile)
    (i : Index) (ha : s.af = some a) (hw : s.writeAt fs b = (.ok i, s', fs')) :
    i.fid = a.fid ∧ i.off = a.off ∧
    ((fs'.data a.fid).drop a.off).take b.length = b ∧
    s'.af = (if a.off + b.length < s.fileSize then some ⟨a.fid, a.off + b.length⟩
      else some ⟨a.fid + 1, 0⟩) ∧
    (s.fileSize ≤ a.off + b.length → fs'.hasFile (a.fid + 1) = true ∧
      (fs.hasFile (a.fid + 1) = false → fs'.data (a.fid + 1) = [])) := by
  have hd := writeAt_data s fs b a ha
  rw [hw] at hd
  simp only at hd
  rcases writeAt_cases s fs b a ha with ⟨hlt, h⟩ | ⟨_, _, h⟩ | ⟨hge, fs2, ho, h⟩
  · rw [hw] at h
    simp only [Prod.mk.injEq, Res.ok.injEq] at h
    obtain ⟨rfl, rfl, rfl⟩ := h
    refine ⟨rfl, rfl, ?_, by simp [hlt], fun hc => absurd hlt (by omega)⟩
    rw [hd]; exact fileWriteAt_read _ _ _
  · rw [hw] at h
    simp at h
  · rw [hw] at h
    simp only [Prod.mk.injEq, Res.ok.injEq] at h
    obtain ⟨rfl, rfl, rfl⟩ := h
    refine ⟨rfl, rfl, ?_, by simp [Nat.not_lt.mpr hge], fun _ => ?_⟩
    · rw [hd]; exact fileWriteAt_read _ _ _
    · unfold FS.openCreate at ho
      simp only [ActiveFile.writeAt] at ho
      cases hdir : fs.dir with
      | none => simp [hdir] at ho
      | some ids =>
        simp only [hdir] at ho
        by_cases hm : a.fid + 1 ∈ ids
        · simp only [hm, if_true, Option.some.injEq] at ho
          subst ho
          simp [FS.hasFile, hdir, hm]
        · simp only [hm, if_false, Option.some.injEq] at ho
          subst ho
          simp [FS.hasFile]

/-- C10, witness: with segment size 64, appending a 40-byte record at `(0, 31)` keeps it whole
in segment 0 and makes `(1, 0)` the active file. -/
theorem writeAt_soft_rotation_witness :
    ∃ s' fs', (Storage.mk 64 [0] (some ⟨0, 31⟩)).writeAt
        ⟨some [0], fun _ => List.replicate 31 0, []⟩ (List.replicate 40 1)
        = (.ok ⟨0, 31, 0, 0, 0⟩, s', fs') ∧
      ((fs'.data 0).drop 31).take 40 = List.replicate 40 1 ∧ s'.af = some ⟨1, 0⟩ :=
  ⟨_, _, rfl,
    (writeAt_soft_rotation (Storage.mk 64 [0] (some ⟨0, 31⟩)) _ ⟨some [0], fun _ => List.replicate 31 0, []⟩
      _ (List.replicate 40 1) ⟨0, 31⟩ ⟨0, 31, 0, 0, 0⟩ rfl rfl).2.2.1,
    (writeAt_soft_rotation (Storage.mk 64 [0] (some ⟨0, 31⟩)) _ ⟨some [0], fun _ => List.replicate 31 0, []⟩
      _ (List.replicate 40 1) ⟨0, 31⟩ ⟨0, 31, 0, 0, 0⟩ rfl rfl).2.2.2.1⟩

/-- C11, counterexample. Every segment file of the sample log is a concatenation of records that
`Encode` produced; `Dir` also holds an entry named `notes.dat`, and `recovery` returns an
error. -/
theorem recovery_rejects_foreign_dat_name :
    sampleLogNotes.readDir = some ["0.dat", "1.dat", "notes.dat"] ∧
    (∀ fid ∈ [0, 1], (∀ b ∈ sampleRecords fid, IsRecord b) ∧
      sampleLogNotes.data fid = (sampleRecords fid).flatten) ∧
    Option.map (fun r => (r.1, r.2.1.s.af))
      (DB.recovery 0 3 ⟨⟨fun _ => none⟩, ⟨0, [], none⟩⟩ ⟨1024⟩ sampleLogNotes)
      = some (.error .osErr, none) := by
  refine ⟨by decide!, fun fid hfid => ⟨fun b hb => ?_, rfl⟩, by decide!⟩
  simp only [List.mem_cons, List.mem_singleton, List.not_mem_nil, or_false] at hfid
  rcases hfid with rfl | rfl
  · simp only [sampleRecords, if_true, List.mem_cons, List.mem_singleton, List.not_mem_nil,
      or_false] at hb
    rcases hb with rfl | rfl
    · exact Or.inl ⟨7, [107], [118], by decide!⟩
    · exact Or.inr (by decide!)
  · simp [sampleRecords] at hb

/-- C11, amended. Recovery accepts well-formed logs: let every segment file of `Dir` be a
concatenation of records that `Encode` produced (put records and tombstones), and let the scan
have more fuel than any segment has records.  When `strconv.Atoi` accepts the prefix of every
entry of `Dir` with the extension `.dat`, `recovery` returns no error, the segment files keep
their content (and nothing is created when the segment files are the only entries with that
extension), every key of a put record has a directory entry, and when an id is listed the
highest listed id becomes the active file with its offset at the length of that file.  When
`strconv.Atoi` rejects the prefix of some entry with the extension `.dat`, `recovery` returns
that error and leaves the files as they were. -/
theorem recovery_accepts_wellformed_listing (d fuel : Nat) (opt : Options) (db0 : DB) (fs : FS)
    (ids : List Int) (recs : Int → List (List Byte))
    (hd : fs.dir = some ids)
    (hrec : ∀ fid ∈ ids, (∀ b ∈ recs fid, IsRecord b) ∧ fs.data fid = (recs fid).flatten)
    (hfuel0 : 0 < fuel) (hfuel : ∀ fid ∈ ids, (recs fid).length < fuel) :
    ((∀ f ∈ ids.map segmentName ++ fs.others, pathExt (pathBase f.data) = fileSuffix →
        Atoi (trimSuffix (pathBase f.data) fileSuffix) ≠ none) →
      ∃ fids db fs', getFids fs = .ok fids ∧ (∀ i ∈ ids, i ∈ fids) ∧
        DB.recovery d fuel db0 opt fs = some (.ok (), db, fs') ∧
        (∀ fid ∈ ids, fs'.data fid = fs.data fid) ∧ (NoForeignDat fs → fs' = fs) ∧
        (∀ p ∈ putRecordsSpec ids recs, ∃ i, db.kd.index p.key = some i) ∧
        (fids ≠ [] → ∃ m ∈ fids, (∀ i ∈ fids, i ≤ m) ∧
          db.s.af = some ⟨m, (fs'.data m).length⟩)) ∧
    ((∃ f ∈ ids.map segmentName ++ fs.others, pathExt (pathBase f.data) = fileSuffix ∧
        Atoi (trimSuffix (pathBase f.data) fileSuffix) = none) →
      ∃ db, DB.recovery d fuel db0 opt fs = some (.error .osErr, db, fs)) := by
  constructor
  · intro hacc
    have hg : ∃ fids, getFids fs = .ok fids := by
      rcases getFids_cases hd with ⟨_, f, hf, hext, hat⟩ | ⟨fids, h, _⟩
      · exact absurd hat (hacc f hf hext)
      · exact ⟨fids, h⟩
    obtain ⟨fids, hg⟩ := hg
    obtain ⟨hsub, hres, _, _⟩ := recovery_records d fuel opt db0 fs ids fids recs hd hrec hg
    obtain ⟨db, fs', h1, h2, h3, h4, h5⟩ := hres ⟨hfuel0, hfuel⟩
    refine ⟨fids, db, fs', hg, hsub, h1, h2, h3, fun p hp => ?_, h4⟩
    rw [h5]
    have hperm := List.perm_insertionSort (fun a b : Int => a ≤ b) fids
    exact applyPuts_mem p.key _ _ ⟨p, (mem_putRecordsSpec_iff ids _ recs
      (fun i hi => hperm.mem_iff.mpr (hsub i hi)) p).mpr hp, rfl⟩
  · rintro ⟨f, hf, hext, hat⟩
    have hg : getFids fs = .error .osErr := by
      rcases getFids_cases hd with ⟨h, _⟩ | ⟨_, _, _, h⟩
      · exact h
      · exact absurd hat (h f hf hext)
    exact ⟨{ kd := db0.kd,
             s := { fileSize := getSegmentSize d opt.SegmentSize, fds := [], af := none } },
      by simp only [DB.recovery, hg]⟩

/-- C11, witness: recovery of the sample log, whose `Dir` also holds `LOCK` and `7.txt`, returns
no error, leaves the files as they are and makes `(1, 0)` the active file. -/
theorem recovery_accepts_wellformed_listing_witness :
    ∃ db, DB.recovery 0 3 ⟨⟨fun _ => none⟩, ⟨0, [], none⟩⟩ ⟨1024⟩ sampleLog
        = some (.ok (), db, sampleLog) ∧
      (∃ i, db.kd.index [107] = some i) ∧ db.s.af = some ⟨1, 0⟩ := by
  have hrec : ∀ fid ∈ [0, 1], (∀ b ∈ sampleRecords fid, IsRecord b) ∧
      sampleLog.data fid = (sampleRecords fid).flatten := by
    intro fid hfid
    refine ⟨fun b hb => ?_, rfl⟩
    simp only [List.mem_cons, List.mem_singleton, List.not_mem_nil, or_false] at hfid
    rcases hfid with rfl | rfl
    · simp only [sampleRecords, if_true, List.mem_cons, List.mem_singleton, List.not_mem_nil,
        or_false] at hb
      rcases hb with rfl | rfl
      · exact Or.inl ⟨7, [107], [118], by decide!⟩
      · exact Or.inr (by decide!)
    · simp [sampleRecords] at hb
  have hI : NoForeignDat sampleLog := by
    intro f hf
    simp only [sampleLog, List.mem_cons, List.mem_singleton, List.not_mem_nil, or_false] at hf
    rcases hf with rfl | rfl <;> decide!
  obtain ⟨fids, db, fs', h0, _, h1, _, h3, h4, h5⟩ :=
    (recovery_accepts_wellformed_listing 0 3 ⟨1024⟩ ⟨⟨fun _ => none⟩, ⟨0, [], none⟩⟩ sampleLog
      [0, 1] sampleRecords rfl hrec (by decide) (by decide)).1 (by decide!)
  have hf : fids = [0, 1] := by
    have : getFids sampleLog = .ok [0, 1] := by decide!
    rw [this] at h0
    injection h0 with h0
    exact h0.symm
  subst hf
  rw [h3 hI] at h1
  obtain ⟨m, hm, hmax, haf⟩ := h5 (by decide)
  have hm1 : m = 1 := by
    have := hmax 1 (by decide)
    simp only [List.mem_cons, List.mem_singleton, List.not_mem_nil, or_false] at hm
    omega
  subst hm1
  rw [h3 hI] at haf
  exact ⟨db, h1, h4 ⟨0, 0, [107], 7⟩ (by decide!), haf⟩

/-- C12. Delete of an absent key fails atomically: with no directory entry for `k`, `Delete(k)`
returns `ErrKeyNotFound` and leaves the engine and every file as they were (nothing appended,
directory and active cursor unchanged); `Get(k)` returns `ErrKeyNotFound` as well. -/
theorem delete_absent_atomic (db : DB) (fs : FS) (k : List Byte)
    (h : db.kd.find k = none) :
    db.Delete fs k = (.error .ErrKeyNotFound, db, fs) ∧
    db.Get fs k = (.error .ErrKeyNotFound, db) := by
  constructor
  · simp only [DB.Delete, h]
  · simp only [DB.Get, h]

/-- C12, witness: an engine with an empty directory. -/
theorem delete_absent_atomic_witness :
    (DB.mk ⟨fun _ => none⟩ ⟨1024, [0], some ⟨0, 0⟩⟩).kd.find [97] = none ∧
    (DB.mk ⟨fun _ => none⟩ ⟨1024, [0], some ⟨0, 0⟩⟩).Delete ⟨some [0], fun _ => [], []⟩ [97]
      = (.error .ErrKeyNotFound, DB.mk ⟨fun _ => none⟩ ⟨1024, [0], some ⟨0, 0⟩⟩,
          ⟨some [0], fun _ => [], []⟩) :=
  ⟨rfl, (delete_absent_atomic (DB.mk ⟨fun _ => none⟩ ⟨1024, [0], some ⟨0, 0⟩⟩)
    ⟨some [0], fun _ => [], []⟩ [97] rfl).1⟩

/-- C13, counterexample. With the entries `0.dat` and `notes.dat` in `Dir`, one segment file in
the spec's reading of the names, `Merge` returns the error of `strconv.Atoi` and not
`ErrNoNeedToMerge`.  With the entries `-1.dat` and `0.dat`, again one segment file in the
spec's reading, `Merge` returns no error and removes `-1.dat`. -/
theorem merge_foreign_dat_names :
    Option.map (List.filterMap segmentIdSpec)
      (FS.readDir ⟨some [0], fun _ => [], ["notes.dat"]⟩) = some [0] ∧
    Option.map (fun r => (r.1, r.2.2.dir))
      ((DB.mk ⟨fun _ => none⟩ ⟨1024, [0], some ⟨0, 0⟩⟩).Merge 5
        ⟨some [0], fun _ => [], ["notes.dat"]⟩)
      = some (.error .osErr, some [0]) ∧
    Option.map (List.filterMap segmentIdSpec)
      (FS.readDir ⟨some [-1, 0], fun _ => [], []⟩) = some [0] ∧
    Option.map (fun r => (r.1, r.2.2.dir))
      ((DB.mk ⟨fun _ => none⟩ ⟨1024, [0], some ⟨0, 0⟩⟩).Merge 5 ⟨some [-1, 0], fun _ => [], []⟩)
      = some (.ok (), some [0]) := by
  decide!

/-- C13, amended. When `Dir` lists fewer than two entries with the extension `.dat` and
`strconv.Atoi` accepts the prefix of each of them, `Merge` returns `ErrNoNeedToMerge`, and the
engine state and the file system are unchanged.  When `strconv.Atoi` rejects the prefix of some
entry with the extension `.dat`, `Merge` returns that error, and the engine state and the file
system are unchanged as well. -/
theorem merge_needs_two_dat_entries (fuel : Nat) (db : DB) (fs : FS) (files : List String)
    (hd : fs.readDir = some files) :
    ((∀ f ∈ files, pathExt (pathBase f.data) = fileSuffix →
        Atoi (trimSuffix (pathBase f.data) fileSuffix) ≠ none) →
      (files.filter (fun f => decide (pathExt (pathBase f.data) = fileSuffix))).length < 2 →
      db.Merge fuel fs = some (.error .ErrNoNeedToMerge, db, fs)) ∧
    ((∃ f ∈ files, pathExt (pathBase f.data) = fileSuffix ∧
        Atoi (trimSuffix (pathBase f.data) fileSuffix) = none) →
      db.Merge fuel fs = some (.error .osErr, db, fs)) := by
  have hg : getFids fs = getFidsLoop files [] := by
    simp only [getFids, hd, getFidsNames]
  constructor
  · intro hacc hlen
    rw [← length_filterMap_nameFid files hacc] at hlen
    have := getFidsLoop_accepted files hacc []
    rw [List.nil_append] at this
    simp only [DB.Merge, hg, this, hlen, if_true]
  · rintro ⟨f, hf, hext, hat⟩
    simp only [DB.Merge, hg, getFidsLoop_bad_name files f hf hext hat []]

/-- C13, witness: a store with the single segment 0 and an entry `LOCK` in `Dir`. -/
theorem merge_needs_two_dat_entries_witness :
    (DB.mk ⟨fun _ => none⟩ ⟨1024, [0], some ⟨0, 0⟩⟩).Merge 5 ⟨some [0], fun _ => [], ["LOCK"]⟩
      = some (.error .ErrNoNeedToMerge, DB.mk ⟨fun _ => none⟩ ⟨1024, [0], some ⟨0, 0⟩⟩,
          ⟨some [0], fun _ => [], ["LOCK"]⟩) :=
  (merge_needs_two_dat_entries 5 _ ⟨some [0], fun _ => [], ["LOCK"]⟩ ["0.dat", "LOCK"]
    (by decide!)).1 (by decide!) (by decide!)

/-- C14, counterexample. For the listing `0.dat`, `notes.dat` the spec's enumeration is `[0]`
and `getFids` returns an error; for `-1.dat`, which the spec ignores, `getFids` returns the
id `-1`. -/
theorem getFids_foreign_dat_names :
    List.filterMap segmentIdSpec ["0.dat", "notes.dat"] = [0] ∧
    getFidsNames ["0.dat", "notes.dat"] = .error .osErr ∧
    segmentIdSpec "-1.dat" = none ∧
    getFidsNames ["-1.dat"] = .ok [-1] := by
  decide!

/-- C14, amended. When every entry of the listing either has an extension other than `.dat`
or is named `<n>.dat` with `<n>` a non-empty string of decimal digits of value below `2^63`,
`getFids` returns without error exactly the ids `n` of the `<n>.dat` entries, in listing order,
and ignores the other entries.  When some entry has the extension `.dat` and a prefix that
`strconv.Atoi` rejects, `getFids` returns an error. -/
theorem getFids_segment_names (files : List String) :
    ((∀ f ∈ files, pathExt (pathBase f.data) ≠ fileSuffix ∨
        ∃ n, segmentIdSpec f = some n ∧ n < 2 ^ 63) →
      getFidsNames files = .ok ((files.filterMap segmentIdSpec).map Int.ofNat)) ∧
    ((∃ f ∈ files, pathExt (pathBase f.data) = fileSuffix ∧
        Atoi (trimSuffix (pathBase f.data) fileSuffix) = none) →
      getFidsNames files = .error .osErr) := by
  constructor
  · intro h
    have := getFidsLoop_segment_names files h []
    simpa [getFidsNames] using this
  · rintro ⟨f, hf, hext, hat⟩
    exact getFidsLoop_bad_name files f hf hext hat []

/-- C14, witness: `0.dat`, `12.dat`, `1.txt`, `007.dat` give the ids 0, 12, 7. -/
theorem getFids_segment_names_witness :
    getFidsNames ["0.dat", "12.dat", "1.txt", "007.dat"] = .ok [0, 12, 7] :=
  (getFids_segment_names ["0.dat", "12.dat", "1.txt", "007.dat"]).1 (by decide!)

/-- C15, failing input. `NewDB` on a `Dir` that exists and is empty returns an engine without an
active file (no `0.dat` is created), and the first `Set("a","1")` panics on the nil active
file. -/
theorem set_after_open_of_empty_dir_panics :
    Option.map (fun r => (r.1, r.2.1.s.af, r.2.2.dir))
      (runStore 0 5 ⟨64⟩ ⟨some [], fun _ => [], []⟩ [.set 1 [97] [49]])
      = some ([.panic], none, some []) := by
  decide!

/-- C16, failing input. `Set("a","1")` on a fresh store, then a reopen: the directory entry for
`"a"` is `(fid 0, off 0)` with `keySize = 0` and `valueSize = 0`, while the record at offset 0 of
segment 0 stores `keySize = 1` (byte 20) and `valueSize = 1` (byte 24). -/
theorem index_sizes_zero_after_recovery :
    Option.map (fun r => (r.1, r.2.1.kd.index [97], r.2.2.data 0))
      (runStore 0 5 ⟨1024⟩ FS.absent [.set 1 [97] [49], .reopen 0 5 ⟨1024⟩])
      = some ([.done, .done], some ⟨0, 0, 1, 0, 0⟩,
          [67, 92, 89, 135, 0, 0, 0, 0, 0, 0, 0, 0, 1, 0, 0, 0, 0, 0, 0, 0, 1, 0, 0, 0, 1, 0, 0,
            0, 0, 97, 49]) := by
  decide!

/-- C17, failing input. With segment size 32, `Set("k","v1")` fills segment 0 and rotates.
`Merge` returns no error, re-appends nothing (segment 1 stays empty) although the record at
`(0, 0)` is the one the directory points to, and unlinks segment 0: the directory entry of
`"k"` still references the unlinked segment, and after a reopen the key is gone. -/
theorem merge_skips_live_record :
    Option.map (fun r => r.1)
      (runStore 0 5 ⟨32⟩ FS.absent
        [.set 1 [107] [118, 49], .merge 5, .get [107], .reopen 0 5 ⟨32⟩, .get [107]])
      = some [.done, .done, .value [118, 49], .done, .error .ErrKeyNotFound] ∧
    Option.map (fun r => (r.2.1.kd.index [107], r.2.2.dir, r.2.2.data 1))
      (runStore 0 5 ⟨32⟩ FS.absent [.set 1 [107] [118, 49], .merge 5])
      = some (some ⟨0, 0, 0, 1, 2⟩, some [1], []) := by
  constructor <;> decide!

/-- C18, failing input. After `Set("a","1"); Set("b","2")`, bit 0 of byte 28 of segment 0 (the
flag of the first record) is flipped, so the stored crc of that record no longer matches its
bytes 4..end.  The recovery scan of a reopen returns no error: `readEntry` returns the record as
a tombstone before it compares the checksum, and the scan skips it. -/
theorem recovery_accepts_crc_mismatch :
    Option.bind (runStore 0 5 ⟨1024⟩ FS.absent [.set 1 [97] [49], .set 2 [98] [50]])
      (fun r => Option.map (fun q => (q.1, q.2.1.kd.index [97], q.2.1.kd.index [98]))
        (DB.run r.2.1 (r.2.2.flip 0 28 0) [.reopen 0 5 ⟨1024⟩]))
      = some ([.done], none, some ⟨0, 31, 2, 0, 0⟩) := by
  decide!

/-- C20. Append-cursor invariant: in every state reached from a freshly created store by `Set`,
`Get`, `Delete` and `Merge` calls, the offset of the active file is the byte length of the
active segment file, and the id of the active file is the highest id among the segment files
in `Dir`. -/
theorem append_cursor_invariant (db : DB) (fs : FS) (h : ReachableFresh db fs) :
    ∃ a ids, db.s.af = some a ∧ fs.dir = some ids ∧
      a.off = (fs.data a.fid).length ∧ a.fid ∈ ids ∧ ∀ i ∈ ids, i ≤ a.fid := by
  obtain ⟨d, fuel, opt, data, ops, os, hops, hrun⟩ := h
  unfold runStore at hrun
  have hnew : NewDB d fuel opt ⟨none, data, []⟩
      = some (.ok { kd := { index := fun _ => none },
                    s := { fileSize := getSegmentSize d opt.SegmentSize, fds := [0],
                           af := some ⟨0, 0⟩ } },
              { dir := some [0], data := Function.update data 0 [], others := [] }) := by
    simp [NewDB, NewStorage]
  rw [hnew] at hrun
  simp only at hrun
  have hA0 := NewDB_ActiveIsLast d fuel opt ⟨none, data, []⟩ _ _ (fun ids h => by cases h)
    (fun f hf => absurd hf (List.not_mem_nil _)) hnew
  obtain ⟨hA, a, ha, hoff⟩ := run_CursorAtEnd ops hops _ _ os db fs hrun hA0
    ⟨⟨0, 0⟩, rfl, by simp⟩
  obtain ⟨_, ids, hd, _, hm⟩ := hA
  rw [ha] at hm
  exact ⟨a, ids, ha, hd, hoff, hm.1, hm.2⟩

/-- C20, witness: segment size 64, two `Set` calls rotate to segment 1, then `Merge`. -/
theorem append_cursor_invariant_witness :
    ∃ db fs, ReachableFresh db fs ∧ fs.dir = some [1] ∧
      ∃ a, db.s.af = some a ∧ a.off = (fs.data a.fid).length := by
  have hsome : Option.map (fun r => r.2.2.dir) (runStore 0 0 ⟨64⟩ ⟨none, fun _ => [], []⟩
      [.set 1 [107] [118, 49], .set 2 [107] [118, 50], .merge 5]) = some (some [1]) := by
    decide!
  cases hr : runStore 0 0 ⟨64⟩ ⟨none, fun _ => [], []⟩
      [.set 1 [107] [118, 49], .set 2 [107] [118, 50], .merge 5] with
  | none => rw [hr] at hsome; cases hsome
  | some r =>
    obtain ⟨os, db, fs⟩ := r
    rw [hr] at hsome
    simp only [Option.map_some', Option.some.injEq] at hsome
    have hreach : ReachableFresh db fs :=
      ⟨0, 0, ⟨64⟩, fun _ => [], _, os, (by decide), hr⟩
    obtain ⟨a, ids, ha, _, hoff, _, _⟩ := append_cursor_invariant db fs hreach
    exact ⟨db, fs, hreach, hsome, a, ha, hoff⟩

end Bitcask
